import Mathlib

/-!
# Configuration reconciliation of `post-install.js`

A shallow embedding of `getAllKeys`, `keyMigrationMap` and the pure core of
`addMissingConfigValues` (the migration loop followed by the defaults merge),
together with the lodash operations the code calls: `_.has`, `_.get`, `_.set`,
`_.unset`, `_.defaultsDeep`, `_.difference` and `_.flatMap`.

## What a value is

A configuration value is what `yaml.parse` hands to JavaScript, plus `undefined`
(the result of a transform such as `() => void 0`).  A JavaScript array is an
object whose fields are its indices `"0"`, `"1"`, ...; it may carry further named
fields (lodash writes them when a path leads through an array), so mappings and
sequences share one constructor and differ by the `isArray` flag, exactly as
lodash's `isObject` sees them.  The field list is the object's own enumerable
properties in `Object.keys` order.

## What is not covered

* numbers are integers that a JavaScript number holds exactly (no floating
  point, `NaN` or infinities);
* property access is own-property access: field names and path segments naming a
  member of `Object.prototype` (`constructor`, `toString`, `__proto__`, ...) or
  `prototype` are outside the embedding;
* the `length` of arrays and strings and the characters of a string are not
  properties here, so path segments `length` and array indices into strings or
  into holes of an array are outside the embedding;
* keys of migration rules are dot-separated names without brackets or quotes
  (as all keys of `keyMigrationMap` are); the theorems on arbitrary tables
  say so in the hypothesis `plainKeys`, which also keeps array indices and
  reserved names out of the keys;
* a template literal prints an integer from `10^21` on in exponent form, which
  `toJsString` does not;
* `_.defaultsDeep` with a string as source or a primitive as object (lodash
  merges the characters of the string, and boxes the primitive);
* a `Value` is a tree: a configuration in which no object is reached by two
  paths, so that the copy lodash makes of a default subtree is that subtree.
  Configurations in which a YAML alias shares an object are the `Node`s of
  the section on shared objects, where the lodash calls change objects in
  place; on configurations without shared objects the two agree
  (`migrateKeys_unshared`, `addMissingConfigValuesWith_unshared`).  Cycles
  are not covered.

Paths are lists of segments; `castPath` turns the dot-separated key of a rule
into one, as lodash does: a key that names a field of the root is that one
segment, any other key is split at its dots.
-/

namespace PostInstall

/-! ## Values -/

/-- A JavaScript value of a configuration tree. -/
inductive Value where
  | undefined
  | null
  | bool (b : Bool)
  | num (n : Int)
  | str (s : String)
  | obj (isArray : Bool) (fields : List (String × Value))
  deriving Repr, Inhabited

/-- The own enumerable properties of an object, in `Object.keys` order. -/
abbrev Fields := List (String × Value)

namespace Value

/-- The lodash predicate `isObject`: arrays and plain objects, not `null`. -/
def isObject : Value → Bool
  | .obj _ _ => true
  | _ => false

/-- The test `typeof v === 'object'`, which `null` passes. -/
def typeofObject : Value → Bool
  | .null => true
  | .obj _ _ => true
  | _ => false

/-- The test `Array.isArray(v)`. -/
def isArray : Value → Bool
  | .obj true _ => true
  | _ => false

/-- The test `v == null`. -/
def isNullish : Value → Bool
  | .undefined => true
  | .null => true
  | _ => false

/-- JavaScript truthiness (`ToBoolean`). -/
def truthy : Value → Bool
  | .undefined => false
  | .null => false
  | .bool b => b
  | .num n => n != 0
  | .str s => s != ""
  | .obj _ _ => true

/-- A scalar of the configuration format: string, number, boolean or null. -/
def isScalar : Value → Bool
  | .null => true
  | .bool _ => true
  | .num _ => true
  | .str _ => true
  | _ => false

end Value

/-! ## Own properties -/

/-- The value of the own property `k`, if the object has it. -/
def lookup (k : String) : Fields → Option Value
  | [] => none
  | (k', v) :: rest => if k' = k then some v else lookup k rest

/-- The field names, in order. -/
def keys (fs : Fields) : List String := fs.map Prod.fst

/-- The regular expression `^(?:0|[1-9]\d*)$`, with the number it denotes. -/
def parseUint (s : String) : Option Nat :=
  match s.data with
  | [] => none
  | [c] => if c.isDigit then some (c.toNat - 48) else none
  | c :: cs =>
    if c ≠ '0' ∧ (c :: cs).all Char.isDigit then
      some ((c :: cs).foldl (fun n d => 10 * n + (d.toNat - 48)) 0)
    else none

/-- An array index in the sense of the language: at most `2^32 - 2`.  Such
    names are enumerated first, in ascending numeric order. -/
def arrayIndex (s : String) : Option Nat :=
  match parseUint s with
  | some n => if n < 4294967295 then some n else none
  | none => none

/-- The lodash predicate `isIndex(value)` on a path segment. -/
def isIndex (s : String) : Bool :=
  match parseUint s with
  | some n => decide (n < 9007199254740991)
  | none => false

/-- Placement of a new index-named property: after the smaller indices and
    before everything else. -/
def insertIndexed (i : Nat) (k : String) (v : Value) : Fields → Fields
  | [] => [(k, v)]
  | (k', v') :: rest =>
    match arrayIndex k' with
    | some j => if j < i then (k', v') :: insertIndexed i k v rest else (k, v) :: (k', v') :: rest
    | none => (k, v) :: (k', v') :: rest

/-- Creation of the own property `k`, absent so far: a name goes last, an
    array index goes to its numeric place. -/
def insertField (k : String) (v : Value) (fs : Fields) : Fields :=
  match arrayIndex k with
  | none => fs ++ [(k, v)]
  | some i => insertIndexed i k v fs

/-- Overwriting the value of the existing own property `k`, in place. -/
def replaceField (k : String) (v : Value) : Fields → Fields
  | [] => []
  | (k', v') :: rest =>
    if k' = k then (k', v) :: rest else (k', v') :: replaceField k v rest

/-- The assignment `object[k] = v`. -/
def assignField (k : String) (v : Value) (fs : Fields) : Fields :=
  if (lookup k fs).isSome then replaceField k v fs else insertField k v fs

/-- The statement `delete object[k]`. -/
def deleteField (k : String) : Fields → Fields
  | [] => []
  | (k', v) :: rest => if k' = k then deleteField k rest else (k', v) :: deleteField k rest

/-- The expression `object[key]` (own properties only). -/
def prop (v : Value) (k : String) : Value :=
  match v with
  | .obj _ fs => (lookup k fs).getD .undefined
  | _ => .undefined

/-- The test `hasOwnProperty.call(object, key)`. -/
def hasOwn (v : Value) (k : String) : Bool :=
  match v with
  | .obj _ fs => (lookup k fs).isSome
  | _ => false

/-! ## `getAllKeys` (lines 118-131) -/

mutual
/-- The function `getAllKeys(obj, prefix)`. -/
def getAllKeys : Value → String → List String
  | .obj false fs, pre => getAllKeysFields fs pre
  | _, _ => []
termination_by structural v => v
/-- The `_.flatMap(Object.keys(obj), key => ...)` of `getAllKeys`. -/
def getAllKeysFields : List (String × Value) → String → List String
  | [], _ => []
  | (key, v) :: rest, pre =>
    (if v.typeofObject && !v.isArray then
        getAllKeys v (if pre ≠ "" then pre ++ "." ++ key else key)
      else [if pre ≠ "" then pre ++ "." ++ key else key])
      ++ getAllKeysFields rest pre
termination_by structural fs => fs
end

/-! ## lodash paths -/

/-- The segments of a dot-separated key (lodash `stringToPath` on a key without
    brackets), on characters. -/
def splitChars : List Char → List (List Char)
  | [] => [[]]
  | c :: cs =>
    if c = '.' then [] :: splitChars cs
    else
      match splitChars cs with
      | seg :: segs => (c :: seg) :: segs
      | [] => [[c]]

/-- The function `stringToPath` of lodash, for keys without brackets. -/
def stringToPath (key : String) : List String :=
  (splitChars key.data).map String.mk

/-- The function `isKey(value, object)` of lodash: a key without a dot is a
    property name, and so is a key that names a property of the object itself. -/
def isKey (key : String) (object : Value) : Bool :=
  !key.data.contains '.' || hasOwn object key

/-- The function `castPath(value, object)` of lodash. -/
def castPath (key : String) (object : Value) : List String :=
  if isKey key object then [key] else stringToPath key

/-- The function `hasPath(object, path, baseHas)` of lodash on a cast path. -/
def hasPath : Value → List String → Bool
  | _, [] => false
  | v, [k] => hasOwn v k
  | v, k :: rest => hasOwn v k && hasPath (prop v k) rest

/-- The loop of `baseGet`: follow the path while the object is not nullish. -/
def getPath : Value → List String → Value
  | v, [] => v
  | v, k :: rest => if v.isNullish then .undefined else getPath (prop v k) rest

/-- The loop of `baseSet`: write `value` at the path below `nested`, creating
    an object (an array before an index) wherever the path meets a
    non-object. -/
def setPath : Value → List String → Value → Value
  | nested, [], _ => nested
  | .obj a fs, [k], value => .obj a (assignField k value fs)
  | .obj a fs, k :: next :: rest, value =>
    let objValue := (lookup k fs).getD .undefined
    let newValue := if objValue.isObject then objValue else .obj (isIndex next) []
    .obj a (assignField k (setPath newValue (next :: rest) value) fs)
  | v, _, _ => v

/-- The function `baseUnset`: delete the last segment from its parent, if the
    parent is there. -/
def unsetPath : Value → List String → Value
  | v, [] => v
  | .obj a fs, [k] => .obj a (deleteField k fs)
  | .obj a fs, k :: next :: rest =>
    match lookup k fs with
    | some child => .obj a (replaceField k (unsetPath child (next :: rest)) fs)
    | none => .obj a fs
  | v, _ => v

/-- The call `_.has(object, path)`. -/
def has (object : Value) (key : String) : Bool :=
  !object.isNullish && hasPath object (castPath key object)

/-- The call `_.get(object, path)`. -/
def get (object : Value) (key : String) : Value :=
  if object.isNullish then .undefined else getPath object (castPath key object)

/-- The call `_.set(object, path, value)`; the result is the object after the call. -/
def set (object : Value) (key : String) (value : Value) : Value :=
  if object.isNullish then object else setPath object (castPath key object) value

/-- The call `_.unset(object, path)`; the result is the object after the call. -/
def unset (object : Value) (key : String) : Value :=
  if object.isNullish then object else unsetPath object (castPath key object)

/-! ## `_.defaultsDeep` -/

mutual
/-- The function `baseMerge(object, source, ..., customDefaultsMerge)`: every
    property of the source, in order, is merged into the object. -/
def baseMerge : List (String × Value) → List (String × Value) → List (String × Value)
  | ofs, [] => ofs
  | ofs, (key, srcValue) :: rest => baseMerge (mergeKey ofs key srcValue) rest
termination_by structural _ sfs => sfs
/-- One property of the source: an absent or `undefined` property of the object
    takes the source value; two objects (arrays included) are merged
    recursively; otherwise the object keeps its value. -/
def mergeKey (ofs : List (String × Value)) (key : String) : Value → List (String × Value)
  | .obj b sfs =>
    match lookup key ofs with
    | none => insertField key (.obj b sfs) ofs
    | some .undefined => replaceField key (.obj b sfs) ofs
    | some (.obj a ofs') => replaceField key (.obj a (baseMerge ofs' sfs)) ofs
    | some _ => ofs
  | srcValue =>
    match lookup key ofs with
    | none => insertField key srcValue ofs
    | some .undefined => replaceField key srcValue ofs
    | some _ => ofs
termination_by structural srcValue => srcValue
end

/-- The call `_.defaultsDeep(object, source)`.  A nullish object becomes an
    empty one; a source that is not an object has no properties to give.  (A
    configuration tree is a mapping; merging into a boxed primitive is outside
    the embedding.) -/
def defaultsDeep (object source : Value) : Value :=
  match object, source with
  | .obj a ofs, .obj _ sfs => .obj a (baseMerge ofs sfs)
  | .undefined, .obj _ sfs => .obj false (baseMerge [] sfs)
  | .null, .obj _ sfs => .obj false (baseMerge [] sfs)
  | object, _ => object

/-- The call `_.difference(array, values)` on strings. -/
def difference (array values : List String) : List String :=
  array.filter (fun x => !values.contains x)

/-! ## The migration table (lines 18-110) -/

mutual
/-- The conversion of a value to a string in a template literal.  An array is
    joined from its elements (its index fields, in order). -/
def toJsString : Value → String
  | .undefined => "undefined"
  | .null => "null"
  | .bool true => "true"
  | .bool false => "false"
  | .num n => toString n
  | .str s => s
  | .obj true fs => ",".intercalate (elementStrings fs)
  | .obj false _ => "[object Object]"
termination_by structural v => v
/-- The strings `Array.prototype.join` puts between the commas: empty for
    `null` and `undefined`. -/
def elementStrings : List (String × Value) → List String
  | [] => []
  | (k, v) :: rest =>
    if (arrayIndex k).isSome then
      (if v.isNullish then "" else toJsString v) :: elementStrings rest
    else elementStrings rest
termination_by structural fs => fs
end

/-- An entry of `keyMigrationMap`. -/
structure MigrationRule where
  oldKey : String
  newKey : String
  migrate : Value → Value
  remove : Bool := false

/-- The table `keyMigrationMap`. -/
def keyMigrationMap : List MigrationRule := [
  { oldKey := "disableThumbnails", newKey := "thumbnails.enabled",
    migrate := fun value => .bool (!value.truthy) },
  { oldKey := "thumbnailsQuality", newKey := "thumbnails.quality",
    migrate := fun value => value },
  { oldKey := "avatarThumbnailsPng", newKey := "thumbnails.format",
    migrate := fun value => if value.truthy then .str "png" else .str "jpg" },
  { oldKey := "disableChatBackup", newKey := "backups.chat.enabled",
    migrate := fun value => .bool (!value.truthy) },
  { oldKey := "numberOfBackups", newKey := "backups.common.numberOfBackups",
    migrate := fun value => value },
  { oldKey := "maxTotalChatBackups", newKey := "backups.chat.maxTotalBackups",
    migrate := fun value => value },
  { oldKey := "chatBackupThrottleInterval", newKey := "backups.chat.throttleInterval",
    migrate := fun value => value },
  { oldKey := "enableExtensions", newKey := "extensions.enabled",
    migrate := fun value => value },
  { oldKey := "enableExtensionsAutoUpdate", newKey := "extensions.autoUpdate",
    migrate := fun value => value },
  { oldKey := "extras.disableAutoDownload", newKey := "extensions.models.autoDownload",
    migrate := fun value => .bool (!value.truthy) },
  { oldKey := "extras.classificationModel", newKey := "extensions.models.classification",
    migrate := fun value => value },
  { oldKey := "extras.captioningModel", newKey := "extensions.models.captioning",
    migrate := fun value => value },
  { oldKey := "extras.embeddingModel", newKey := "extensions.models.embedding",
    migrate := fun value => value },
  { oldKey := "extras.speechToTextModel", newKey := "extensions.models.speechToText",
    migrate := fun value => value },
  { oldKey := "extras.textToSpeechModel", newKey := "extensions.models.textToSpeech",
    migrate := fun value => value },
  { oldKey := "minLogLevel", newKey := "logging.minLogLevel",
    migrate := fun value => value },
  { oldKey := "cardsCacheCapacity", newKey := "performance.memoryCacheCapacity",
    migrate := fun value => .str (toJsString value ++ "mb") },
  { oldKey := "cookieSecret", newKey := "cookieSecret",
    migrate := fun _ => .undefined, remove := true } ]

/-! ## `addMissingConfigValues` (lines 162-222) -/

/-- An element of `migratedKeys`: a removal pushes `oldKey` and an undefined
    `newValue` only. -/
structure MigratedKey where
  oldKey : String
  newKey : Option String
  oldValue : Option Value
  newValue : Value

/-- The body of the migration loop (lines 169-192) for one rule. -/
def migrateStep (state : Value × List MigratedKey) (rule : MigrationRule) :
    Value × List MigratedKey :=
  let config := state.1
  if has config rule.oldKey then
    if rule.remove then
      (unset config rule.oldKey,
        state.2 ++ [{ oldKey := rule.oldKey, newKey := none, oldValue := none, newValue := .undefined }])
    else
      let oldValue := get config rule.oldKey
      let newValue := rule.migrate oldValue
      (unset (set config rule.newKey newValue) rule.oldKey,
        state.2 ++ [{ oldKey := rule.oldKey, newKey := some rule.newKey,
                      oldValue := some oldValue, newValue := newValue }])
  else state

/-- The migration loop (lines 168-192) over a table. -/
def migrateKeys (config : Value) (table : List MigrationRule) : Value × List MigratedKey :=
  table.foldl migrateStep (config, [])

/-- The defaults pass (lines 194-204): the merged configuration and `addedKeys`. -/
def reconcile (config defaultConfig : Value) : Value × List String :=
  let originalKeys := getAllKeys config ""
  let merged := defaultsDeep config defaultConfig
  let updatedKeys := getAllKeys merged ""
  (merged, difference updatedKeys originalKeys)

/-- What `addMissingConfigValues` computes from the two parsed files. -/
structure Outcome where
  config : Value
  migratedKeys : List MigratedKey
  addedKeys : List String
  written : Bool

/-- The pure core of `addMissingConfigValues` for a given table: the file is
    written unless both lists are empty (lines 206-218). -/
def addMissingConfigValuesWith (table : List MigrationRule) (defaultConfig config : Value) :
    Outcome :=
  let migrated := migrateKeys config table
  let reconciled := reconcile migrated.1 defaultConfig
  { config := reconciled.1
    migratedKeys := migrated.2
    addedKeys := reconciled.2
    written := !(reconciled.2.length == 0 && migrated.2.length == 0) }

/-- The pure core of `addMissingConfigValues`. -/
def addMissingConfigValues (defaultConfig config : Value) : Outcome :=
  addMissingConfigValuesWith keyMigrationMap defaultConfig config

/-! ## Well-formed trees -/

mutual
/-- The field names of every object of the value are distinct, as the
    property names of a JavaScript object are. -/
def Value.wf : Value → Bool
  | .obj _ fs => wfFields fs
  | _ => true
termination_by structural v => v
/-- The field names of a field list are distinct, at every depth. -/
def wfFields : List (String × Value) → Bool
  | [] => true
  | (k, v) :: rest => (lookup k rest).isNone && v.wf && wfFields rest
termination_by structural fs => fs
end

/-- The value `_.defaultsDeep` leaves at a property the source has with value
    `srcValue`, given what the object has there. -/
def mergedAt (objValue : Option Value) (srcValue : Value) : Value :=
  match objValue, srcValue with
  | none, _ => srcValue
  | some .undefined, _ => srcValue
  | some (.obj a ofs), .obj _ sfs => .obj a (baseMerge ofs sfs)
  | some v, _ => v

mutual
/-- Merging the source value at `k` into the fields changes nothing. -/
def absorbsKey (ofs : List (String × Value)) (k : String) : Value → Prop
  | .obj _ sfs =>
    match lookup k ofs with
    | none => False
    | some .undefined => False
    | some (.obj _ cfs) => absorbsAll cfs sfs
    | some _ => True
  | .undefined => (lookup k ofs).isSome = true
  | _ =>
    match lookup k ofs with
    | none => False
    | some .undefined => False
    | some _ => True
termination_by structural srcValue => srcValue
/-- Merging any of the source fields into the fields changes nothing. -/
def absorbsAll (ofs : List (String × Value)) : List (String × Value) → Prop
  | [] => True
  | (k, sv) :: rest => absorbsKey ofs k sv ∧ absorbsAll ofs rest
termination_by structural sfs => sfs
end

/-! ## Paths that part ways -/

/-- Two paths part ways: at some position they have different segments, so
    that neither is equal to, a beginning of, or an extension of the other. -/
def diverge : List String → List String → Bool
  | a :: p, b :: q => if a = b then diverge p q else true
  | _, _ => false

/-- Two keys are apart: their dot-separated paths part ways. -/
def keysApart (k k' : String) : Bool :=
  diverge (stringToPath k) (stringToPath k')

/-- The key contains a dot. -/
def dotted (key : String) : Bool := key.data.contains '.'

/-- The keys of two different rules are path-disjoint: the old keys are apart
    from each other and from the new key of the other rule, and the new keys
    are apart; the new key of a removing rule is never used and does not
    count. -/
def rulesApart (r s : MigrationRule) : Bool :=
  keysApart r.oldKey s.oldKey
    && (s.remove || keysApart r.oldKey s.newKey)
    && (r.remove || keysApart r.newKey s.oldKey)
    && (r.remove || s.remove || keysApart r.newKey s.newKey)

/-- The old key of a rule is apart from its own new key, unless it removes. -/
def selfApart (r : MigrationRule) : Bool :=
  r.remove || keysApart r.oldKey r.newKey

/-- A path-disjoint table. -/
def pathDisjoint : List MigrationRule → Bool
  | [] => true
  | r :: rest => selfApart r && rest.all (rulesApart r) && pathDisjoint rest

/-! ## The loop seen from the original tree -/

/-- What a rule does to the current tree when its test and its old value are
    taken from the tree `original`. -/
def plannedStep (original : Value) (config : Value) (rule : MigrationRule) : Value :=
  if has original rule.oldKey then
    if rule.remove then unset config rule.oldKey
    else unset (set config rule.newKey (rule.migrate (get original rule.oldKey))) rule.oldKey
  else config

/-- The record a rule pushes when its test and its old value are taken from
    the tree `original`. -/
def plannedRecord (original : Value) (rule : MigrationRule) : Option MigratedKey :=
  if has original rule.oldKey then
    if rule.remove then
      some { oldKey := rule.oldKey, newKey := none, oldValue := none, newValue := .undefined }
    else
      some { oldKey := rule.oldKey, newKey := some rule.newKey,
             oldValue := some (get original rule.oldKey),
             newValue := rule.migrate (get original rule.oldKey) }
  else none

/-- No field of the tree is named like a dotted old key of the table (lodash
    would take such a field for the key itself). -/
def literalFree (config : Value) (table : List MigrationRule) : Bool :=
  table.all (fun r => !(dotted r.oldKey && hasOwn config r.oldKey))

/-- The path keeps clear of a key: it parts ways with the path of the key and
    does not start with a field named like the key. -/
def pathClear (p : List String) (key : String) : Bool :=
  diverge p (stringToPath key) && diverge p [key]

/-! ## The same tree, whatever the order of the fields -/

/-- Two values are the same tree as a mapping: they are equal, or they are
    objects of the same kind with the same field names and, under each name,
    values that are the same tree; the order of the fields does not count. -/
inductive SameTree : Value → Value → Prop
  | refl (v : Value) : SameTree v v
  | obj (a : Bool) (fs gs : List (String × Value)) :
      (∀ k, (lookup k fs).isSome = (lookup k gs).isSome) →
      (∀ k v w, lookup k fs = some v → lookup k gs = some w → SameTree v w) →
      SameTree (.obj a fs) (.obj a gs)

/-- Two optional values are both absent, or both present and the same tree. -/
def SameOption : Option Value → Option Value → Prop
  | none, none => True
  | some v, some w => SameTree v w
  | _, _ => False

/-- Two field lists give the same tree under every name. -/
def SameFields (fs gs : Fields) : Prop :=
  ∀ k, SameOption (lookup k fs) (lookup k gs)

/-- What `_.set` leaves at the first segment of its path, given what the
    object has there and the rest of the path. -/
def setChild (c : Option Value) (rest : List String) (value : Value) : Value :=
  match rest with
  | [] => value
  | next :: _ =>
    setPath (if (c.getD .undefined).isObject then c.getD .undefined else .obj (isIndex next) [])
      rest value

/-- What `_.unset` leaves at the first segment of its path. -/
def unsetChild (c : Option Value) (rest : List String) : Option Value :=
  match rest with
  | [] => none
  | _ :: _ => c.map (fun child => unsetPath child rest)

/-- The segments after the first are no array indices, so that `_.set`
    creates mappings along the key. -/
def plainTail (key : String) : Bool :=
  (stringToPath key).tail.all (fun s => !isIndex s)

/-! ## The change log, rule by rule -/

/-- The migration records of the loop: in table order, one record for each
    rule whose old key passes the test of the loop in the tree as it is when
    the rule is reached, and none for the other rules. -/
def matchedRecords : Value → List MigrationRule → List MigratedKey
  | _, [] => []
  | config, rule :: rest =>
    (plannedRecord config rule).toList
      ++ matchedRecords (migrateStep (config, []) rule).1 rest

/-! ## Leaf paths as lists of segments -/

/-- The name `getAllKeys` gives the field `key` under the prefix `pre`. -/
def joinKey (pre key : String) : String :=
  if pre ≠ "" then pre ++ "." ++ key else key

/-- The name `getAllKeys` gives a path of field names under the prefix. -/
def joinFrom (pre : String) : List String → String
  | [] => pre
  | key :: rest => joinFrom (joinKey pre key) rest

mutual
/-- The paths, as lists of field names, that `getAllKeys` enumerates: it goes
    down through mappings, skips `null` and stops at everything else. -/
def leafPaths : Value → List (List String)
  | .obj false fs => leafPathsFields fs
  | _ => []
termination_by structural v => v
/-- The leaf paths through the fields of a mapping. -/
def leafPathsFields : List (String × Value) → List (List String)
  | [] => []
  | (key, v) :: rest =>
    (if v.typeofObject && !v.isArray then (leafPaths v).map (fun s => key :: s)
      else [[key]])
      ++ leafPathsFields rest
termination_by structural fs => fs
end

mutual
/-- The field names of the mappings of the value are not empty and contain no
    dot (sequences are not looked into). -/
def plainNames : Value → Bool
  | .obj false fs => plainNamesFields fs
  | _ => true
termination_by structural v => v
/-- The names of the fields, and of the mappings below them, are plain. -/
def plainNamesFields : List (String × Value) → Bool
  | [] => true
  | (key, v) :: rest =>
    key != "" && !dotted key && plainNames v && plainNamesFields rest
termination_by structural fs => fs
end

mutual
/-- The user's value at `key` and the default agree in kind: a mapping of the
    user never faces a sequence of the defaults, at any depth. -/
def kindsAgreeAt (ofs : List (String × Value)) (key : String) : Value → Bool
  | .obj true _ =>
    match lookup key ofs with
    | some (.obj false _) => false
    | _ => true
  | .obj false sfs =>
    match lookup key ofs with
    | some (.obj false cfs) => kindsAgree cfs sfs
    | _ => true
  | _ => true
termination_by structural srcValue => srcValue
/-- The user's fields and the default fields agree in kind. -/
def kindsAgree (ofs : List (String × Value)) : List (String × Value) → Bool
  | [] => true
  | (key, srcValue) :: rest => kindsAgreeAt ofs key srcValue && kindsAgree ofs rest
termination_by structural sfs => sfs
end

/-- The path `rest` is a leaf path below the value `v` of a field: `v` is a
    mapping and `rest` is one of its leaf paths, or `v` is a leaf itself
    (neither a mapping nor `null`) and `rest` is empty. -/
def leafBelow (v : Value) (rest : List String) : Prop :=
  ((v.typeofObject && !v.isArray) = true ∧ rest ∈ leafPaths v)
    ∨ ((v.typeofObject && !v.isArray) = false ∧ rest = [])

/-! ## Configurations with shared objects

`yaml.parse` builds one object for an anchor and each of its aliases, and the
lodash calls of the migration loop and `_.defaultsDeep` change objects in
place: what is written through one path is read through every other path to
the same object.  A `Node` is the unfolding of such a configuration into a
tree, in which an object that the document reaches by an anchor and its
aliases carries the number of the anchor at each of its places, and an object
reached by one path only carries none.  A change of an object with an anchor
is made at all of its places.  The values of the sections above are the
configurations without shared objects (`Node.erase`, `Value.unshared`).

Not covered in addition: cycles (an alias inside the node it names, or a
rule that writes an object into itself), and a rule that reaches, on the way
to its old key, the object it has just written at its new key while that
object is still held elsewhere.
-/

/-- A value of a configuration in which objects may be shared. -/
inductive Node where
  | undefined
  | null
  | bool (b : Bool)
  | num (n : Int)
  | str (s : String)
  | obj (anchor : Option Nat) (isArray : Bool) (fields : List (String × Node))
  deriving Repr, Inhabited

namespace Node

/-- The lodash predicate `isObject`. -/
def isObject : Node → Bool
  | .obj _ _ _ => true
  | _ => false

/-- The test `typeof v === 'object'`, which `null` passes. -/
def typeofObject : Node → Bool
  | .null => true
  | .obj _ _ _ => true
  | _ => false

/-- The test `Array.isArray(v)`. -/
def isArray : Node → Bool
  | .obj _ true _ => true
  | _ => false

/-- The test `v == null`. -/
def isNullish : Node → Bool
  | .undefined => true
  | .null => true
  | _ => false

/-- JavaScript truthiness (`ToBoolean`). -/
def truthy : Node → Bool
  | .undefined => false
  | .null => false
  | .bool b => b
  | .num n => n != 0
  | .str s => s != ""
  | .obj _ _ _ => true

end Node

mutual
/-- The tree of a configuration, read without regard to which of its objects
    are shared. -/
def Node.erase : Node → Value
  | .undefined => .undefined
  | .null => .null
  | .bool b => .bool b
  | .num n => .num n
  | .str s => .str s
  | .obj _ a fs => .obj a (eraseFields fs)
termination_by structural v => v
/-- The fields of an object, read as trees. -/
def eraseFields : List (String × Node) → List (String × Value)
  | [] => []
  | (k, v) :: rest => (k, v.erase) :: eraseFields rest
termination_by structural fs => fs
end

mutual
/-- A tree as a configuration without shared objects. -/
def Value.unshared : Value → Node
  | .undefined => .undefined
  | .null => .null
  | .bool b => .bool b
  | .num n => .num n
  | .str s => .str s
  | .obj a fs => .obj none a (unsharedFields fs)
termination_by structural v => v
/-- The fields of a tree as fields without shared objects. -/
def unsharedFields : List (String × Value) → List (String × Node)
  | [] => []
  | (k, v) :: rest => (k, v.unshared) :: unsharedFields rest
termination_by structural fs => fs
end

mutual
/-- No object of the configuration is shared: the document has no anchor to
    which an alias refers. -/
def Node.anchorFree : Node → Bool
  | .obj l _ fs => l.isNone && anchorFreeFields fs
  | _ => true
termination_by structural v => v
/-- No object below the fields is shared. -/
def anchorFreeFields : List (String × Node) → Bool
  | [] => true
  | (_, v) :: rest => v.anchorFree && anchorFreeFields rest
termination_by structural fs => fs
end

namespace Shared

/-! ### Own properties -/

/-- The value of the own property `k`, if the object has it. -/
def lookup (k : String) : List (String × Node) → Option Node
  | [] => none
  | (k', v) :: rest => if k' = k then some v else lookup k rest

/-- Placement of a new index-named property. -/
def insertIndexed (i : Nat) (k : String) (v : Node) : List (String × Node) → List (String × Node)
  | [] => [(k, v)]
  | (k', v') :: rest =>
    match arrayIndex k' with
    | some j => if j < i then (k', v') :: insertIndexed i k v rest else (k, v) :: (k', v') :: rest
    | none => (k, v) :: (k', v') :: rest

/-- Creation of the own property `k`, absent so far. -/
def insertField (k : String) (v : Node) (fs : List (String × Node)) : List (String × Node) :=
  match arrayIndex k with
  | none => fs ++ [(k, v)]
  | some i => insertIndexed i k v fs

/-- Overwriting the value of the existing own property `k`, in place. -/
def replaceField (k : String) (v : Node) : List (String × Node) → List (String × Node)
  | [] => []
  | (k', v') :: rest =>
    if k' = k then (k', v) :: rest else (k', v') :: replaceField k v rest

/-- The assignment `object[k] = v`. -/
def assignField (k : String) (v : Node) (fs : List (String × Node)) : List (String × Node) :=
  if (lookup k fs).isSome then replaceField k v fs else insertField k v fs

/-- The statement `delete object[k]`. -/
def deleteField (k : String) : List (String × Node) → List (String × Node)
  | [] => []
  | (k', v) :: rest => if k' = k then deleteField k rest else (k', v) :: deleteField k rest

/-- The expression `object[key]` (own properties only). -/
def prop (v : Node) (k : String) : Node :=
  match v with
  | .obj _ _ fs => (lookup k fs).getD .undefined
  | _ => .undefined

/-- The test `hasOwnProperty.call(object, key)`. -/
def hasOwn (v : Node) (k : String) : Bool :=
  match v with
  | .obj _ _ fs => (lookup k fs).isSome
  | _ => false

/-! ### `getAllKeys` (lines 118-131) -/

mutual
/-- The function `getAllKeys(obj, prefix)`. -/
def getAllKeys : Node → String → List String
  | .obj _ false fs, pre => getAllKeysFields fs pre
  | _, _ => []
termination_by structural v => v
/-- The `_.flatMap(Object.keys(obj), key => ...)` of `getAllKeys`. -/
def getAllKeysFields : List (String × Node) → String → List String
  | [], _ => []
  | (key, v) :: rest, pre =>
    (if v.typeofObject && !v.isArray then
        getAllKeys v (if pre ≠ "" then pre ++ "." ++ key else key)
      else [if pre ≠ "" then pre ++ "." ++ key else key])
      ++ getAllKeysFields rest pre
termination_by structural fs => fs
end

/-! ### lodash paths, reading -/

/-- The function `isKey(value, object)` of lodash. -/
def isKey (key : String) (object : Node) : Bool :=
  !key.data.contains '.' || hasOwn object key

/-- The function `castPath(value, object)` of lodash. -/
def castPath (key : String) (object : Node) : List String :=
  if isKey key object then [key] else stringToPath key

/-- The function `hasPath(object, path, baseHas)` of lodash on a cast path. -/
def hasPath : Node → List String → Bool
  | _, [] => false
  | v, [k] => hasOwn v k
  | v, k :: rest => hasOwn v k && hasPath (prop v k) rest

/-- The loop of `baseGet`: the result is the object itself, not a copy. -/
def getPath : Node → List String → Node
  | v, [] => v
  | v, k :: rest => if v.isNullish then .undefined else getPath (prop v k) rest

/-! ### lodash paths, writing in place -/

/-- The loop of `baseSet` below an object, as far as the objects on the way
    are reached by this path only; the objects it creates are new. -/
def setWithin : Node → List String → Node → Node
  | nested, [], _ => nested
  | .obj l a fs, [k], value => .obj l a (assignField k value fs)
  | .obj l a fs, k :: next :: rest, value =>
    let objValue := (lookup k fs).getD .undefined
    let newValue := if objValue.isObject then objValue else .obj none (isIndex next) []
    .obj l a (assignField k (setWithin newValue (next :: rest) value) fs)
  | v, _, _ => v

/-- The function `baseUnset` below an object, as far as the objects on the
    way are reached by this path only. -/
def unsetWithin : Node → List String → Node
  | v, [] => v
  | .obj l a fs, [k] => .obj l a (deleteField k fs)
  | .obj l a fs, k :: next :: rest =>
    match lookup k fs with
    | some child => .obj l a (replaceField k (unsetWithin child (next :: rest)) fs)
    | none => .obj l a fs
  | v, _ => v

/-- The last object with an anchor among the objects that the path goes
    through before its last segment, with the rest of the path from there:
    every object that a write along the path changes is this object or lies
    inside it. -/
def anchorOn : Node → List String → Option (Nat × List String)
  | .obj l _ _, [k] => l.map (fun i => (i, [k]))
  | .obj l _ fs, k :: next :: rest =>
    match anchorOn ((lookup k fs).getD .undefined) (next :: rest) with
    | some found => some found
    | none => l.map (fun i => (i, k :: next :: rest))
  | _, _ => none

mutual
/-- A change of the object with anchor `i`, made at each of its places. -/
def modifyAll (i : Nat) (f : Node → Node) : Node → Node
  | .undefined => .undefined
  | .null => .null
  | .bool b => .bool b
  | .num n => .num n
  | .str s => .str s
  | .obj l a fs => if l = some i then f (.obj l a fs) else .obj l a (modifyAllFields i f fs)
termination_by structural v => v
/-- The change of the object with anchor `i` below the fields. -/
def modifyAllFields (i : Nat) (f : Node → Node) : List (String × Node) → List (String × Node)
  | [] => []
  | (k, v) :: rest => (k, modifyAll i f v) :: modifyAllFields i f rest
termination_by structural fs => fs
end

/-- The loop of `baseSet` on a configuration: the write happens in the last
    shared object on the way, at all of its places, or along the path itself
    when no object on the way is shared. -/
def setPath (object : Node) (path : List String) (value : Node) : Node :=
  match anchorOn object path with
  | some (i, rest) => modifyAll i (fun shared => setWithin shared rest value) object
  | none => setWithin object path value

/-- The function `baseUnset` on a configuration. -/
def unsetPath (object : Node) (path : List String) : Node :=
  match anchorOn object path with
  | some (i, rest) => modifyAll i (fun shared => unsetWithin shared rest) object
  | none => unsetWithin object path

/-- The call `_.has(object, path)`. -/
def has (object : Node) (key : String) : Bool :=
  !object.isNullish && hasPath object (castPath key object)

/-- The call `_.get(object, path)`. -/
def get (object : Node) (key : String) : Node :=
  if object.isNullish then .undefined else getPath object (castPath key object)

/-- The call `_.set(object, path, value)`; the result is the configuration
    after the call. -/
def set (object : Node) (key : String) (value : Node) : Node :=
  if object.isNullish then object else setPath object (castPath key object) value

/-- The call `_.unset(object, path)`; the result is the configuration after
    the call. -/
def unset (object : Node) (key : String) : Node :=
  if object.isNullish then object else unsetPath object (castPath key object)

/-! ### The migration table and loop -/

/-- An entry of `keyMigrationMap`, its transform acting on shared values. -/
structure MigrationRule where
  oldKey : String
  newKey : String
  migrate : Node → Node
  remove : Bool := false

/-- The table `keyMigrationMap` (lines 18-110). -/
def keyMigrationMap : List MigrationRule := [
  { oldKey := "disableThumbnails", newKey := "thumbnails.enabled",
    migrate := fun value => .bool (!value.truthy) },
  { oldKey := "thumbnailsQuality", newKey := "thumbnails.quality",
    migrate := fun value => value },
  { oldKey := "avatarThumbnailsPng", newKey := "thumbnails.format",
    migrate := fun value => if value.truthy then .str "png" else .str "jpg" },
  { oldKey := "disableChatBackup", newKey := "backups.chat.enabled",
    migrate := fun value => .bool (!value.truthy) },
  { oldKey := "numberOfBackups", newKey := "backups.common.numberOfBackups",
    migrate := fun value => value },
  { oldKey := "maxTotalChatBackups", newKey := "backups.chat.maxTotalBackups",
    migrate := fun value => value },
  { oldKey := "chatBackupThrottleInterval", newKey := "backups.chat.throttleInterval",
    migrate := fun value => value },
  { oldKey := "enableExtensions", newKey := "extensions.enabled",
    migrate := fun value => value },
  { oldKey := "enableExtensionsAutoUpdate", newKey := "extensions.autoUpdate",
    migrate := fun value => value },
  { oldKey := "extras.disableAutoDownload", newKey := "extensions.models.autoDownload",
    migrate := fun value => .bool (!value.truthy) },
  { oldKey := "extras.classificationModel", newKey := "extensions.models.classification",
    migrate := fun value => value },
  { oldKey := "extras.captioningModel", newKey := "extensions.models.captioning",
    migrate := fun value => value },
  { oldKey := "extras.embeddingModel", newKey := "extensions.models.embedding",
    migrate := fun value => value },
  { oldKey := "extras.speechToTextModel", newKey := "extensions.models.speechToText",
    migrate := fun value => value },
  { oldKey := "extras.textToSpeechModel", newKey := "extensions.models.textToSpeech",
    migrate := fun value => value },
  { oldKey := "minLogLevel", newKey := "logging.minLogLevel",
    migrate := fun value => value },
  { oldKey := "cardsCacheCapacity", newKey := "performance.memoryCacheCapacity",
    migrate := fun value => .str (toJsString value.erase ++ "mb") },
  { oldKey := "cookieSecret", newKey := "cookieSecret",
    migrate := fun _ => .undefined, remove := true } ]

/-- An element of `migratedKeys`. -/
structure MigratedKey where
  oldKey : String
  newKey : Option String
  oldValue : Option Node
  newValue : Node

/-- The body of the migration loop (lines 169-192) for one rule. -/
def migrateStep (state : Node × List MigratedKey) (rule : MigrationRule) :
    Node × List MigratedKey :=
  let config := state.1
  if has config rule.oldKey then
    if rule.remove then
      (unset config rule.oldKey,
        state.2 ++ [{ oldKey := rule.oldKey, newKey := none, oldValue := none, newValue := .undefined }])
    else
      let oldValue := get config rule.oldKey
      let newValue := rule.migrate oldValue
      (unset (set config rule.newKey newValue) rule.oldKey,
        state.2 ++ [{ oldKey := rule.oldKey, newKey := some rule.newKey,
                      oldValue := some oldValue, newValue := newValue }])
  else state

/-- The migration loop (lines 168-192) over a table. -/
def migrateKeys (config : Node) (table : List MigrationRule) : Node × List MigratedKey :=
  table.foldl migrateStep (config, [])

/-! ### `_.defaultsDeep` in place -/

/-- The own property `key` of the object at the path, if there is one. -/
def fieldAt (root : Node) (path : List String) (key : String) : Option Node :=
  match getPath root path with
  | .obj _ _ fs => lookup key fs
  | _ => none

mutual
/-- The function `baseMerge(object, source, ..., customDefaultsMerge)` for the
    object at the path of the configuration `root`: the result is the
    configuration after the call.  The source is the parsed defaults file, of
    which lodash copies what it takes. -/
def baseMerge (root : Node) (path : List String) : List (String × Value) → Node
  | [] => root
  | (key, srcValue) :: rest => baseMerge (mergeKey root path key srcValue) path rest
termination_by structural sfs => sfs
/-- One property of the source, merged into the object at the path. -/
def mergeKey (root : Node) (path : List String) (key : String) : Value → Node
  | .obj b sfs =>
    match fieldAt root path key with
    | none => setPath root (path ++ [key]) (Value.unshared (.obj b sfs))
    | some .undefined => setPath root (path ++ [key]) (Value.unshared (.obj b sfs))
    | some (.obj _ _ _) => baseMerge root (path ++ [key]) sfs
    | some _ => root
  | srcValue =>
    match fieldAt root path key with
    | none => setPath root (path ++ [key]) srcValue.unshared
    | some .undefined => setPath root (path ++ [key]) srcValue.unshared
    | some _ => root
termination_by structural srcValue => srcValue
end

/-- The call `_.defaultsDeep(object, source)`. -/
def defaultsDeep (object : Node) (source : Value) : Node :=
  match object, source with
  | .obj l a ofs, .obj _ sfs => baseMerge (.obj l a ofs) [] sfs
  | .undefined, .obj _ sfs => Value.unshared (.obj false (PostInstall.baseMerge [] sfs))
  | .null, .obj _ sfs => Value.unshared (.obj false (PostInstall.baseMerge [] sfs))
  | object, _ => object

/-- The defaults pass (lines 194-204): the merged configuration and `addedKeys`. -/
def reconcile (config : Node) (defaultConfig : Value) : Node × List String :=
  let originalKeys := getAllKeys config ""
  let merged := defaultsDeep config defaultConfig
  let updatedKeys := getAllKeys merged ""
  (merged, difference updatedKeys originalKeys)

/-- What `addMissingConfigValues` computes from the two parsed files. -/
structure Outcome where
  config : Node
  migratedKeys : List MigratedKey
  addedKeys : List String
  written : Bool

/-- The pure core of `addMissingConfigValues` for a given table. -/
def addMissingConfigValuesWith (table : List MigrationRule) (defaultConfig : Value)
    (config : Node) : Outcome :=
  let migrated := migrateKeys config table
  let reconciled := reconcile migrated.1 defaultConfig
  { config := reconciled.1
    migratedKeys := migrated.2
    addedKeys := reconciled.2
    written := !(reconciled.2.length == 0 && migrated.2.length == 0) }

/-- The pure core of `addMissingConfigValues`. -/
def addMissingConfigValues (defaultConfig : Value) (config : Node) : Outcome :=
  addMissingConfigValuesWith keyMigrationMap defaultConfig config

/-- The rule as it acts on configurations without shared objects. -/
def MigrationRule.onTrees (rule : MigrationRule) : PostInstall.MigrationRule :=
  { oldKey := rule.oldKey, newKey := rule.newKey, remove := rule.remove,
    migrate := fun value => (rule.migrate value.unshared).erase }

/-- The transforms of the table are functions on trees: from a value without
    shared objects they make a value without shared objects. -/
def treeLike (table : List MigrationRule) : Prop :=
  ∀ rule ∈ table, ∀ value : Node, value.anchorFree = true →
    (rule.migrate value).anchorFree = true

end Shared

/-- The migration record of a configuration without shared objects. -/
def MigratedKey.unshared (record : MigratedKey) : Shared.MigratedKey :=
  { oldKey := record.oldKey, newKey := record.newKey,
    oldValue := record.oldValue.map Value.unshared, newValue := record.newValue.unshared }

/-- The tree with the subtree at the path replaced, when the path is there. -/
def putAt : Value → List String → Value → Value
  | _, [], x => x
  | .obj a fs, k :: rest, x =>
    match lookup k fs with
    | some child => .obj a (replaceField k (putAt child rest x) fs)
    | none => .obj a fs
  | v, _, _ => v
/-! ## Keys of plain names -/

/-- Names that are no plain field names to JavaScript and lodash: the length of
    an array or string, the names `_.set` refuses, and the members of
    `Object.prototype`. -/
def reservedNames : List String :=
  ["length", "__proto__", "constructor", "prototype", "hasOwnProperty", "isPrototypeOf",
   "propertyIsEnumerable", "toLocaleString", "toString", "valueOf", "__defineGetter__",
   "__defineSetter__", "__lookupGetter__", "__lookupSetter__"]

/-- The key is a dot-separated list of plain names: it has no bracket, and no
    segment is an array index or a reserved name. -/
def plainKey (key : String) : Bool :=
  !key.data.contains '[' && !key.data.contains ']'
    && (stringToPath key).all (fun s => !isIndex s && !reservedNames.contains s)

/-- The keys the table uses are keys of plain names. -/
def plainKeys (table : List MigrationRule) : Bool :=
  table.all (fun r => plainKey r.oldKey && (r.remove || plainKey r.newKey))

/-! ## The change log, by the words of the specification, on paths -/

/-- The tree has a value at the path of the key (the key split at its dots). -/
def hasValueAt (tree : Value) (key : String) : Bool :=
  hasPath tree (stringToPath key)

/-- The keys a record of the rule carries: the old key, and the new key
    unless the rule removes. -/
def Shared.MigrationRule.recordKeys (rule : Shared.MigrationRule) : String × Option String :=
  (rule.oldKey, if rule.remove then none else some rule.newKey)

/-- The keys of a migration record. -/
def Shared.MigratedKey.keys (record : Shared.MigratedKey) : String × Option String :=
  (record.oldKey, record.newKey)

/-- The rules that should leave a record, by the words of the specification:
    in table order, the rules whose old path has a value in the configuration
    as the loop has left it when the rule is reached. -/
def Shared.matchedBySpec : Node → List Shared.MigrationRule → List Shared.MigrationRule
  | _, [] => []
  | config, rule :: rest =>
    (if hasValueAt config.erase rule.oldKey then [rule] else [])
      ++ Shared.matchedBySpec (Shared.migrateStep (config, []) rule).1 rest

/-! # Theorems -/

/-! ## Own properties: lemmas -/

theorem lookup_append (k : String) (fs gs : Fields) :
    lookup k (fs ++ gs) = (lookup k fs).orElse (fun _ => lookup k gs) := by
  induction fs with
  | nil => simp [lookup]
  | cons f fs ih =>
    obtain ⟨k', v'⟩ := f
    by_cases h : k' = k <;> simp [lookup, h, ih]

theorem lookup_insertIndexed_ne (i : Nat) (k k' : String) (v : Value) (fs : Fields)
    (h : k' ≠ k) : lookup k' (insertIndexed i k v fs) = lookup k' fs := by
  induction fs with
  | nil => simp [insertIndexed, lookup, Ne.symm h]
  | cons f fs ih =>
    obtain ⟨k₁, v₁⟩ := f
    unfold insertIndexed
    split
    · split
      · by_cases h₁ : k₁ = k' <;> simp [lookup, h₁, ih]
      · simp [lookup, Ne.symm h]
    · simp [lookup, Ne.symm h]

theorem lookup_insertIndexed_self (i : Nat) (k : String) (v : Value) (fs : Fields)
    (hi : arrayIndex k = some i) : lookup k (insertIndexed i k v fs) = some v := by
  induction fs with
  | nil => simp [insertIndexed, lookup]
  | cons f fs ih =>
    obtain ⟨k₁, v₁⟩ := f
    unfold insertIndexed
    split
    · rename_i j hj
      split
      · rename_i hlt
        have hne : k₁ ≠ k := by
          intro he
          rw [he, hi] at hj
          cases hj
          exact Nat.lt_irrefl _ hlt
        simp [lookup, hne, ih]
      · simp [lookup]
    · simp [lookup]

theorem lookup_insertField_ne (k k' : String) (v : Value) (fs : Fields) (h : k' ≠ k) :
    lookup k' (insertField k v fs) = lookup k' fs := by
  unfold insertField
  split
  · rw [lookup_append]
    cases lookup k' fs <;> simp [lookup, Ne.symm h]
  · exact lookup_insertIndexed_ne _ _ _ _ _ h

theorem lookup_insertField_self (k : String) (v : Value) (fs : Fields)
    (h : lookup k fs = none) : lookup k (insertField k v fs) = some v := by
  unfold insertField
  split
  · rw [lookup_append, h]
    simp [lookup]
  · rename_i i hi
    exact lookup_insertIndexed_self i k v fs hi

theorem lookup_replaceField_ne (k k' : String) (v : Value) (fs : Fields) (h : k' ≠ k) :
    lookup k' (replaceField k v fs) = lookup k' fs := by
  induction fs with
  | nil => rfl
  | cons f fs ih =>
    obtain ⟨k₁, v₁⟩ := f
    unfold replaceField
    by_cases h₁ : k₁ = k
    · subst h₁
      simp [lookup, Ne.symm h]
    · by_cases h₂ : k₁ = k'
      · subst h₂
        simp [h₁, lookup]
      · simp [h₁, h₂, lookup, ih]

theorem lookup_replaceField_self (k : String) (v : Value) (fs : Fields) :
    lookup k (replaceField k v fs) = (lookup k fs).map (fun _ => v) := by
  induction fs with
  | nil => rfl
  | cons f fs ih =>
    obtain ⟨k₁, v₁⟩ := f
    unfold replaceField
    by_cases h₁ : k₁ = k <;> simp [h₁, lookup, ih]

theorem lookup_deleteField_ne (k k' : String) (fs : Fields) (h : k' ≠ k) :
    lookup k' (deleteField k fs) = lookup k' fs := by
  induction fs with
  | nil => rfl
  | cons f fs ih =>
    obtain ⟨k₁, v₁⟩ := f
    unfold deleteField
    by_cases h₁ : k₁ = k
    · subst h₁
      simp [lookup, Ne.symm h, ih]
    · by_cases h₂ : k₁ = k'
      · subst h₂
        simp [h₁, lookup]
      · simp [h₁, h₂, lookup, ih]

theorem lookup_deleteField_self (k : String) (fs : Fields) :
    lookup k (deleteField k fs) = none := by
  induction fs with
  | nil => rfl
  | cons f fs ih =>
    obtain ⟨k₁, v₁⟩ := f
    unfold deleteField
    by_cases h₁ : k₁ = k <;> simp [h₁, lookup, ih]

theorem lookup_assignField_ne (k k' : String) (v : Value) (fs : Fields) (h : k' ≠ k) :
    lookup k' (assignField k v fs) = lookup k' fs := by
  unfold assignField
  split
  · exact lookup_replaceField_ne _ _ _ _ h
  · exact lookup_insertField_ne _ _ _ _ h

theorem lookup_assignField_self (k : String) (v : Value) (fs : Fields) :
    lookup k (assignField k v fs) = some v := by
  unfold assignField
  split
  · rename_i h
    rw [lookup_replaceField_self]
    cases hl : lookup k fs <;> simp [hl] at h ⊢
  · rename_i h
    apply lookup_insertField_self
    cases hl : lookup k fs <;> simp [hl] at h ⊢

/-! ## The defaults merge keeps what the user has -/

theorem lookup_mergeKey_ne (ofs : Fields) (key k : String) (sv : Value) (h : k ≠ key) :
    lookup k (mergeKey ofs key sv) = lookup k ofs := by
  cases sv <;> unfold mergeKey <;> split <;>
    first
      | exact lookup_insertField_ne _ _ _ _ h
      | exact lookup_replaceField_ne _ _ _ _ h
      | rfl

theorem lookup_mergeKey_user (ofs : Fields) (k : String) (v sv : Value)
    (hk : lookup k ofs = some v) (hv : v ≠ .undefined)
    (h : v.isObject = false ∨ sv.isObject = false) :
    lookup k (mergeKey ofs k sv) = some v := by
  cases sv with
  | obj b sfs =>
    cases v with
    | obj a ofs' => simp [Value.isObject] at h
    | undefined => exact absurd rfl hv
    | _ => simp [mergeKey, hk]
  | _ =>
    cases v with
    | undefined => exact absurd rfl hv
    | _ => simp [mergeKey, hk]

theorem lookup_baseMerge_user (d : Fields) : ∀ (t : Fields) (k : String) (v : Value),
    lookup k t = some v → v ≠ .undefined →
    (v.isObject = false ∨ ∀ dv, (k, dv) ∈ d → dv.isObject = false) →
    lookup k (baseMerge t d) = some v := by
  induction d with
  | nil => intro t k v hk _ _; simpa [baseMerge] using hk
  | cons f d ih =>
    obtain ⟨key, sv⟩ := f
    intro t k v hk hv h
    rw [baseMerge]
    apply ih _ k v _ hv
    · rcases h with h | h
      · exact Or.inl h
      · exact Or.inr (fun dv hdv => h dv (List.mem_cons_of_mem _ hdv))
    · by_cases hkey : k = key
      · subst hkey
        apply lookup_mergeKey_user _ _ _ _ hk hv
        rcases h with h | h
        · exact Or.inl h
        · exact Or.inr (h sv (List.mem_cons_self _ _))
      · rw [lookup_mergeKey_ne _ _ _ _ hkey]
        exact hk

/-- C10: for `T = {a: {b: 1}}` and `D = {a: {b: 2, c: 3}}` the defaults pass
    yields the tree `{a: {b: 1, c: 3}}` and the additions `["a.c"]`. -/
theorem merge_precedence_scenario :
    reconcile (.obj false [("a", .obj false [("b", .num 1)])])
        (.obj false [("a", .obj false [("b", .num 2), ("c", .num 3)])])
      = (.obj false [("a", .obj false [("b", .num 1), ("c", .num 3)])], ["a.c"]) := by
  rfl

/-- C1 (as stated, refuted): for `T = {list: [1,2]}` and `D = {list: [1,2,3]}`
    the merged tree is `{list: [1,2,3]}`, not `{list: [1,2]}`: the sequences
    are merged index by index. -/
theorem user_list_extended_by_default :
    (reconcile (.obj false [("list", .obj true [("0", .num 1), ("1", .num 2)])])
        (.obj false [("list", .obj true [("0", .num 1), ("1", .num 2), ("2", .num 3)])])).1
      = .obj false [("list", .obj true [("0", .num 1), ("1", .num 2), ("2", .num 3)])]
    ∧ (reconcile (.obj false [("list", .obj true [("0", .num 1), ("1", .num 2)])])
        (.obj false [("list", .obj true [("0", .num 1), ("1", .num 2), ("2", .num 3)])])).1
      ≠ .obj false [("list", .obj true [("0", .num 1), ("1", .num 2)])] := by
  refine ⟨rfl, ?_⟩
  intro h
  simp [reconcile, defaultsDeep, baseMerge, mergeKey, lookup, replaceField, insertField,
    arrayIndex, parseUint, insertIndexed] at h

/-- On trees: a field `k` of the user tree with a defined value `v` keeps
    exactly that value in the merged tree whenever `v` is a scalar or every
    value the defaults give for `k` is a scalar (neither a mapping nor a
    sequence); sequences are merged index by index, so that
    `T = {list: [1,2]}`, `D = {list: [1,2,3]}` yields `{list: [1,2,3]}`, with
    no addition reported for `list`. -/
theorem user_wins_at_scalars (a b : Bool) (t d : Fields) (k : String) (v : Value)
    (hk : lookup k t = some v) (hv : v ≠ .undefined)
    (h : v.isObject = false ∨ ∀ dv, (k, dv) ∈ d → dv.isObject = false) :
    prop (reconcile (.obj a t) (.obj b d)).1 k = v
    ∧ reconcile (.obj false [("list", .obj true [("0", .num 1), ("1", .num 2)])])
        (.obj false [("list", .obj true [("0", .num 1), ("1", .num 2), ("2", .num 3)])])
      = (.obj false [("list", .obj true [("0", .num 1), ("1", .num 2), ("2", .num 3)])], []) := by
  refine ⟨?_, rfl⟩
  simp [reconcile, defaultsDeep, prop, lookup_baseMerge_user d t k v hk hv h]

/-- C8 (the code at the failing input): a field whose value is `null` is not
    enumerated, at any depth, although `null` is a scalar. -/
theorem getAllKeys_drops_null :
    getAllKeys (.obj false [("a", .null)]) "" = []
    ∧ getAllKeys (.obj false [("a", .obj false [("b", .null), ("c", .num 1)])]) "" = ["a.c"] := by
  exact ⟨rfl, rfl⟩

/-! ## Induction over trees -/

theorem value_induction {P : Value → Prop} {Q : Fields → Prop}
    (hu : P .undefined) (hn : P .null) (hb : ∀ b, P (.bool b)) (hi : ∀ n, P (.num n))
    (hs : ∀ s, P (.str s)) (ho : ∀ a fs, Q fs → P (.obj a fs))
    (hnil : Q []) (hcons : ∀ k v fs, P v → Q fs → Q ((k, v) :: fs)) :
    (∀ v, P v) ∧ (∀ fs, Q fs) := by
  have key : ∀ v, P v := by
    intro v
    exact Value.rec (motive_1 := P) (motive_2 := Q) (motive_3 := fun f => P f.2)
      hu hn hb hi hs ho hnil (fun f fs hf hfs => hcons f.1 f.2 fs hf hfs) (fun k v hv => hv) v
  refine ⟨key, ?_⟩
  intro fs
  induction fs with
  | nil => exact hnil
  | cons f fs ih => exact hcons f.1 f.2 fs (key f.2) ih

/-! ## What the merge leaves at a field -/

theorem mergeKey_eq (ofs : Fields) (k : String) (sv : Value) :
    mergeKey ofs k sv =
      match lookup k ofs with
      | none => insertField k sv ofs
      | some .undefined => replaceField k sv ofs
      | some (.obj a cfs) =>
        (match sv with
         | .obj _ sfs => replaceField k (.obj a (baseMerge cfs sfs)) ofs
         | _ => ofs)
      | some _ => ofs := by
  cases hl : lookup k ofs with
  | none => cases sv <;> simp [mergeKey, hl]
  | some c => cases c <;> cases sv <;> simp [mergeKey, hl]

theorem lookup_mergeKey_self (ofs : Fields) (k : String) (sv : Value) :
    lookup k (mergeKey ofs k sv) = some (mergedAt (lookup k ofs) sv) := by
  rw [mergeKey_eq]
  cases hl : lookup k ofs with
  | none => simp [mergedAt, lookup_insertField_self _ _ _ hl]
  | some c =>
    cases c with
    | undefined => simp [mergedAt, lookup_replaceField_self, hl]
    | obj a cfs =>
      cases sv <;> simp [mergedAt, lookup_replaceField_self, hl]
    | _ => simp [mergedAt, hl]

theorem lookup_baseMerge_absent (d : Fields) : ∀ (t : Fields) (k : String),
    lookup k d = none → lookup k (baseMerge t d) = lookup k t := by
  induction d with
  | nil => intro t k _; simp [baseMerge]
  | cons f d ih =>
    obtain ⟨key, sv⟩ := f
    intro t k hk
    by_cases hkey : key = k
    · simp [lookup, hkey] at hk
    · simp only [lookup, hkey, if_false] at hk
      rw [baseMerge, ih _ _ hk, lookup_mergeKey_ne _ _ _ _ (Ne.symm hkey)]

theorem lookup_baseMerge_present (d : Fields) : ∀ (t : Fields) (k : String) (dv : Value),
    wfFields d = true → lookup k d = some dv →
    lookup k (baseMerge t d) = some (mergedAt (lookup k t) dv) := by
  induction d with
  | nil => intro t k dv _ hk; simp [lookup] at hk
  | cons f d ih =>
    obtain ⟨key, sv⟩ := f
    intro t k dv hwf hk
    simp only [wfFields, Bool.and_eq_true, Option.isNone_iff_eq_none] at hwf
    by_cases hkey : key = k
    · subst hkey
      simp only [lookup, if_true, Option.some.injEq] at hk
      subst hk
      rw [baseMerge, lookup_baseMerge_absent _ _ _ hwf.1.1, lookup_mergeKey_self]
    · simp only [lookup, hkey, if_false] at hk
      rw [baseMerge, ih _ _ _ hwf.2 hk, lookup_mergeKey_ne _ _ _ _ (Ne.symm hkey)]

theorem wf_of_lookup (d : Fields) (k : String) (dv : Value)
    (hwf : wfFields d = true) (hk : lookup k d = some dv) : dv.wf = true := by
  induction d with
  | nil => simp [lookup] at hk
  | cons f d ih =>
    obtain ⟨key, sv⟩ := f
    simp only [wfFields, Bool.and_eq_true] at hwf
    by_cases hkey : key = k
    · simp only [lookup, hkey, if_true, Option.some.injEq] at hk
      subst hk
      exact hwf.1.2
    · simp only [lookup, hkey, if_false] at hk
      exact ih hwf.2 hk

theorem hasPath_obj_single (a : Bool) (fs : Fields) (k : String) :
    hasPath (.obj a fs) [k] = (lookup k fs).isSome := by
  simp [hasPath, hasOwn]

theorem hasPath_obj_cons (a : Bool) (fs : Fields) (k k₂ : String) (rest : List String) :
    hasPath (.obj a fs) (k :: k₂ :: rest) =
      match lookup k fs with
      | some c => hasPath c (k₂ :: rest)
      | none => false := by
  cases h : lookup k fs <;> simp [hasPath, hasOwn, prop, h]

theorem hasPath_of_not_object (v : Value) (h : v.isObject = false) (P : List String) :
    hasPath v P = false := by
  cases v with
  | obj a fs => simp [Value.isObject] at h
  | _ =>
    cases P with
    | nil => rfl
    | cons k rest => cases rest <;> simp [hasPath, hasOwn]

theorem getPath_obj_cons (a : Bool) (fs : Fields) (k : String) (rest : List String) :
    getPath (.obj a fs) (k :: rest) = getPath ((lookup k fs).getD .undefined) rest := by
  simp [getPath, Value.isNullish, prop]

theorem defaults_complete_aux : ∀ (P : List String) (a b : Bool) (t d : Fields),
    wfFields d = true → hasPath (.obj b d) P = true →
    hasPath (.obj a (baseMerge t d)) P = true ∨
    ∃ Q R, P = Q ++ R ∧ Q ≠ [] ∧ R ≠ [] ∧ (getPath (.obj a t) Q).isScalar = true
      ∧ getPath (.obj a (baseMerge t d)) Q = getPath (.obj a t) Q := by
  intro P
  induction P with
  | nil => intro a b t d _ h; simp [hasPath] at h
  | cons k rest ih =>
    intro a b t d hwf h
    cases rest with
    | nil =>
      left
      rw [hasPath_obj_single] at h ⊢
      obtain ⟨dv, hdv⟩ := Option.isSome_iff_exists.mp h
      rw [lookup_baseMerge_present d t k dv hwf hdv]
      rfl
    | cons k₂ rest =>
      rw [hasPath_obj_cons] at h
      cases hdv : lookup k d with
      | none => simp [hdv] at h
      | some dv =>
        simp only [hdv] at h
        have hm := lookup_baseMerge_present d t k dv hwf hdv
        cases dv with
        | obj b' sfs =>
          have hwf' : wfFields sfs = true := by
            have := wf_of_lookup d k _ hwf hdv
            simpa [Value.wf] using this
          cases ht : lookup k t with
          | none =>
            left
            rw [hasPath_obj_cons, hm, ht]
            simpa [mergedAt] using h
          | some c =>
            cases c with
            | undefined =>
              left
              rw [hasPath_obj_cons, hm, ht]
              simpa [mergedAt] using h
            | obj a' cfs =>
              rw [ht] at hm
              simp only [mergedAt] at hm
              rcases ih a' b' cfs sfs hwf' h with h' | ⟨Q, R, hP, hQ, hR, hs, hg⟩
              · left
                rw [hasPath_obj_cons, hm]
                exact h'
              · right
                refine ⟨k :: Q, R, by simp [hP], by simp, hR, ?_, ?_⟩
                · rw [getPath_obj_cons, ht]
                  exact hs
                · rw [getPath_obj_cons, getPath_obj_cons, hm, ht]
                  exact hg
            | null =>
              right
              refine ⟨[k], k₂ :: rest, rfl, by simp, by simp, ?_, ?_⟩
              · rw [getPath_obj_cons, ht]; rfl
              · rw [getPath_obj_cons, getPath_obj_cons, hm, ht]; rfl
            | bool x =>
              right
              refine ⟨[k], k₂ :: rest, rfl, by simp, by simp, ?_, ?_⟩
              · rw [getPath_obj_cons, ht]; rfl
              · rw [getPath_obj_cons, getPath_obj_cons, hm, ht]; rfl
            | num x =>
              right
              refine ⟨[k], k₂ :: rest, rfl, by simp, by simp, ?_, ?_⟩
              · rw [getPath_obj_cons, ht]; rfl
              · rw [getPath_obj_cons, getPath_obj_cons, hm, ht]; rfl
            | str x =>
              right
              refine ⟨[k], k₂ :: rest, rfl, by simp, by simp, ?_, ?_⟩
              · rw [getPath_obj_cons, ht]; rfl
              · rw [getPath_obj_cons, getPath_obj_cons, hm, ht]; rfl
        | _ =>
          cases rest <;> simp [hasPath, hasOwn] at h

/-- C3 (as stated, refuted): for `T = {a: 5}` and `D = {a: {b: 1}}` the leaf
    path `a.b` of `D` has no value in the merged tree, which is `{a: 5}`. -/
theorem default_leaf_missing_under_user_scalar :
    "a.b" ∈ getAllKeys (.obj false [("a", .obj false [("b", .num 1)])]) ""
    ∧ defaultsDeep (.obj false [("a", .num 5)]) (.obj false [("a", .obj false [("b", .num 1)])])
        = .obj false [("a", .num 5)]
    ∧ has (defaultsDeep (.obj false [("a", .num 5)])
        (.obj false [("a", .obj false [("b", .num 1)])])) "a.b" = false := by
  refine ⟨by decide, rfl, rfl⟩

/-- C3 (amended): for every user tree `T`, every defaults tree `D` (with
    distinct field names) and every path `P` at which `D` has a value, in
    particular every leaf path of `D`, the merged tree has a value at `P`,
    unless `T` holds a scalar at a proper, non-empty beginning `Q` of `P`; that
    scalar is then still the value of the merged tree at `Q`. -/
theorem defaults_complete_unless_user_scalar (a b : Bool) (t d : Fields) (P : List String)
    (hwf : wfFields d = true) (hP : hasPath (.obj b d) P = true) :
    hasPath (defaultsDeep (.obj a t) (.obj b d)) P = true ∨
    ∃ Q R, P = Q ++ R ∧ Q ≠ [] ∧ R ≠ [] ∧ (getPath (.obj a t) Q).isScalar = true
      ∧ getPath (defaultsDeep (.obj a t) (.obj b d)) Q = getPath (.obj a t) Q :=
  defaults_complete_aux P a b t d hwf hP

theorem defaults_complete_unless_user_scalar_witness :
    hasPath (defaultsDeep (.obj false [("a", .obj false [("c", .num 5)])])
        (.obj false [("a", .obj false [("b", .num 1)])])) ["a", "b"] = true ∨
    ∃ Q R, ["a", "b"] = Q ++ R ∧ Q ≠ [] ∧ R ≠ []
      ∧ (getPath (.obj false [("a", .obj false [("c", .num 5)])]) Q).isScalar = true
      ∧ getPath (defaultsDeep (.obj false [("a", .obj false [("c", .num 5)])])
          (.obj false [("a", .obj false [("b", .num 1)])])) Q
        = getPath (.obj false [("a", .obj false [("c", .num 5)])]) Q :=
  defaults_complete_unless_user_scalar false false _ _ ["a", "b"] (by rfl) (by rfl)

/-! ## The defaults merge is idempotent -/

theorem replaceField_same (k : String) (c : Value) (fs : Fields)
    (h : lookup k fs = some c) : replaceField k c fs = fs := by
  induction fs with
  | nil => rfl
  | cons f fs ih =>
    obtain ⟨k₁, v₁⟩ := f
    by_cases h₁ : k₁ = k
    · simp only [lookup, h₁, if_true, Option.some.injEq] at h
      simp [replaceField, h₁, h]
    · simp only [lookup, h₁, if_false] at h
      simp [replaceField, h₁, ih h]

theorem absorbsKey_iff (X : Fields) (k : String) (sv : Value) :
    absorbsKey X k sv ↔
      match lookup k X, sv with
      | none, _ => False
      | some .undefined, sv => sv = .undefined
      | some (.obj _ cfs), .obj _ sfs => absorbsAll cfs sfs
      | some _, _ => True := by
  cases hl : lookup k X with
  | none => cases sv <;> simp [absorbsKey, hl]
  | some c => cases c <;> cases sv <;> simp [absorbsKey, hl]

theorem absorbsKey_congr (X X' : Fields) (k : String) (sv : Value)
    (h : lookup k X' = lookup k X) : absorbsKey X' k sv ↔ absorbsKey X k sv := by
  rw [absorbsKey_iff, absorbsKey_iff, h]

theorem absorbsAll_congr (S : Fields) : ∀ (X X' : Fields),
    (∀ k, (lookup k S).isSome = true → lookup k X' = lookup k X) →
    absorbsAll X S → absorbsAll X' S := by
  induction S with
  | nil => intro _ _ _ _; trivial
  | cons f S ih =>
    obtain ⟨k, v⟩ := f
    intro X X' h habs
    simp only [absorbsAll] at habs ⊢
    refine ⟨(absorbsKey_congr X X' k v (h k (by simp [lookup]))).mpr habs.1, ?_⟩
    apply ih X X' _ habs.2
    intro k' hk'
    apply h
    by_cases hk : k = k'
    · simp [lookup, hk]
    · simpa [lookup, hk] using hk'

theorem absorbs_merge :
    (∀ sv : Value, ∀ (X : Fields) (k : String), absorbsKey X k sv → mergeKey X k sv = X) ∧
    (∀ S : Fields, ∀ X : Fields, absorbsAll X S → baseMerge X S = X) := by
  apply value_induction
  case ho =>
    intro b sfs ih X k h
    rw [absorbsKey_iff] at h
    rw [mergeKey_eq]
    cases hl : lookup k X with
    | none => simp [hl] at h
    | some c =>
      cases c with
      | obj a cfs =>
        simp only [hl] at h
        simp only [ih cfs h]
        exact replaceField_same k _ X hl
      | undefined => simp [hl] at h
      | _ => rfl
  case hnil => intro X _; rfl
  case hcons =>
    intro k v fs hv hfs X h
    simp only [absorbsAll] at h
    rw [baseMerge, hv X k h.1, hfs X h.2]
  all_goals
    intros
    rename_i X k h
    rw [absorbsKey_iff] at h
    rw [mergeKey_eq]
    cases hl : lookup k X with
    | none => simp [hl] at h
    | some c =>
      cases c with
      | undefined =>
        first
          | exact replaceField_same k _ X hl
          | simp [hl] at h
      | _ => rfl

theorem absorbs_self :
    (∀ v : Value, v.wf = true → ∀ (X : Fields) (k : String),
      lookup k X = some v → absorbsKey X k v) ∧
    (∀ S : Fields, wfFields S = true → absorbsAll S S) := by
  apply value_induction
  case ho =>
    intro b sfs ih hwf X k hl
    rw [absorbsKey_iff, hl]
    exact ih (by simpa [Value.wf] using hwf)
  case hnil => intro _; trivial
  case hcons =>
    intro k v fs hv hfs hwf
    simp only [wfFields, Bool.and_eq_true, Option.isNone_iff_eq_none] at hwf
    simp only [absorbsAll]
    refine ⟨hv hwf.1.2 _ k (by simp [lookup]), ?_⟩
    apply absorbsAll_congr fs fs _ _ (hfs hwf.2)
    intro k' hk'
    by_cases hk : k = k'
    · subst hk
      simp [hwf.1.1] at hk'
    · simp [lookup, hk]
  all_goals
    intros
    rename_i X k hl
    rw [absorbsKey_iff, hl]
    try trivial

theorem merge_absorbed :
    (∀ v : Value, v.wf = true → ∀ (X : Fields) (k : String), absorbsKey (mergeKey X k v) k v) ∧
    (∀ S : Fields, wfFields S = true → ∀ X : Fields, absorbsAll (baseMerge X S) S) := by
  apply value_induction
  case ho =>
    intro b sfs ih hwf X k
    have hself := absorbs_self.1 (.obj b sfs) hwf
    rw [absorbsKey_iff, lookup_mergeKey_self]
    cases hl : lookup k X with
    | none =>
      have := hself [(k, .obj b sfs)] k (by simp [lookup])
      rw [absorbsKey_iff] at this
      simpa [mergedAt, lookup] using this
    | some c =>
      cases c with
      | undefined =>
        have := hself [(k, .obj b sfs)] k (by simp [lookup])
        rw [absorbsKey_iff] at this
        simpa [mergedAt, lookup] using this
      | obj a cfs =>
        simp only [mergedAt]
        exact ih (by simpa [Value.wf] using hwf) cfs
      | _ => simp [mergedAt]
  case hnil => intro _ _; trivial
  case hcons =>
    intro k v fs hv hfs hwf X
    simp only [wfFields, Bool.and_eq_true, Option.isNone_iff_eq_none] at hwf
    simp only [absorbsAll, baseMerge]
    refine ⟨?_, hfs hwf.2 _⟩
    rw [absorbsKey_congr (mergeKey X k v) _ k v (lookup_baseMerge_absent fs _ k hwf.1.1)]
    exact hv hwf.1.2 X k
  all_goals
    intros
    rename_i X k
    rw [absorbsKey_iff, lookup_mergeKey_self]
    cases hl : lookup k X with
    | none => simp [mergedAt]
    | some c => cases c <;> simp [mergedAt]

theorem baseMerge_idem (t d : Fields) (hwf : wfFields d = true) :
    baseMerge (baseMerge t d) d = baseMerge t d :=
  absorbs_merge.2 d _ (merge_absorbed.2 d hwf t)

theorem defaultsDeep_idem (T D : Value) (hwf : D.wf = true) :
    defaultsDeep (defaultsDeep T D) D = defaultsDeep T D := by
  cases D with
  | obj b d =>
    have hd : wfFields d = true := by simpa [Value.wf] using hwf
    cases T <;> simp [defaultsDeep, baseMerge_idem _ d hd]
  | _ => cases T <;> simp [defaultsDeep]

theorem difference_self (xs : List String) : difference xs xs = [] := by
  simp [difference, List.filter_eq_nil_iff]

/-- C4: for every tree `T` and defaults tree `D` (with distinct field names),
    running the defaults pass again on the tree it produced leaves that tree
    unchanged and reports no addition. -/
theorem reconcile_idempotent (T D : Value) (hwf : D.wf = true) :
    reconcile (reconcile T D).1 D = ((reconcile T D).1, []) := by
  simp only [reconcile, defaultsDeep_idem T D hwf, difference_self]

theorem reconcile_idempotent_witness :
    reconcile (reconcile (.obj false [("a", .obj false [("b", .num 1)]), ("l", .obj true [])])
        (.obj false [("a", .obj false [("b", .num 2), ("c", .null)]),
          ("l", .obj true [("0", .str "x")])])).1
      (.obj false [("a", .obj false [("b", .num 2), ("c", .null)]),
          ("l", .obj true [("0", .str "x")])])
    = ((reconcile (.obj false [("a", .obj false [("b", .num 1)]), ("l", .obj true [])])
        (.obj false [("a", .obj false [("b", .num 2), ("c", .null)]),
          ("l", .obj true [("0", .str "x")])])).1, []) :=
  reconcile_idempotent _ _ (by rfl)

/-! ## The order of the fields of the merged tree -/

theorem lookup_eq_none_iff (k : String) (fs : Fields) :
    lookup k fs = none ↔ k ∉ keys fs := by
  induction fs with
  | nil => simp [lookup, keys]
  | cons f fs ih =>
    obtain ⟨k₁, v₁⟩ := f
    by_cases h : k₁ = k
    · simp [lookup, keys, h]
    · simp only [lookup, h, if_false, ih]
      simp [keys, Ne.symm h]

theorem keys_replaceField (k : String) (v : Value) (fs : Fields) :
    keys (replaceField k v fs) = keys fs := by
  induction fs with
  | nil => rfl
  | cons f fs ih =>
    obtain ⟨k₁, v₁⟩ := f
    simp only [keys] at ih
    by_cases h : k₁ = k <;> simp [replaceField, keys, h, ih]

theorem keys_mergeKey (t : Fields) (k : String) (sv : Value) (hk : arrayIndex k = none) :
    keys (mergeKey t k sv) = if (lookup k t).isSome then keys t else keys t ++ [k] := by
  rw [mergeKey_eq]
  cases hl : lookup k t with
  | none => simp [insertField, hk, keys]
  | some c => cases c <;> cases sv <;> simp [keys_replaceField]

theorem keys_baseMerge (d : Fields) : ∀ t : Fields,
    (keys d).Nodup → (∀ k ∈ keys d, arrayIndex k = none) →
    keys (baseMerge t d) = keys t ++ (keys d).filter (fun k => !(keys t).contains k) := by
  induction d with
  | nil => intro t _ _; simp [baseMerge, keys]
  | cons f d ih =>
    obtain ⟨k, sv⟩ := f
    intro t hnd hidx
    have hk : arrayIndex k = none := hidx k (by simp [keys])
    simp only [keys, List.map_cons, List.nodup_cons] at hnd
    have hnd' : (keys d).Nodup := hnd.2
    have hkd : k ∉ keys d := hnd.1
    have hidx' : ∀ k' ∈ keys d, arrayIndex k' = none := by
      intro k' hk'
      apply hidx
      simp only [keys, List.map_cons, List.mem_cons]
      exact Or.inr hk'
    rw [baseMerge, ih _ hnd' hidx', keys_mergeKey _ _ _ hk]
    cases hl : lookup k t with
    | none =>
      have hkt : k ∉ keys t := (lookup_eq_none_iff k t).mp hl
      have hfilter : (keys d).filter (fun k' => !(keys t ++ [k]).contains k')
          = (keys d).filter (fun k' => !(keys t).contains k') := by
        apply List.filter_congr
        intro k' hk'
        have : k' ≠ k := fun h => hkd (h ▸ hk')
        simp [this]
      have hkt' : (keys t).contains k = false := by simpa using hkt
      simp only [Option.isSome_none, Bool.false_eq_true, if_false, hfilter]
      show keys t ++ [k] ++ _ = keys t ++ List.filter _ (k :: keys d)
      rw [List.filter_cons]
      simp [hkt]
    | some c =>
      have hkt : k ∈ keys t := by
        by_contra h
        rw [(lookup_eq_none_iff k t).mpr h] at hl
        cases hl
      have hkt' : (keys t).contains k = true := by simpa using hkt
      simp only [Option.isSome_some, if_true]
      show keys t ++ _ = keys t ++ List.filter _ (k :: keys d)
      rw [List.filter_cons]
      simp [hkt]

/-- C7 (as stated, refuted): for `T = {z: {y: 1}}` and `D = {x: 1, z: {w: 2}}`
    the additions are `["z.w", "x"]`, while the leaf enumeration of `D`
    filtered to the added paths is `["x", "z.w"]`. -/
theorem additions_not_in_default_order :
    (reconcile (.obj false [("z", .obj false [("y", .num 1)])])
        (.obj false [("x", .num 1), ("z", .obj false [("w", .num 2)])])).2 = ["z.w", "x"]
    ∧ (getAllKeys (.obj false [("x", .num 1), ("z", .obj false [("w", .num 2)])]) "").filter
        (fun p => (reconcile (.obj false [("z", .obj false [("y", .num 1)])])
          (.obj false [("x", .num 1), ("z", .obj false [("w", .num 2)])])).2.contains p)
      = ["x", "z.w"]
    ∧ (reconcile (.obj false [("z", .obj false [("y", .num 1)])])
        (.obj false [("x", .num 1), ("z", .obj false [("w", .num 2)])])).2
      ≠ (getAllKeys (.obj false [("x", .num 1), ("z", .obj false [("w", .num 2)])]) "").filter
        (fun p => (reconcile (.obj false [("z", .obj false [("y", .num 1)])])
          (.obj false [("x", .num 1), ("z", .obj false [("w", .num 2)])])).2.contains p) := by
  refine ⟨by decide, by decide, by decide⟩

/-- C7 (amended): the additions list is the depth-first leaf enumeration of
    the merged tree, filtered to the paths that are not leaf paths of `T`; and
    in the merged tree a mapping lists the user's fields first, in the user's
    order, followed by the fields only the default has, in the default's
    order (for distinct default names that are not array indices). -/
theorem additions_in_merged_order (a b : Bool) (t d : Fields)
    (hnd : (keys d).Nodup) (hidx : ∀ k ∈ keys d, arrayIndex k = none) :
    (reconcile (.obj a t) (.obj b d)).2
      = (getAllKeys (reconcile (.obj a t) (.obj b d)).1 "").filter
          (fun p => !(getAllKeys (.obj a t) "").contains p)
    ∧ (reconcile (.obj a t) (.obj b d)).1 = .obj a (baseMerge t d)
    ∧ keys (baseMerge t d) = keys t ++ (keys d).filter (fun k => !(keys t).contains k) :=
  ⟨rfl, rfl, keys_baseMerge d t hnd hidx⟩

theorem additions_in_merged_order_witness :
    (reconcile (.obj false [("z", .obj false [("y", .num 1)])])
        (.obj false [("x", .num 1), ("z", .obj false [("w", .num 2)])])).2
      = (getAllKeys (reconcile (.obj false [("z", .obj false [("y", .num 1)])])
          (.obj false [("x", .num 1), ("z", .obj false [("w", .num 2)])])).1 "").filter
          (fun p => !(getAllKeys (.obj false [("z", .obj false [("y", .num 1)])]) "").contains p)
    ∧ (reconcile (.obj false [("z", .obj false [("y", .num 1)])])
        (.obj false [("x", .num 1), ("z", .obj false [("w", .num 2)])])).1
      = .obj false (baseMerge [("z", .obj false [("y", .num 1)])]
          [("x", .num 1), ("z", .obj false [("w", .num 2)])])
    ∧ keys (baseMerge [("z", .obj false [("y", .num 1)])]
          [("x", .num 1), ("z", .obj false [("w", .num 2)])])
      = keys [("z", Value.obj false [("y", .num 1)])]
        ++ (keys [("x", Value.num 1), ("z", .obj false [("w", .num 2)])]).filter
          (fun k => !(keys [("z", Value.obj false [("y", .num 1)])]).contains k) :=
  additions_in_merged_order false false _ _ (by decide) (by decide)

/-! ## Paths: what `_.set` and `_.unset` leave alone -/

theorem diverge_symm : ∀ (p q : List String), diverge p q = diverge q p
  | [], [] => rfl
  | [], _ :: _ => rfl
  | _ :: _, [] => rfl
  | a :: p, b :: q => by
    by_cases h : a = b
    · subst h
      simp [diverge, diverge_symm p q]
    · simp [diverge, h, Ne.symm h]

theorem diverge_cons_same (a : String) (p q : List String) :
    diverge (a :: p) (a :: q) = diverge p q := by
  simp [diverge]

theorem diverge_nil_right (p : List String) : diverge p [] = false := by
  cases p <;> rfl

theorem getPath_undefined (p : List String) : getPath .undefined p = .undefined := by
  cases p <;> simp [getPath, Value.isNullish]

theorem getPath_of_not_object (v : Value) (h : v.isObject = false) (k : String)
    (p : List String) : getPath v (k :: p) = .undefined := by
  cases v with
  | obj a fs => simp [Value.isObject] at h
  | _ => simp [getPath, Value.isNullish, prop, getPath_undefined]

theorem getPath_empty_obj (a : Bool) (k : String) (p : List String) :
    getPath (.obj a []) (k :: p) = .undefined := by
  simp [getPath, Value.isNullish, prop, lookup, getPath_undefined]

theorem hasPath_empty_obj (a : Bool) (p : List String) : hasPath (.obj a []) p = false := by
  cases p with
  | nil => rfl
  | cons k rest => cases rest <;> simp [hasPath, hasOwn, lookup]

theorem hasPath_obj (a : Bool) (fs : Fields) (k : String) (rest : List String) :
    hasPath (.obj a fs) (k :: rest) =
      match lookup k fs with
      | some c => rest.isEmpty || hasPath c rest
      | none => false := by
  cases rest with
  | nil => cases h : lookup k fs <;> simp [hasPath, hasOwn, h]
  | cons k₂ rest => rw [hasPath_obj_cons]; cases h : lookup k fs <;> simp

theorem setPath_obj_single (a : Bool) (fs : Fields) (k : String) (v : Value) :
    setPath (.obj a fs) [k] v = .obj a (assignField k v fs) := by
  simp [setPath]

theorem setPath_obj_cons (a : Bool) (fs : Fields) (k k₂ : String) (rest : List String)
    (v : Value) :
    setPath (.obj a fs) (k :: k₂ :: rest) v =
      .obj a (assignField k
        (setPath (if ((lookup k fs).getD .undefined).isObject then (lookup k fs).getD .undefined
          else .obj (isIndex k₂) []) (k₂ :: rest) v) fs) := by
  simp [setPath]

theorem setPath_of_not_object (T : Value) (h : T.isObject = false) (p : List String)
    (v : Value) : setPath T p v = T := by
  cases T with
  | obj a fs => simp [Value.isObject] at h
  | _ => cases p <;> simp [setPath]

theorem unsetPath_of_not_object (T : Value) (h : T.isObject = false) (p : List String) :
    unsetPath T p = T := by
  cases T with
  | obj a fs => simp [Value.isObject] at h
  | _ => cases p <;> simp [unsetPath]

theorem unsetPath_obj_single (a : Bool) (fs : Fields) (k : String) :
    unsetPath (.obj a fs) [k] = .obj a (deleteField k fs) := by
  simp [unsetPath]

theorem unsetPath_obj_cons (a : Bool) (fs : Fields) (k k₂ : String) (rest : List String) :
    unsetPath (.obj a fs) (k :: k₂ :: rest) =
      match lookup k fs with
      | some child => .obj a (replaceField k (unsetPath child (k₂ :: rest)) fs)
      | none => .obj a fs := by
  cases h : lookup k fs <;> simp [unsetPath, h]

/-- The value below a created or kept intermediate object, seen along a path
    that goes on. -/
theorem getPath_intermediate (c : Value) (b : Bool) (k : String) (p : List String) :
    getPath (if c.isObject then c else .obj b []) (k :: p) = getPath c (k :: p) := by
  by_cases h : c.isObject = true
  · simp [h]
  · have h' : c.isObject = false := by simpa using h
    simp only [h', Bool.false_eq_true, if_false]
    rw [getPath_empty_obj, getPath_of_not_object c h']

theorem hasPath_intermediate (c : Value) (b : Bool) (p : List String) :
    hasPath (if c.isObject then c else .obj b []) p = hasPath c p := by
  by_cases h : c.isObject = true
  · simp [h]
  · have h' : c.isObject = false := by simpa using h
    simp only [h', Bool.false_eq_true, if_false]
    rw [hasPath_empty_obj, hasPath_of_not_object c h']

theorem getPath_setPath_diverge : ∀ (q p : List String) (T v : Value),
    diverge p q = true → getPath (setPath T q v) p = getPath T p := by
  intro q
  induction q with
  | nil => intro p T v h; rw [diverge_nil_right] at h; cases h
  | cons b q ih =>
    intro p T v h
    cases p with
    | nil => simp [diverge] at h
    | cons a p =>
      by_cases hT : T.isObject = true
      · cases T with
        | obj a₀ fs =>
          cases q with
          | nil =>
            have hab : a ≠ b := by
              intro e
              subst e
              simp [diverge, diverge_nil_right] at h
            rw [setPath_obj_single, getPath_obj_cons, getPath_obj_cons,
              lookup_assignField_ne _ _ _ _ hab]
          | cons b₂ q =>
            rw [setPath_obj_cons, getPath_obj_cons, getPath_obj_cons]
            by_cases hab : a = b
            · subst hab
              rw [diverge_cons_same] at h
              rw [lookup_assignField_self]
              simp only [Option.getD_some]
              rw [ih p _ v h]
              cases p with
              | nil => simp [diverge] at h
              | cons a₂ p => exact getPath_intermediate _ _ _ _
            · rw [lookup_assignField_ne _ _ _ _ hab]
        | _ => simp [Value.isObject] at hT
      · have hT' : T.isObject = false := by simpa using hT
        rw [setPath_of_not_object T hT']

theorem hasPath_setPath_diverge : ∀ (q p : List String) (T v : Value),
    diverge p q = true → hasPath (setPath T q v) p = hasPath T p := by
  intro q
  induction q with
  | nil => intro p T v h; rw [diverge_nil_right] at h; cases h
  | cons b q ih =>
    intro p T v h
    cases p with
    | nil => simp [diverge] at h
    | cons a p =>
      by_cases hT : T.isObject = true
      · cases T with
        | obj a₀ fs =>
          cases q with
          | nil =>
            have hab : a ≠ b := by
              intro e
              subst e
              simp [diverge, diverge_nil_right] at h
            rw [setPath_obj_single, hasPath_obj, hasPath_obj,
              lookup_assignField_ne _ _ _ _ hab]
          | cons b₂ q =>
            rw [setPath_obj_cons, hasPath_obj, hasPath_obj]
            by_cases hab : a = b
            · subst hab
              rw [diverge_cons_same] at h
              rw [lookup_assignField_self]
              simp only []
              rw [ih p _ v h, hasPath_intermediate]
              have hp : p.isEmpty = false := by
                cases p with
                | nil => simp [diverge] at h
                | cons _ _ => rfl
              cases hl : lookup a fs with
              | none => simp [hp, hasPath_of_not_object Value.undefined rfl]
              | some c => simp [hp]
            · rw [lookup_assignField_ne _ _ _ _ hab]
        | _ => simp [Value.isObject] at hT
      · have hT' : T.isObject = false := by simpa using hT
        rw [setPath_of_not_object T hT']

theorem getPath_unsetPath_diverge : ∀ (q p : List String) (T : Value),
    diverge p q = true → getPath (unsetPath T q) p = getPath T p := by
  intro q
  induction q with
  | nil => intro p T h; rw [diverge_nil_right] at h; cases h
  | cons b q ih =>
    intro p T h
    cases p with
    | nil => simp [diverge] at h
    | cons a p =>
      by_cases hT : T.isObject = true
      · cases T with
        | obj a₀ fs =>
          cases q with
          | nil =>
            have hab : a ≠ b := by
              intro e
              subst e
              simp [diverge, diverge_nil_right] at h
            rw [unsetPath_obj_single, getPath_obj_cons, getPath_obj_cons,
              lookup_deleteField_ne _ _ _ hab]
          | cons b₂ q =>
            rw [unsetPath_obj_cons]
            cases hl : lookup b fs with
            | none => rfl
            | some child =>
              simp only []
              rw [getPath_obj_cons, getPath_obj_cons]
              by_cases hab : a = b
              · subst hab
                rw [diverge_cons_same] at h
                rw [lookup_replaceField_self, hl]
                simp only [Option.map_some', Option.getD_some]
                exact ih p _ h
              · rw [lookup_replaceField_ne _ _ _ _ hab]
        | _ => simp [Value.isObject] at hT
      · have hT' : T.isObject = false := by simpa using hT
        rw [unsetPath_of_not_object T hT']

theorem hasPath_unsetPath_diverge : ∀ (q p : List String) (T : Value),
    diverge p q = true → hasPath (unsetPath T q) p = hasPath T p := by
  intro q
  induction q with
  | nil => intro p T h; rw [diverge_nil_right] at h; cases h
  | cons b q ih =>
    intro p T h
    cases p with
    | nil => simp [diverge] at h
    | cons a p =>
      by_cases hT : T.isObject = true
      · cases T with
        | obj a₀ fs =>
          cases q with
          | nil =>
            have hab : a ≠ b := by
              intro e
              subst e
              simp [diverge, diverge_nil_right] at h
            rw [unsetPath_obj_single, hasPath_obj, hasPath_obj,
              lookup_deleteField_ne _ _ _ hab]
          | cons b₂ q =>
            rw [unsetPath_obj_cons]
            cases hl : lookup b fs with
            | none => rfl
            | some child =>
              simp only []
              rw [hasPath_obj, hasPath_obj]
              by_cases hab : a = b
              · subst hab
                rw [diverge_cons_same] at h
                rw [lookup_replaceField_self, hl]
                simp only [Option.map_some']
                rw [ih p _ h]
              · rw [lookup_replaceField_ne _ _ _ _ hab]
        | _ => simp [Value.isObject] at hT
      · have hT' : T.isObject = false := by simpa using hT
        rw [unsetPath_of_not_object T hT']

/-! ## Paths: what `_.set` and `_.unset` do at their own path -/

theorem hasPath_unsetPath_self : ∀ (p : List String) (T : Value),
    hasPath (unsetPath T p) p = false := by
  intro p
  induction p with
  | nil => intro T; simp [hasPath]
  | cons k rest ih =>
    intro T
    by_cases hT : T.isObject = true
    · cases T with
      | obj a fs =>
        cases rest with
        | nil => rw [unsetPath_obj_single, hasPath_obj, lookup_deleteField_self]
        | cons k₂ rest =>
          rw [unsetPath_obj_cons]
          cases hl : lookup k fs with
          | none => simp only []; rw [hasPath_obj, hl]
          | some child =>
            simp only []
            rw [hasPath_obj, lookup_replaceField_self, hl]
            simp only [Option.map_some']
            rw [ih]
            rfl
      | _ => simp [Value.isObject] at hT
    · have hT' : T.isObject = false := by simpa using hT
      rw [unsetPath_of_not_object T hT', hasPath_of_not_object T hT']

theorem getPath_setPath_self : ∀ (p : List String) (T v : Value),
    T.isObject = true → p ≠ [] → getPath (setPath T p v) p = v := by
  intro p
  induction p with
  | nil => intro T v _ h; exact absurd rfl h
  | cons k rest ih =>
    intro T v hT _
    cases T with
    | obj a fs =>
      cases rest with
      | nil =>
        rw [setPath_obj_single, getPath_obj_cons, lookup_assignField_self]
        rfl
      | cons k₂ rest =>
        rw [setPath_obj_cons, getPath_obj_cons, lookup_assignField_self]
        simp only [Option.getD_some]
        apply ih
        · split
          · assumption
          · rfl
        · simp
    | _ => simp [Value.isObject] at hT

theorem hasPath_setPath_self : ∀ (p : List String) (T v : Value),
    T.isObject = true → p ≠ [] → hasPath (setPath T p v) p = true := by
  intro p
  induction p with
  | nil => intro T v _ h; exact absurd rfl h
  | cons k rest ih =>
    intro T v hT _
    cases T with
    | obj a fs =>
      cases rest with
      | nil =>
        rw [setPath_obj_single, hasPath_obj, lookup_assignField_self]
        rfl
      | cons k₂ rest =>
        rw [setPath_obj_cons, hasPath_obj, lookup_assignField_self]
        simp only []
        rw [ih]
        · rfl
        · split
          · assumption
          · rfl
        · simp
    | _ => simp [Value.isObject] at hT

/-! ## Keys and their paths -/

theorem splitChars_ne_nil (cs : List Char) : splitChars cs ≠ [] := by
  cases cs with
  | nil => simp [splitChars]
  | cons c cs =>
    unfold splitChars
    split
    · simp
    · split <;> simp

theorem splitChars_undotted (cs : List Char) (h : '.' ∉ cs) : splitChars cs = [cs] := by
  induction cs with
  | nil => rfl
  | cons c cs ih =>
    have hc : c ≠ '.' := fun e => h (by simp [e])
    have hcs : '.' ∉ cs := fun e => h (by simp [e])
    simp [splitChars, hc, ih hcs]

theorem splitChars_segments (cs : List Char) : ∀ seg ∈ splitChars cs, '.' ∉ seg := by
  induction cs with
  | nil => simp [splitChars]
  | cons c cs ih =>
    intro seg hseg
    unfold splitChars at hseg
    by_cases hc : c = '.'
    · simp only [hc, if_true, List.mem_cons] at hseg
      rcases hseg with rfl | hseg
      · simp
      · exact ih seg hseg
    · simp only [hc, if_false] at hseg
      cases hs : splitChars cs with
      | nil => exact absurd hs (splitChars_ne_nil cs)
      | cons s ss =>
        rw [hs] at hseg ih
        simp only [List.mem_cons] at hseg
        rcases hseg with rfl | hseg
        · intro hmem
          simp only [List.mem_cons] at hmem
          rcases hmem with e | hmem
          · exact hc e.symm
          · exact ih s (by simp) hmem
        · exact ih seg (by simp [hseg])

theorem stringToPath_ne_nil (key : String) : stringToPath key ≠ [] := by
  simp [stringToPath, splitChars_ne_nil]

theorem stringToPath_undotted (key : String) (h : dotted key = false) :
    stringToPath key = [key] := by
  have h' : '.' ∉ key.data := by simpa [dotted] using h
  simp [stringToPath, splitChars_undotted _ h']

theorem stringToPath_segments (key : String) :
    ∀ s ∈ stringToPath key, dotted s = false := by
  intro s hs
  simp only [stringToPath, List.mem_map] at hs
  obtain ⟨seg, hseg, rfl⟩ := hs
  simpa [dotted] using splitChars_segments _ seg hseg

theorem castPath_cases (key : String) (T : Value) :
    castPath key T = [key] ∨
    (castPath key T = stringToPath key ∧ dotted key = true ∧ hasOwn T key = false) := by
  unfold castPath isKey dotted
  cases hd : key.data.contains '.' <;> cases ho : hasOwn T key <;> simp

theorem castPath_ne_nil (key : String) (T : Value) : castPath key T ≠ [] := by
  rcases castPath_cases key T with h | ⟨h, _, _⟩
  · simp [h]
  · rw [h]; exact stringToPath_ne_nil key

theorem castPath_undotted (key : String) (T : Value) (h : dotted key = false) :
    castPath key T = [key] := by
  rcases castPath_cases key T with h' | ⟨_, hd, _⟩
  · exact h'
  · rw [h] at hd; cases hd

theorem diverge_irrefl (p : List String) : diverge p p = false := by
  induction p with
  | nil => rfl
  | cons a p ih => simp [diverge, ih]

theorem keysApart_ne (k k' : String) (h : keysApart k k' = true) : k ≠ k' := by
  intro e
  subst e
  simp [keysApart, diverge_irrefl] at h

theorem keysApart_symm (k k' : String) : keysApart k k' = keysApart k' k := by
  simp [keysApart, diverge_symm]

/-- The first segment of the path of a key `k'` is never a different, dotted
    key `k`. -/
theorem castPath_head_ne (k k' : String) (T : Value) (hd : dotted k = true) (hne : k ≠ k') :
    ∀ rest, castPath k' T ≠ k :: rest := by
  intro rest e
  rcases castPath_cases k' T with h | ⟨h, _, _⟩
  · rw [h] at e
    simp only [List.cons.injEq] at e
    exact hne e.1.symm
  · rw [h] at e
    have := stringToPath_segments k' k (by rw [e]; simp)
    rw [this] at hd
    cases hd

theorem diverge_single_of_head (k : String) (hd : dotted k = true) (key : String) :
    dotted key = true → k ≠ key → diverge [k] (stringToPath key) = true := by
  intro _ _
  cases hp : stringToPath key with
  | nil => exact absurd hp (stringToPath_ne_nil key)
  | cons s rest =>
    have hs : dotted s = false := stringToPath_segments key s (by rw [hp]; simp)
    have : k ≠ s := by
      intro e
      rw [e, hs] at hd
      cases hd
    simp [diverge, this]

/-- Keys that are apart have paths that part ways on every tree. -/
theorem castPath_diverge (k k' : String) (T T' : Value) (h : keysApart k k' = true) :
    diverge (castPath k T) (castPath k' T') = true := by
  have hne := keysApart_ne k k' h
  unfold keysApart at h
  rcases castPath_cases k T with h₁ | ⟨h₁, hd₁, _⟩ <;>
    rcases castPath_cases k' T' with h₂ | ⟨h₂, hd₂, _⟩
  · rw [h₁, h₂]
    simp [diverge, hne]
  · rw [h₁, h₂]
    by_cases hd : dotted k = true
    · exact diverge_single_of_head k hd k' hd₂ hne
    · have hd' : dotted k = false := by simpa using hd
      rw [stringToPath_undotted k hd'] at h
      exact h
  · rw [h₁, h₂]
    by_cases hd : dotted k' = true
    · rw [diverge_symm]
      exact diverge_single_of_head k' hd k hd₁ (Ne.symm hne)
    · have hd' : dotted k' = false := by simpa using hd
      rw [stringToPath_undotted k' hd'] at h
      exact h
  · rw [h₁, h₂]
    exact h

/-! ## The own properties of the root under `_.set` and `_.unset` -/

theorem hasOwn_setPath_ne (T v : Value) (p : List String) (k : String)
    (h : ∀ rest, p ≠ k :: rest) : hasOwn (setPath T p v) k = hasOwn T k := by
  cases T with
  | obj a fs =>
    cases p with
    | nil => simp [setPath]
    | cons b rest =>
      have hb : k ≠ b := fun e => h rest (by rw [e])
      cases rest with
      | nil => simp [setPath, hasOwn, lookup_assignField_ne _ _ _ _ hb]
      | cons b₂ rest => simp [setPath, hasOwn, lookup_assignField_ne _ _ _ _ hb]
  | _ => rw [setPath_of_not_object _ (by rfl)]

theorem hasOwn_setPath_head (T v : Value) (k : String) (rest : List String)
    (hT : T.isObject = true) : hasOwn (setPath T (k :: rest) v) k = true := by
  cases T with
  | obj a fs =>
    cases rest with
    | nil => simp [setPath, hasOwn, lookup_assignField_self]
    | cons b₂ rest => simp [setPath, hasOwn, lookup_assignField_self]
  | _ => simp [Value.isObject] at hT

theorem lookup_deleteField_isSome (k k' : String) (fs : Fields)
    (h : (lookup k' (deleteField k fs)).isSome = true) : (lookup k' fs).isSome = true := by
  by_cases e : k' = k
  · subst e
    rw [lookup_deleteField_self] at h
    cases h
  · rwa [lookup_deleteField_ne _ _ _ e] at h

theorem lookup_replaceField_isSome (k k' : String) (v : Value) (fs : Fields) :
    (lookup k' (replaceField k v fs)).isSome = (lookup k' fs).isSome := by
  by_cases e : k' = k
  · subst e
    rw [lookup_replaceField_self]
    cases lookup k' fs <;> rfl
  · rw [lookup_replaceField_ne _ _ _ _ e]

theorem hasOwn_unsetPath_le (T : Value) (p : List String) (k : String)
    (h : hasOwn (unsetPath T p) k = true) : hasOwn T k = true := by
  cases T with
  | obj a fs =>
    cases p with
    | nil => simpa [unsetPath] using h
    | cons b rest =>
      cases rest with
      | nil =>
        rw [unsetPath_obj_single] at h
        exact lookup_deleteField_isSome b k fs h
      | cons b₂ rest =>
        rw [unsetPath_obj_cons] at h
        cases hl : lookup b fs with
        | none => simpa [hl] using h
        | some child =>
          simp only [hl, hasOwn, lookup_replaceField_isSome] at h
          exact h
  | _ => rwa [unsetPath_of_not_object _ (by rfl)] at h

theorem hasOwn_unsetPath_ne (T : Value) (p : List String) (k : String)
    (h : ∀ rest, p ≠ k :: rest) : hasOwn (unsetPath T p) k = hasOwn T k := by
  cases T with
  | obj a fs =>
    cases p with
    | nil => simp [unsetPath]
    | cons b rest =>
      have hb : k ≠ b := fun e => h rest (by rw [e])
      cases rest with
      | nil => simp [unsetPath, hasOwn, lookup_deleteField_ne _ _ _ hb]
      | cons b₂ rest =>
        rw [unsetPath_obj_cons]
        cases hl : lookup b fs with
        | none => rfl
        | some child => simp [hasOwn, lookup_replaceField_ne _ _ _ _ hb]
  | _ => rw [unsetPath_of_not_object _ (by rfl)]

theorem isObject_setPath (T v : Value) (p : List String) :
    (setPath T p v).isObject = T.isObject := by
  cases T with
  | obj a fs =>
    cases p with
    | nil => simp [setPath]
    | cons b rest => cases rest <;> simp [setPath, Value.isObject]
  | _ => rw [setPath_of_not_object _ (by rfl)]

theorem isObject_unsetPath (T : Value) (p : List String) :
    (unsetPath T p).isObject = T.isObject := by
  cases T with
  | obj a fs =>
    cases p with
    | nil => simp [unsetPath]
    | cons b rest =>
      cases rest with
      | nil => simp [unsetPath, Value.isObject]
      | cons b₂ rest =>
        rw [unsetPath_obj_cons]
        cases lookup b fs <;> simp [Value.isObject]
  | _ => rw [unsetPath_of_not_object _ (by rfl)]

theorem isObject_set (T v : Value) (q : String) : (set T q v).isObject = T.isObject := by
  unfold set
  split
  · rfl
  · exact isObject_setPath _ _ _

theorem isObject_unset (T : Value) (q : String) : (unset T q).isObject = T.isObject := by
  unfold unset
  split
  · rfl
  · exact isObject_unsetPath _ _

theorem has_of_not_object (T : Value) (h : T.isObject = false) (k : String) :
    has T k = false := by
  simp [has, hasPath_of_not_object T h]

theorem set_of_not_object (T : Value) (h : T.isObject = false) (q : String) (v : Value) :
    set T q v = T := by
  unfold set
  split
  · rfl
  · exact setPath_of_not_object T h _ _

theorem unset_of_not_object (T : Value) (h : T.isObject = false) (q : String) :
    unset T q = T := by
  unfold unset
  split
  · rfl
  · exact unsetPath_of_not_object T h _

theorem has_obj (a : Bool) (fs : Fields) (k : String) :
    has (.obj a fs) k = hasPath (.obj a fs) (castPath k (.obj a fs)) := by
  simp [has, Value.isNullish]

theorem get_obj (a : Bool) (fs : Fields) (k : String) :
    get (.obj a fs) k = getPath (.obj a fs) (castPath k (.obj a fs)) := by
  simp [get, Value.isNullish]

theorem set_obj (a : Bool) (fs : Fields) (k : String) (v : Value) :
    set (.obj a fs) k v = setPath (.obj a fs) (castPath k (.obj a fs)) v := by
  simp [set, Value.isNullish]

theorem unset_obj (a : Bool) (fs : Fields) (k : String) :
    unset (.obj a fs) k = unsetPath (.obj a fs) (castPath k (.obj a fs)) := by
  simp [unset, Value.isNullish]

theorem castPath_congr (k : String) (T T' : Value)
    (h : dotted k = true → hasOwn T' k = hasOwn T k) : castPath k T' = castPath k T := by
  cases hd : dotted k with
  | true => unfold castPath isKey; rw [h hd]
  | false => rw [castPath_undotted k T hd, castPath_undotted k T' hd]

/-! ## Keys: what `_.set` and `_.unset` leave alone -/

theorem has_of_isObject (T : Value) (h : T.isObject = true) (k : String) :
    has T k = hasPath T (castPath k T) := by
  cases T with
  | obj a fs => exact has_obj a fs k
  | _ => simp [Value.isObject] at h

theorem get_of_isObject (T : Value) (h : T.isObject = true) (k : String) :
    get T k = getPath T (castPath k T) := by
  cases T with
  | obj a fs => exact get_obj a fs k
  | _ => simp [Value.isObject] at h

theorem set_of_isObject (T : Value) (h : T.isObject = true) (k : String) (v : Value) :
    set T k v = setPath T (castPath k T) v := by
  cases T with
  | obj a fs => exact set_obj a fs k v
  | _ => simp [Value.isObject] at h

theorem unset_of_isObject (T : Value) (h : T.isObject = true) (k : String) :
    unset T k = unsetPath T (castPath k T) := by
  cases T with
  | obj a fs => exact unset_obj a fs k
  | _ => simp [Value.isObject] at h

theorem castPath_set_ne (T v : Value) (k q : String) (hne : k ≠ q) :
    castPath k (set T q v) = castPath k T := by
  apply castPath_congr
  intro hd
  cases hT : T.isObject with
  | false => rw [set_of_not_object T hT]
  | true =>
    rw [set_of_isObject T hT]
    exact hasOwn_setPath_ne T v _ k (fun rest => castPath_head_ne k q T hd hne rest)

theorem castPath_unset_ne (T : Value) (k q : String) (hne : k ≠ q) :
    castPath k (unset T q) = castPath k T := by
  apply castPath_congr
  intro hd
  cases hT : T.isObject with
  | false => rw [unset_of_not_object T hT]
  | true =>
    rw [unset_of_isObject T hT]
    exact hasOwn_unsetPath_ne T _ k (fun rest => castPath_head_ne k q T hd hne rest)

theorem has_set_apart (T v : Value) (k q : String) (h : keysApart k q = true) :
    has (set T q v) k = has T k := by
  cases hT : T.isObject with
  | false => rw [set_of_not_object T hT]
  | true =>
    rw [has_of_isObject _ (by rw [isObject_set]; exact hT), has_of_isObject T hT,
      castPath_set_ne T v k q (keysApart_ne k q h), set_of_isObject T hT]
    exact hasPath_setPath_diverge _ _ _ _ (castPath_diverge k q T T h)

theorem get_set_apart (T v : Value) (k q : String) (h : keysApart k q = true) :
    get (set T q v) k = get T k := by
  cases hT : T.isObject with
  | false => rw [set_of_not_object T hT]
  | true =>
    rw [get_of_isObject _ (by rw [isObject_set]; exact hT), get_of_isObject T hT,
      castPath_set_ne T v k q (keysApart_ne k q h), set_of_isObject T hT]
    exact getPath_setPath_diverge _ _ _ _ (castPath_diverge k q T T h)

theorem has_unset_apart (T : Value) (k q : String) (h : keysApart k q = true) :
    has (unset T q) k = has T k := by
  cases hT : T.isObject with
  | false => rw [unset_of_not_object T hT]
  | true =>
    rw [has_of_isObject _ (by rw [isObject_unset]; exact hT), has_of_isObject T hT,
      castPath_unset_ne T k q (keysApart_ne k q h), unset_of_isObject T hT]
    exact hasPath_unsetPath_diverge _ _ _ (castPath_diverge k q T T h)

theorem get_unset_apart (T : Value) (k q : String) (h : keysApart k q = true) :
    get (unset T q) k = get T k := by
  cases hT : T.isObject with
  | false => rw [unset_of_not_object T hT]
  | true =>
    rw [get_of_isObject _ (by rw [isObject_unset]; exact hT), get_of_isObject T hT,
      castPath_unset_ne T k q (keysApart_ne k q h), unset_of_isObject T hT]
    exact getPath_unsetPath_diverge _ _ _ (castPath_diverge k q T T h)

/-! ## Keys: what `_.set` and `_.unset` do at their own key -/

theorem has_unset_self (T : Value) (k : String)
    (h : dotted k = true → hasOwn T k = false) : has (unset T k) k = false := by
  cases hT : T.isObject with
  | false => rw [unset_of_not_object T hT, has_of_not_object T hT]
  | true =>
    have hc : castPath k (unset T k) = castPath k T := by
      apply castPath_congr
      intro hd
      rw [h hd]
      cases ho : hasOwn (unset T k) k with
      | false => rfl
      | true =>
        rw [unset_of_isObject T hT] at ho
        have := hasOwn_unsetPath_le T _ k ho
        rw [h hd] at this
        cases this
    rw [has_of_isObject _ (by rw [isObject_unset]; exact hT), hc, unset_of_isObject T hT]
    exact hasPath_unsetPath_self _ _

theorem hasOwn_set_dotted (T v : Value) (k q : String) (hd : dotted k = true)
    (h : hasOwn (set T q v) k = true) : hasOwn T k = true := by
  cases hT : T.isObject with
  | false => rwa [set_of_not_object T hT] at h
  | true =>
    rw [set_of_isObject T hT] at h
    by_cases hne : k = q
    · subst hne
      rcases castPath_cases k T with hc | ⟨hc, _, ho⟩
      · cases ho : hasOwn T k with
        | true => rfl
        | false =>
          have : castPath k T = stringToPath k := by
            unfold castPath isKey
            have hd' : k.data.contains '.' = true := hd
            rw [hd', ho]
            rfl
          rw [this] at hc
          have := stringToPath_segments k k (by rw [hc]; simp)
          rw [this] at hd
          cases hd
      · rw [hasOwn_setPath_ne T v _ k] at h
        · exact h
        · intro rest e
          rw [hc] at e
          have := stringToPath_segments k k (by rw [e]; simp)
          rw [this] at hd
          cases hd
    · rwa [hasOwn_setPath_ne T v _ k (fun rest => castPath_head_ne k q T hd hne rest)] at h

theorem hasOwn_unset_le (T : Value) (k q : String) (h : hasOwn (unset T q) k = true) :
    hasOwn T k = true := by
  cases hT : T.isObject with
  | false => rwa [unset_of_not_object T hT] at h
  | true =>
    rw [unset_of_isObject T hT] at h
    exact hasOwn_unsetPath_le T _ k h

theorem castPath_set_self (T v : Value) (k : String) :
    castPath k (set T k v) = castPath k T := by
  apply castPath_congr
  intro hd
  cases hT : T.isObject with
  | false => rw [set_of_not_object T hT]
  | true =>
    cases ho : hasOwn T k with
    | false =>
      cases ho' : hasOwn (set T k v) k with
      | false => rfl
      | true =>
        have := hasOwn_set_dotted T v k k hd ho'
        rw [ho] at this
        cases this
    | true =>
      have hc : castPath k T = [k] := by
        unfold castPath isKey
        simp [ho]
      rw [set_of_isObject T hT, hc]
      exact hasOwn_setPath_head T v k [] hT

theorem get_set_self (T v : Value) (k : String) (hT : T.isObject = true) :
    get (set T k v) k = v := by
  rw [get_of_isObject _ (by rw [isObject_set]; exact hT), castPath_set_self,
    set_of_isObject T hT]
  exact getPath_setPath_self _ T v hT (castPath_ne_nil k T)

theorem has_set_self (T v : Value) (k : String) (hT : T.isObject = true) :
    has (set T k v) k = true := by
  rw [has_of_isObject _ (by rw [isObject_set]; exact hT), castPath_set_self,
    set_of_isObject T hT]
  exact hasPath_setPath_self _ T v hT (castPath_ne_nil k T)

/-! ## One rule, seen from the original tree -/

theorem isObject_plannedStep (T0 T : Value) (r : MigrationRule) :
    (plannedStep T0 T r).isObject = T.isObject := by
  unfold plannedStep
  split
  · split
    · exact isObject_unset _ _
    · rw [isObject_unset, isObject_set]
  · rfl

theorem plannedStep_has_apart (T0 T : Value) (r : MigrationRule) (k : String)
    (h₁ : keysApart k r.oldKey = true) (h₂ : r.remove = true ∨ keysApart k r.newKey = true) :
    has (plannedStep T0 T r) k = has T k := by
  unfold plannedStep
  split
  · split
    · exact has_unset_apart _ _ _ h₁
    · rename_i hr
      rw [has_unset_apart _ _ _ h₁]
      exact has_set_apart _ _ _ _ (h₂.resolve_left hr)
  · rfl

theorem plannedStep_get_apart (T0 T : Value) (r : MigrationRule) (k : String)
    (h₁ : keysApart k r.oldKey = true) (h₂ : r.remove = true ∨ keysApart k r.newKey = true) :
    get (plannedStep T0 T r) k = get T k := by
  unfold plannedStep
  split
  · split
    · exact get_unset_apart _ _ _ h₁
    · rename_i hr
      rw [get_unset_apart _ _ _ h₁]
      exact get_set_apart _ _ _ _ (h₂.resolve_left hr)
  · rfl

theorem plannedStep_hasOwn_dotted (T0 T : Value) (r : MigrationRule) (k : String)
    (hd : dotted k = true) (h : hasOwn (plannedStep T0 T r) k = true) : hasOwn T k = true := by
  unfold plannedStep at h
  split at h
  · split at h
    · exact hasOwn_unset_le _ _ _ h
    · exact hasOwn_set_dotted _ _ _ _ hd (hasOwn_unset_le _ _ _ h)
  · exact h

theorem plannedStep_has_old (T0 T : Value) (r : MigrationRule)
    (hm : has T0 r.oldKey = true) (hl : dotted r.oldKey = true → hasOwn T r.oldKey = false) :
    has (plannedStep T0 T r) r.oldKey = false := by
  unfold plannedStep
  rw [if_pos hm]
  split
  · exact has_unset_self _ _ hl
  · apply has_unset_self
    intro hd
    cases ho : hasOwn (set T r.newKey (r.migrate (get T0 r.oldKey))) r.oldKey with
    | false => rfl
    | true =>
      have := hasOwn_set_dotted _ _ _ _ hd ho
      rw [hl hd] at this
      cases this

theorem plannedStep_get_new (T0 T : Value) (r : MigrationRule)
    (hm : has T0 r.oldKey = true) (hr : r.remove = false)
    (ha : keysApart r.oldKey r.newKey = true) (hT : T.isObject = true) :
    get (plannedStep T0 T r) r.newKey = r.migrate (get T0 r.oldKey) := by
  unfold plannedStep
  rw [if_pos hm]
  simp only [hr, Bool.false_eq_true, if_false]
  rw [get_unset_apart _ _ _ (by rw [keysApart_symm]; exact ha)]
  exact get_set_self _ _ _ hT

theorem migrateStep_eq_planned (T0 T : Value) (log : List MigratedKey) (r : MigrationRule)
    (h₁ : has T r.oldKey = has T0 r.oldKey) (h₂ : get T r.oldKey = get T0 r.oldKey) :
    migrateStep (T, log) r = (plannedStep T0 T r, log ++ (plannedRecord T0 r).toList) := by
  unfold migrateStep plannedStep plannedRecord
  simp only [h₁, h₂]
  cases has T0 r.oldKey <;> cases r.remove <;> simp

/-! ## The whole table, seen from the original tree -/

theorem pathDisjoint_cons (r : MigrationRule) (rest : List MigrationRule)
    (h : pathDisjoint (r :: rest) = true) :
    selfApart r = true ∧ (∀ s ∈ rest, rulesApart r s = true) ∧ pathDisjoint rest = true := by
  simp only [pathDisjoint, Bool.and_eq_true, List.all_eq_true] at h
  exact ⟨h.1.1, h.1.2, h.2⟩

theorem rulesApart_unfold (r s : MigrationRule) (h : rulesApart r s = true) :
    keysApart r.oldKey s.oldKey = true
    ∧ (s.remove = true ∨ keysApart r.oldKey s.newKey = true)
    ∧ (r.remove = true ∨ keysApart r.newKey s.oldKey = true)
    ∧ (r.remove = true ∨ s.remove = true ∨ keysApart r.newKey s.newKey = true) := by
  simp only [rulesApart, Bool.and_eq_true, Bool.or_eq_true] at h
  exact ⟨h.1.1.1, h.1.1.2, h.1.2, by rcases h.2 with (h | h) | h <;> simp [h]⟩

theorem literalFree_iff (T : Value) (M : List MigrationRule) :
    literalFree T M = true ↔ ∀ r ∈ M, dotted r.oldKey = true → hasOwn T r.oldKey = false := by
  simp only [literalFree, List.all_eq_true, Bool.not_eq_true', Bool.and_eq_false_iff]
  constructor
  · intro h r hr hd
    rcases h r hr with h' | h'
    · rw [h'] at hd; cases hd
    · exact h'
  · intro h r hr
    cases hd : dotted r.oldKey with
    | false => exact Or.inl rfl
    | true => exact Or.inr (h r hr hd)

theorem literalFree_cons (T0 T : Value) (r : MigrationRule) (rest : List MigrationRule)
    (h : literalFree T (r :: rest) = true) : literalFree (plannedStep T0 T r) rest = true := by
  rw [literalFree_iff] at h ⊢
  intro s hs hd
  cases ho : hasOwn (plannedStep T0 T r) s.oldKey with
  | false => rfl
  | true =>
    have := plannedStep_hasOwn_dotted T0 T r _ hd ho
    rw [h s (List.mem_cons_of_mem _ hs) hd] at this
    cases this

theorem migrate_eq_planned (T0 : Value) : ∀ (M : List MigrationRule) (T : Value)
    (log : List MigratedKey), pathDisjoint M = true →
    (∀ r ∈ M, has T r.oldKey = has T0 r.oldKey ∧ get T r.oldKey = get T0 r.oldKey) →
    M.foldl migrateStep (T, log)
      = (M.foldl (plannedStep T0) T, log ++ M.filterMap (plannedRecord T0)) := by
  intro M
  induction M with
  | nil => intro T log _ _; simp
  | cons r rest ih =>
    intro T log hM hinv
    obtain ⟨_, hrs, hrest⟩ := pathDisjoint_cons r rest hM
    have hr := hinv r (List.mem_cons_self _ _)
    rw [List.foldl_cons, migrateStep_eq_planned T0 T log r hr.1 hr.2, List.foldl_cons,
      ih _ _ hrest]
    · congr 1
      cases h : plannedRecord T0 r <;> simp [List.filterMap_cons, h]
    · intro s hs
      obtain ⟨h₁, _, h₃, _⟩ := rulesApart_unfold r s (hrs s hs)
      have hs' := hinv s (List.mem_cons_of_mem _ hs)
      have ha : keysApart s.oldKey r.oldKey = true := by rw [keysApart_symm]; exact h₁
      have hb : r.remove = true ∨ keysApart s.oldKey r.newKey = true := by
        rcases h₃ with h | h
        · exact Or.inl h
        · right; rw [keysApart_symm]; exact h
      rw [plannedStep_has_apart T0 T r _ ha hb, plannedStep_get_apart T0 T r _ ha hb]
      exact hs'

theorem migrateKeys_eq_planned (T : Value) (M : List MigrationRule)
    (hM : pathDisjoint M = true) :
    migrateKeys T M = (M.foldl (plannedStep T) T, M.filterMap (plannedRecord T)) := by
  unfold migrateKeys
  rw [migrate_eq_planned T M T [] hM (fun _ _ => ⟨rfl, rfl⟩)]
  simp

theorem planned_has_apart (T0 : Value) (k : String) : ∀ (M : List MigrationRule) (T : Value),
    (∀ r ∈ M, keysApart k r.oldKey = true ∧ (r.remove = true ∨ keysApart k r.newKey = true)) →
    has (M.foldl (plannedStep T0) T) k = has T k := by
  intro M
  induction M with
  | nil => intro T _; rfl
  | cons r rest ih =>
    intro T h
    rw [List.foldl_cons, ih _ (fun s hs => h s (List.mem_cons_of_mem _ hs))]
    exact plannedStep_has_apart T0 T r k (h r (List.mem_cons_self _ _)).1
      (h r (List.mem_cons_self _ _)).2

theorem planned_get_apart (T0 : Value) (k : String) : ∀ (M : List MigrationRule) (T : Value),
    (∀ r ∈ M, keysApart k r.oldKey = true ∧ (r.remove = true ∨ keysApart k r.newKey = true)) →
    get (M.foldl (plannedStep T0) T) k = get T k := by
  intro M
  induction M with
  | nil => intro T _; rfl
  | cons r rest ih =>
    intro T h
    rw [List.foldl_cons, ih _ (fun s hs => h s (List.mem_cons_of_mem _ hs))]
    exact plannedStep_get_apart T0 T r k (h r (List.mem_cons_self _ _)).1
      (h r (List.mem_cons_self _ _)).2

theorem planned_invariant_step (T0 T : Value) (r : MigrationRule) (rest : List MigrationRule)
    (hrs : ∀ s ∈ rest, rulesApart r s = true)
    (hinv : ∀ s ∈ r :: rest, has T s.oldKey = has T0 s.oldKey) :
    ∀ s ∈ rest, has (plannedStep T0 T r) s.oldKey = has T0 s.oldKey := by
  intro s hs
  obtain ⟨h₁, _, h₃, _⟩ := rulesApart_unfold r s (hrs s hs)
  have ha : keysApart s.oldKey r.oldKey = true := by rw [keysApart_symm]; exact h₁
  have hb : r.remove = true ∨ keysApart s.oldKey r.newKey = true := by
    rcases h₃ with h | h
    · exact Or.inl h
    · right; rw [keysApart_symm]; exact h
  rw [plannedStep_has_apart T0 T r _ ha hb]
  exact hinv s (List.mem_cons_of_mem _ hs)

/-- After the loop over a path-disjoint table no old key has a value. -/
theorem planned_has_old (T0 : Value) : ∀ (M : List MigrationRule) (T : Value),
    pathDisjoint M = true → literalFree T M = true →
    (∀ r ∈ M, has T r.oldKey = has T0 r.oldKey) →
    ∀ R ∈ M, has (M.foldl (plannedStep T0) T) R.oldKey = false := by
  intro M
  induction M with
  | nil => intro T _ _ _ R hR; cases hR
  | cons r rest ih =>
    intro T hM hl hinv R hR
    obtain ⟨_, hrs, hrest⟩ := pathDisjoint_cons r rest hM
    rw [List.foldl_cons]
    rcases List.mem_cons.mp hR with rfl | hR'
    · rw [planned_has_apart T0 R.oldKey rest _ (fun s hs => by
        obtain ⟨h₁, h₂, _, _⟩ := rulesApart_unfold R s (hrs s hs)
        exact ⟨h₁, h₂⟩)]
      cases hm : has T0 R.oldKey with
      | true =>
        exact plannedStep_has_old T0 T R hm
          ((literalFree_iff T _).mp hl R (List.mem_cons_self _ _))
      | false =>
        have : plannedStep T0 T R = T := by simp [plannedStep, hm]
        rw [this, hinv R (List.mem_cons_self _ _), hm]
    · exact ih _ hrest (literalFree_cons T0 T r rest hl)
        (planned_invariant_step T0 T r rest hrs hinv) R hR'

/-- After the loop over a path-disjoint table the new key of every rule that
    matched and does not remove holds the transformed old value. -/
theorem planned_get_new (T0 : Value) : ∀ (M : List MigrationRule) (T : Value),
    pathDisjoint M = true → T.isObject = true →
    ∀ R ∈ M, has T0 R.oldKey = true → R.remove = false →
    get (M.foldl (plannedStep T0) T) R.newKey = R.migrate (get T0 R.oldKey) := by
  intro M
  induction M with
  | nil => intro T _ _ R hR; cases hR
  | cons r rest ih =>
    intro T hM hT R hR hm hrem
    obtain ⟨hself, hrs, hrest⟩ := pathDisjoint_cons r rest hM
    rw [List.foldl_cons]
    rcases List.mem_cons.mp hR with rfl | hR'
    · rw [planned_get_apart T0 R.newKey rest _ (fun s hs => by
        obtain ⟨_, _, h₃, h₄⟩ := rulesApart_unfold R s (hrs s hs)
        refine ⟨?_, ?_⟩
        · rcases h₃ with h | h
          · rw [hrem] at h; cases h
          · exact h
        · rcases h₄ with h | h | h
          · rw [hrem] at h; cases h
          · exact Or.inl h
          · exact Or.inr h)]
      apply plannedStep_get_new T0 T R hm hrem _ hT
      simp only [selfApart, hrem, Bool.false_or] at hself
      exact hself
    · exact ih _ hrest (by rw [isObject_plannedStep]; exact hT) R hR' hm hrem

theorem migrate_noop : ∀ (M : List MigrationRule) (T : Value) (log : List MigratedKey),
    (∀ r ∈ M, has T r.oldKey = false) → M.foldl migrateStep (T, log) = (T, log) := by
  intro M
  induction M with
  | nil => intro T log _; rfl
  | cons r rest ih =>
    intro T log h
    have hr := h r (List.mem_cons_self _ _)
    have : migrateStep (T, log) r = (T, log) := by simp [migrateStep, hr]
    rw [List.foldl_cons, this]
    exact ih T log (fun s hs => h s (List.mem_cons_of_mem _ hs))

/-- C5 (as stated, refuted): with the table `[a -> b, b -> a]` and
    `T = {a: 1}` the second application of the loop to the result of the first
    emits two records again. -/
theorem chained_rules_migrate_again :
    (migrateKeys (migrateKeys (.obj false [("a", .num 1)])
        [{ oldKey := "a", newKey := "b", migrate := fun v => v },
         { oldKey := "b", newKey := "a", migrate := fun v => v }]).1
        [{ oldKey := "a", newKey := "b", migrate := fun v => v },
         { oldKey := "b", newKey := "a", migrate := fun v => v }]).2.length = 2 := by
  rfl

/-- On trees: for every tree `T` and every path-disjoint table `M` (no
    old key equal to, a beginning of or an extension of another old key or of
    the new key of a rule that does not remove; new keys apart likewise), when
    no field of `T` is named like a dotted old key, a second application of the
    loop to the result of the first emits no record and leaves the tree as it
    is. -/
theorem migration_idempotent_disjoint (T : Value) (M : List MigrationRule)
    (hM : pathDisjoint M = true) (hl : literalFree T M = true) :
    migrateKeys (migrateKeys T M).1 M = ((migrateKeys T M).1, []) := by
  rw [migrateKeys_eq_planned T M hM]
  exact migrate_noop M _ [] (planned_has_old T M T hM hl (fun _ _ => rfl))

/-- C6 (as stated, refuted): with the table `[a -> b, b -> c]` and
    `T = {a: 1}` the rule `a -> b` matches, yet the result `{c: 1}` has no
    value at its new key `b`. -/
theorem chained_rule_loses_new_value :
    has (.obj false [("a", .num 1)]) "a" = true
    ∧ (migrateKeys (.obj false [("a", .num 1)])
        [{ oldKey := "a", newKey := "b", migrate := fun v => v },
         { oldKey := "b", newKey := "c", migrate := fun v => v }]).1
      = .obj false [("c", .num 1)]
    ∧ has (migrateKeys (.obj false [("a", .num 1)])
        [{ oldKey := "a", newKey := "b", migrate := fun v => v },
         { oldKey := "b", newKey := "c", migrate := fun v => v }]).1 "b" = false := by
  exact ⟨rfl, rfl, rfl⟩

/-- On trees: for every tree `T`, every path-disjoint table `M`, when no
    field of `T` is named like a dotted old key, and every rule `R` of `M`
    whose old key has a value in `T`: the tree produced by the loop has no
    value at the old key of `R` and, if `R` does not remove, has the
    transform of the value `T` had at the old key at the new key of `R`. -/
theorem migration_complete_disjoint (T : Value) (M : List MigrationRule) (R : MigrationRule)
    (hM : pathDisjoint M = true) (hl : literalFree T M = true) (hR : R ∈ M)
    (hh : has T R.oldKey = true) :
    has (migrateKeys T M).1 R.oldKey = false
    ∧ (R.remove = false → get (migrateKeys T M).1 R.newKey = R.migrate (get T R.oldKey)) := by
  have hT : T.isObject = true := by
    cases h : T.isObject with
    | true => rfl
    | false => rw [has_of_not_object T h] at hh; cases hh
  rw [migrateKeys_eq_planned T M hM]
  exact ⟨planned_has_old T M T hM hl (fun _ _ => rfl) R hR,
    fun hrem => planned_get_new T M T hM hT R hR hh hrem⟩

/-! ## No loss: what the whole pipeline keeps -/

theorem pathClear_castPath (P : List String) (key : String) (T : Value)
    (h : pathClear P key = true) : diverge P (castPath key T) = true := by
  simp only [pathClear, Bool.and_eq_true] at h
  rcases castPath_cases key T with hc | ⟨hc, _, _⟩
  · rw [hc]; exact h.2
  · rw [hc]; exact h.1

theorem getPath_set_clear (T v : Value) (P : List String) (q : String)
    (h : pathClear P q = true) : getPath (set T q v) P = getPath T P := by
  cases hT : T.isObject with
  | false => rw [set_of_not_object T hT]
  | true =>
    rw [set_of_isObject T hT]
    exact getPath_setPath_diverge _ _ _ _ (pathClear_castPath P q T h)

theorem getPath_unset_clear (T : Value) (P : List String) (q : String)
    (h : pathClear P q = true) : getPath (unset T q) P = getPath T P := by
  cases hT : T.isObject with
  | false => rw [unset_of_not_object T hT]
  | true =>
    rw [unset_of_isObject T hT]
    exact getPath_unsetPath_diverge _ _ _ (pathClear_castPath P q T h)

theorem getPath_migrateStep_clear (T : Value) (log : List MigratedKey) (r : MigrationRule)
    (P : List String) (h₁ : pathClear P r.oldKey = true) (h₂ : pathClear P r.newKey = true) :
    getPath (migrateStep (T, log) r).1 P = getPath T P := by
  unfold migrateStep
  simp only []
  split
  · split
    · exact getPath_unset_clear _ _ _ h₁
    · simp only []
      rw [getPath_unset_clear _ _ _ h₁, getPath_set_clear _ _ _ _ h₂]
  · rfl

theorem isObject_migrateStep (T : Value) (log : List MigratedKey) (r : MigrationRule) :
    (migrateStep (T, log) r).1.isObject = T.isObject := by
  unfold migrateStep
  simp only []
  split
  · split
    · exact isObject_unset _ _
    · simp only []
      rw [isObject_unset, isObject_set]
  · rfl

theorem getPath_migrate_clear (P : List String) : ∀ (M : List MigrationRule)
    (state : Value × List MigratedKey),
    M.all (fun r => pathClear P r.oldKey && pathClear P r.newKey) = true →
    getPath (M.foldl migrateStep state).1 P = getPath state.1 P := by
  intro M
  induction M with
  | nil => intro _ _; rfl
  | cons r rest ih =>
    intro state h
    simp only [List.all_cons, Bool.and_eq_true] at h
    rw [List.foldl_cons, ih _ h.2]
    exact getPath_migrateStep_clear state.1 state.2 r P h.1.1 h.1.2

theorem isObject_migrate : ∀ (M : List MigrationRule) (state : Value × List MigratedKey),
    (M.foldl migrateStep state).1.isObject = state.1.isObject := by
  intro M
  induction M with
  | nil => intro _; rfl
  | cons r rest ih =>
    intro state
    rw [List.foldl_cons, ih]
    exact isObject_migrateStep state.1 state.2 r

theorem isScalar_not_object (V : Value) (h : V.isScalar = true) :
    V.isObject = false ∧ V ≠ .undefined := by
  cases V <;> simp [Value.isScalar, Value.isObject] at h ⊢

theorem getPath_baseMerge_scalar (V : Value) (hV : V.isScalar = true) :
    ∀ (P : List String) (a : Bool) (t d : Fields), P ≠ [] →
    getPath (.obj a t) P = V → getPath (.obj a (baseMerge t d)) P = V := by
  intro P
  induction P with
  | nil => intro _ _ _ h; exact absurd rfl h
  | cons k rest ih =>
    intro a t d _ hP
    obtain ⟨hVo, hVu⟩ := isScalar_not_object V hV
    rw [getPath_obj_cons] at hP ⊢
    cases rest with
    | nil =>
      simp only [getPath] at hP ⊢
      cases hl : lookup k t with
      | none =>
        rw [hl] at hP
        exact absurd hP.symm hVu
      | some c =>
        rw [hl] at hP
        simp only [Option.getD_some] at hP
        subst hP
        rw [lookup_baseMerge_user d t k c hl hVu (Or.inl hVo)]
        rfl
    | cons k₂ rest =>
      have inner : ∀ (d : Fields) (t : Fields),
          (∃ a' cfs, lookup k t = some (.obj a' cfs) ∧ getPath (.obj a' cfs) (k₂ :: rest) = V) →
          ∃ a' cfs, lookup k (baseMerge t d) = some (.obj a' cfs)
            ∧ getPath (.obj a' cfs) (k₂ :: rest) = V := by
        intro d
        induction d with
        | nil => intro t h; simpa [baseMerge] using h
        | cons f d ihd =>
          obtain ⟨key, sv⟩ := f
          intro t ⟨a', cfs, hl, hg⟩
          rw [baseMerge]
          apply ihd
          by_cases hkey : k = key
          · subst hkey
            rw [lookup_mergeKey_self, hl]
            cases sv with
            | obj b sfs =>
              exact ⟨a', baseMerge cfs sfs, rfl, ih a' cfs sfs (by simp) hg⟩
            | _ => exact ⟨a', cfs, rfl, hg⟩
          · rw [lookup_mergeKey_ne _ _ _ _ hkey]
            exact ⟨a', cfs, hl, hg⟩
      cases hl : lookup k t with
      | none =>
        rw [hl] at hP
        simp only [Option.getD_none, getPath_undefined] at hP
        exact absurd hP.symm hVu
      | some c =>
        rw [hl] at hP
        simp only [Option.getD_some] at hP
        cases c with
        | obj a' cfs =>
          obtain ⟨a'', cfs', hl', hg'⟩ := inner d t ⟨a', cfs, hl, hP⟩
          rw [hl']
          exact hg'
        | _ =>
          rw [getPath_of_not_object _ (by rfl)] at hP
          exact absurd hP.symm hVu

theorem getPath_defaultsDeep_scalar (T D V : Value) (P : List String)
    (hV : V.isScalar = true) (hT : T.isObject = true) (hne : P ≠ [])
    (hP : getPath T P = V) : getPath (defaultsDeep T D) P = V := by
  cases T with
  | obj a t =>
    cases D with
    | obj b d => exact getPath_baseMerge_scalar V hV P a t d hne hP
    | _ => exact hP
  | _ => simp [Value.isObject] at hT

/-- C2 (as stated, refuted): in `T = {disableThumbnails: true, thumbnails:
    {enabled: true}}` the leaf path `thumbnails.enabled` has the value `true`
    and is the old key of no rule, yet the reconciled tree has `false` there. -/
theorem new_key_target_overwritten :
    "thumbnails.enabled" ∈ getAllKeys (.obj false [("disableThumbnails", .bool true),
        ("thumbnails", .obj false [("enabled", .bool true)])]) ""
    ∧ get (.obj false [("disableThumbnails", .bool true),
        ("thumbnails", .obj false [("enabled", .bool true)])]) "thumbnails.enabled" = .bool true
    ∧ keyMigrationMap.all (fun r => r.oldKey != "thumbnails.enabled") = true
    ∧ get (addMissingConfigValues (.obj false []) (.obj false [("disableThumbnails", .bool true),
        ("thumbnails", .obj false [("enabled", .bool true)])])).config "thumbnails.enabled"
      = .bool false := by
  refine ⟨by decide, rfl, by decide, rfl⟩

/-- On trees: for every user tree `T`, every defaults tree `D` and every
    path `P` at which `T` has a scalar `V`, if `P` keeps clear of the old key
    and the new key of every rule of `keyMigrationMap` (it is not equal to, a
    beginning of or an extension of the path of such a key, and does not start
    with a field named like one), then the reconciled tree has the value `V`
    at `P`. -/
theorem no_loss_clear_of_rules (T D V : Value) (P : List String)
    (hV : V.isScalar = true) (hP : getPath T P = V)
    (hclear : keyMigrationMap.all
      (fun r => pathClear P r.oldKey && pathClear P r.newKey) = true) :
    getPath (addMissingConfigValues D T).config P = V := by
  obtain ⟨hVo, hVu⟩ := isScalar_not_object V hV
  have hne : P ≠ [] := by
    intro e
    subst e
    revert hclear
    decide
  have hT : T.isObject = true := by
    cases h : T.isObject with
    | true => rfl
    | false =>
      cases P with
      | nil => exact absurd rfl hne
      | cons k rest =>
        rw [getPath_of_not_object T h] at hP
        exact absurd hP.symm hVu
  unfold addMissingConfigValues addMissingConfigValuesWith reconcile migrateKeys
  simp only []
  apply getPath_defaultsDeep_scalar _ _ _ _ hV _ hne
  · rw [getPath_migrate_clear P keyMigrationMap (T, []) hclear]
    exact hP
  · rw [isObject_migrate]
    exact hT

/-! ## The same tree: an equivalence -/

theorem sameOption_refl (x : Option Value) : SameOption x x := by
  cases x with
  | none => trivial
  | some v => exact SameTree.refl v

theorem sameFields_refl (fs : Fields) : SameFields fs fs :=
  fun k => sameOption_refl (lookup k fs)

theorem sameTree_of_sameFields (a : Bool) (fs gs : Fields) (h : SameFields fs gs) :
    SameTree (.obj a fs) (.obj a gs) := by
  apply SameTree.obj
  · intro k
    have := h k
    cases h₁ : lookup k fs <;> cases h₂ : lookup k gs <;> simp_all [SameOption]
  · intro k v w hv hw
    have := h k
    rw [hv, hw] at this
    exact this

theorem sameFields_of_sameTree (a b : Bool) (fs gs : Fields)
    (h : SameTree (.obj a fs) (.obj b gs)) : a = b ∧ SameFields fs gs := by
  cases h with
  | refl => exact ⟨rfl, sameFields_refl fs⟩
  | obj _ _ _ h₁ h₂ =>
    refine ⟨rfl, ?_⟩
    intro k
    have := h₁ k
    cases hv : lookup k fs with
    | none =>
      cases hw : lookup k gs with
      | none => trivial
      | some w => simp [hv, hw] at this
    | some v =>
      cases hw : lookup k gs with
      | none => simp [hv, hw] at this
      | some w => exact h₂ k v w hv hw

theorem sameTree_cases (T T' : Value) (h : SameTree T T') :
    (T.isObject = false ∧ T' = T) ∨
    (∃ a fs gs, T = .obj a fs ∧ T' = .obj a gs ∧ SameFields fs gs) := by
  cases T with
  | obj a fs =>
    cases T' with
    | obj b gs =>
      obtain ⟨rfl, hf⟩ := sameFields_of_sameTree a b fs gs h
      exact Or.inr ⟨a, fs, gs, rfl, rfl, hf⟩
    | _ => cases h
  | _ => cases h; exact Or.inl ⟨rfl, rfl⟩

theorem sameTree_isObject (T T' : Value) (h : SameTree T T') : T'.isObject = T.isObject := by
  rcases sameTree_cases T T' h with ⟨_, rfl⟩ | ⟨a, fs, gs, rfl, rfl, _⟩ <;> rfl

theorem sameTree_symm : ∀ (T T' : Value), SameTree T T' → SameTree T' T := by
  intro T T' h
  induction h with
  | refl v => exact SameTree.refl v
  | obj a fs gs h₁ _ ih =>
    exact SameTree.obj a gs fs (fun k => (h₁ k).symm) (fun k v w hv hw => ih k w v hw hv)

theorem sameTree_trans : ∀ (T₁ T₂ T₃ : Value), SameTree T₁ T₂ → SameTree T₂ T₃ →
    SameTree T₁ T₃ := by
  intro T₁ T₂ T₃ h
  induction h generalizing T₃ with
  | refl v => exact fun h => h
  | obj a fs gs h₁ h₂ ih =>
    intro h'
    cases T₃ with
    | obj b hs =>
      obtain ⟨rfl, hf⟩ := sameFields_of_sameTree a b gs hs h'
      apply SameTree.obj
      · intro k
        have := hf k
        rw [h₁ k]
        cases hg : lookup k gs <;> cases hh : lookup k hs <;> simp_all [SameOption]
      · intro k v w hv hw
        have hk := h₁ k
        rw [hv] at hk
        cases hg : lookup k gs with
        | none => simp [hg] at hk
        | some u =>
          have := hf k
          rw [hg, hw] at this
          exact ih k v u hv hg w this
    | _ => cases h'

theorem sameOption_isSome (x y : Option Value) (h : SameOption x y) : y.isSome = x.isSome := by
  cases x <;> cases y <;> simp_all [SameOption]

/-! ## The same tree under assignment and deletion -/

theorem lookup_assignField (k k' : String) (v : Value) (fs : Fields) :
    lookup k' (assignField k v fs) = if k' = k then some v else lookup k' fs := by
  by_cases h : k' = k
  · subst h
    simp [lookup_assignField_self]
  · simp [h, lookup_assignField_ne _ _ _ _ h]

theorem lookup_deleteField (k k' : String) (fs : Fields) :
    lookup k' (deleteField k fs) = if k' = k then none else lookup k' fs := by
  by_cases h : k' = k
  · subst h
    simp [lookup_deleteField_self]
  · simp [h, lookup_deleteField_ne _ _ _ h]

theorem lookup_replaceField (k k' : String) (v : Value) (fs : Fields) :
    lookup k' (replaceField k v fs)
      = if k' = k then (lookup k fs).map (fun _ => v) else lookup k' fs := by
  by_cases h : k' = k
  · subst h
    simp [lookup_replaceField_self]
  · simp [h, lookup_replaceField_ne _ _ _ _ h]

/-- The fields after `_.set` along a path that starts with `k`. -/
theorem setPath_obj_lookup (a : Bool) (fs : Fields) (k : String) (rest : List String)
    (v : Value) :
    ∃ gs, setPath (.obj a fs) (k :: rest) v = .obj a gs
      ∧ ∀ k', lookup k' gs = if k' = k then some (setChild (lookup k fs) rest v)
          else lookup k' fs := by
  cases rest with
  | nil =>
    exact ⟨_, setPath_obj_single a fs k v, fun k' => by
      rw [lookup_assignField]; rfl⟩
  | cons k₂ rest =>
    exact ⟨_, setPath_obj_cons a fs k k₂ rest v, fun k' => by
      rw [lookup_assignField]; rfl⟩

/-- The fields after `_.unset` along a path that starts with `k`. -/
theorem unsetPath_obj_lookup (a : Bool) (fs : Fields) (k : String) (rest : List String) :
    ∃ gs, unsetPath (.obj a fs) (k :: rest) = .obj a gs
      ∧ ∀ k', lookup k' gs = if k' = k then unsetChild (lookup k fs) rest
          else lookup k' fs := by
  cases rest with
  | nil =>
    exact ⟨_, unsetPath_obj_single a fs k, fun k' => by
      rw [lookup_deleteField]; rfl⟩
  | cons k₂ rest =>
    rw [unsetPath_obj_cons]
    cases hl : lookup k fs with
    | none =>
      refine ⟨fs, rfl, fun k' => ?_⟩
      by_cases h : k' = k
      · subst h
        simp [unsetChild, hl]
      · simp [h]
    | some child =>
      refine ⟨_, rfl, fun k' => ?_⟩
      rw [lookup_replaceField, hl]
      rfl

theorem sameTree_intermediate (c c' : Option Value) (b : Bool) (h : SameOption c c') :
    SameTree (if (c.getD .undefined).isObject then c.getD .undefined else .obj b [])
      (if (c'.getD .undefined).isObject then c'.getD .undefined else .obj b []) := by
  cases c with
  | none =>
    cases c' with
    | none => exact SameTree.refl _
    | some w => cases h
  | some v =>
    cases c' with
    | none => cases h
    | some w =>
      have hs : SameTree v w := h
      simp only [Option.getD_some, sameTree_isObject v w hs]
      split
      · exact hs
      · exact SameTree.refl _

theorem setPath_same : ∀ (p : List String) (T T' v v' : Value),
    SameTree T T' → SameTree v v' → SameTree (setPath T p v) (setPath T' p v') := by
  intro p
  induction p with
  | nil => intro T T' v v' h _; simpa [setPath] using h
  | cons k rest ih =>
    intro T T' v v' h hv
    rcases sameTree_cases T T' h with ⟨hT, e⟩ | ⟨a, fs, gs, rfl, rfl, hf⟩
    · rw [e, setPath_of_not_object T hT, setPath_of_not_object T hT]
      exact SameTree.refl T
    · obtain ⟨fs', e₁, l₁⟩ := setPath_obj_lookup a fs k rest v
      obtain ⟨gs', e₂, l₂⟩ := setPath_obj_lookup a gs k rest v'
      rw [e₁, e₂]
      apply sameTree_of_sameFields
      intro k'
      rw [l₁, l₂]
      by_cases hk : k' = k
      · simp only [hk, if_true]
        show SameTree _ _
        cases rest with
        | nil => exact hv
        | cons k₂ rest =>
          exact ih _ _ v v' (sameTree_intermediate _ _ _ (hf k)) hv
      · simp only [hk, if_false]
        exact hf k'

theorem unsetPath_same : ∀ (p : List String) (T T' : Value),
    SameTree T T' → SameTree (unsetPath T p) (unsetPath T' p) := by
  intro p
  induction p with
  | nil => intro T T' h; simpa [unsetPath] using h
  | cons k rest ih =>
    intro T T' h
    rcases sameTree_cases T T' h with ⟨hT, e⟩ | ⟨a, fs, gs, rfl, rfl, hf⟩
    · rw [e, unsetPath_of_not_object T hT]
      exact SameTree.refl T
    · obtain ⟨fs', e₁, l₁⟩ := unsetPath_obj_lookup a fs k rest
      obtain ⟨gs', e₂, l₂⟩ := unsetPath_obj_lookup a gs k rest
      rw [e₁, e₂]
      apply sameTree_of_sameFields
      intro k'
      rw [l₁, l₂]
      by_cases hk : k' = k
      · simp only [hk, if_true]
        cases rest with
        | nil => trivial
        | cons k₂ rest =>
          have := hf k
          cases hc : lookup k fs <;> cases hc' : lookup k gs <;>
            simp_all [SameOption, unsetChild]
      · simp only [hk, if_false]
        exact hf k'

theorem sameTree_hasOwn (T T' : Value) (h : SameTree T T') (k : String) :
    hasOwn T' k = hasOwn T k := by
  rcases sameTree_cases T T' h with ⟨_, rfl⟩ | ⟨a, fs, gs, rfl, rfl, hf⟩
  · rfl
  · exact sameOption_isSome _ _ (hf k)

theorem sameTree_castPath (T T' : Value) (h : SameTree T T') (k : String) :
    castPath k T' = castPath k T :=
  castPath_congr k T T' (fun _ => sameTree_hasOwn T T' h k)

theorem set_same (T T' v : Value) (k : String) (h : SameTree T T') :
    SameTree (set T k v) (set T' k v) := by
  cases hT : T.isObject with
  | false =>
    rw [set_of_not_object T hT, set_of_not_object T' (by rw [sameTree_isObject T T' h]; exact hT)]
    exact h
  | true =>
    rw [set_of_isObject T hT,
      set_of_isObject T' (by rw [sameTree_isObject T T' h]; exact hT),
      sameTree_castPath T T' h]
    exact setPath_same _ _ _ _ _ h (SameTree.refl v)

theorem unset_same (T T' : Value) (k : String) (h : SameTree T T') :
    SameTree (unset T k) (unset T' k) := by
  cases hT : T.isObject with
  | false =>
    rw [unset_of_not_object T hT,
      unset_of_not_object T' (by rw [sameTree_isObject T T' h]; exact hT)]
    exact h
  | true =>
    rw [unset_of_isObject T hT,
      unset_of_isObject T' (by rw [sameTree_isObject T T' h]; exact hT),
      sameTree_castPath T T' h]
    exact unsetPath_same _ _ _ h

theorem plannedStep_same (T0 T T' : Value) (r : MigrationRule) (h : SameTree T T') :
    SameTree (plannedStep T0 T r) (plannedStep T0 T' r) := by
  unfold plannedStep
  split
  · split
    · exact unset_same _ _ _ h
    · exact unset_same _ _ _ (set_same _ _ _ _ h)
  · exact h

theorem planned_same (T0 : Value) : ∀ (M : List MigrationRule) (T T' : Value),
    SameTree T T' → SameTree (M.foldl (plannedStep T0) T) (M.foldl (plannedStep T0) T') := by
  intro M
  induction M with
  | nil => intro T T' h; exact h
  | cons r rest ih =>
    intro T T' h
    exact ih _ _ (plannedStep_same T0 T T' r h)

/-! ## Writes and deletions along paths that part ways commute -/

theorem unsetPath_empty_obj (b : Bool) (p : List String) :
    unsetPath (.obj b []) p = .obj b [] := by
  cases p with
  | nil => rfl
  | cons k rest => cases rest <;> simp [unsetPath, deleteField, lookup]

theorem isObject_of_intermediate (c : Value) (b : Bool) :
    (if c.isObject then c else Value.obj b []).isObject = true := by
  split
  · assumption
  · rfl

theorem setChild_cons (c : Option Value) (k : String) (rest : List String) (v : Value) :
    setChild c (k :: rest) v
      = setPath (if (c.getD .undefined).isObject then c.getD .undefined
          else .obj (isIndex k) []) (k :: rest) v := rfl

theorem setChild_of_object (X : Value) (hX : X.isObject = true) (k : String)
    (rest : List String) (v : Value) :
    setChild (some X) (k :: rest) v = setPath X (k :: rest) v := by
  simp [setChild, hX]

theorem setPath_setPath_comm : ∀ (p q : List String) (T v w : Value),
    diverge p q = true → (∀ s ∈ p.tail, isIndex s = false) →
    (∀ s ∈ q.tail, isIndex s = false) →
    SameTree (setPath (setPath T p v) q w) (setPath (setPath T q w) p v) := by
  intro p
  induction p with
  | nil => intro q T v w h; simp [diverge] at h
  | cons k p' ih =>
    intro q T v w h hp hq
    cases q with
    | nil => simp [diverge] at h
    | cons j q' =>
      cases hT : T.isObject with
      | false =>
        simp only [setPath_of_not_object T hT]
        exact SameTree.refl T
      | true =>
        cases T with
        | obj a fs =>
          obtain ⟨g₁, e₁, l₁⟩ := setPath_obj_lookup a fs k p' v
          obtain ⟨gL, eL, lL⟩ := setPath_obj_lookup a g₁ j q' w
          obtain ⟨g₂, e₂, l₂⟩ := setPath_obj_lookup a fs j q' w
          obtain ⟨gR, eR, lR⟩ := setPath_obj_lookup a g₂ k p' v
          rw [e₁, eL, e₂, eR]
          apply sameTree_of_sameFields
          intro k'
          rw [lL, lR]
          by_cases hkj : k = j
          · subst hkj
            rw [diverge_cons_same] at h
            by_cases hk : k' = k
            · subst hk
              simp only [if_true, l₁, l₂]
              show SameTree _ _
              cases p' with
              | nil => simp [diverge] at h
              | cons k₂ p'' =>
                cases q' with
                | nil => simp [diverge] at h
                | cons j₂ q'' =>
                  have hk₂ : isIndex k₂ = false := hp k₂ (by simp)
                  have hj₂ : isIndex j₂ = false := hq j₂ (by simp)
                  rw [setChild_cons (lookup k' fs) k₂, setChild_cons (lookup k' fs) j₂,
                    hk₂, hj₂,
                    setChild_of_object _ (by rw [isObject_setPath]; exact isObject_of_intermediate _ _),
                    setChild_of_object _ (by rw [isObject_setPath]; exact isObject_of_intermediate _ _)]
                  exact ih _ _ v w h (fun s hs => hp s (by simp at hs ⊢; exact Or.inr hs))
                    (fun s hs => hq s (by simp at hs ⊢; exact Or.inr hs))
            · simp only [hk, if_false, l₁, l₂]
              exact sameOption_refl _
          · by_cases hk : k' = j
            · subst hk
              have hne : k' ≠ k := Ne.symm hkj
              simp only [if_true, hne, if_false, l₁, l₂]
              exact sameOption_refl _
            · by_cases hk₁ : k' = k
              · subst hk₁
                simp only [hk, if_false, if_true, l₁, l₂]
                exact sameOption_refl _
              · simp only [hk, hk₁, if_false, l₁, l₂]
                exact sameOption_refl _
        | _ => simp [Value.isObject] at hT

theorem unsetPath_unsetPath_comm : ∀ (p q : List String) (T : Value),
    diverge p q = true →
    SameTree (unsetPath (unsetPath T p) q) (unsetPath (unsetPath T q) p) := by
  intro p
  induction p with
  | nil => intro q T h; simp [diverge] at h
  | cons k p' ih =>
    intro q T h
    cases q with
    | nil => simp [diverge] at h
    | cons j q' =>
      cases hT : T.isObject with
      | false =>
        simp only [unsetPath_of_not_object T hT]
        exact SameTree.refl T
      | true =>
        cases T with
        | obj a fs =>
          obtain ⟨g₁, e₁, l₁⟩ := unsetPath_obj_lookup a fs k p'
          obtain ⟨gL, eL, lL⟩ := unsetPath_obj_lookup a g₁ j q'
          obtain ⟨g₂, e₂, l₂⟩ := unsetPath_obj_lookup a fs j q'
          obtain ⟨gR, eR, lR⟩ := unsetPath_obj_lookup a g₂ k p'
          rw [e₁, eL, e₂, eR]
          apply sameTree_of_sameFields
          intro k'
          rw [lL, lR]
          by_cases hkj : k = j
          · subst hkj
            rw [diverge_cons_same] at h
            by_cases hk : k' = k
            · subst hk
              simp only [if_true, l₁, l₂]
              cases p' with
              | nil => simp [diverge] at h
              | cons k₂ p'' =>
                cases q' with
                | nil => simp [diverge] at h
                | cons j₂ q'' =>
                  cases hc : lookup k' fs with
                  | none => simp [unsetChild, SameOption]
                  | some child =>
                    simp only [unsetChild, Option.map_some']
                    exact ih _ child h
            · simp only [hk, if_false, l₁, l₂]
              exact sameOption_refl _
          · by_cases hk : k' = j
            · subst hk
              have hne : k' ≠ k := Ne.symm hkj
              simp only [if_true, hne, if_false, l₁, l₂]
              exact sameOption_refl _
            · by_cases hk₁ : k' = k
              · subst hk₁
                simp only [hk, if_false, if_true, l₁, l₂]
                exact sameOption_refl _
              · simp only [hk, hk₁, if_false, l₁, l₂]
                exact sameOption_refl _
        | _ => simp [Value.isObject] at hT

theorem unsetPath_setPath_comm : ∀ (p q : List String) (T v : Value),
    diverge p q = true →
    SameTree (unsetPath (setPath T p v) q) (setPath (unsetPath T q) p v) := by
  intro p
  induction p with
  | nil => intro q T v h; simp [diverge] at h
  | cons k p' ih =>
    intro q T v h
    cases q with
    | nil => simp [diverge] at h
    | cons j q' =>
      cases hT : T.isObject with
      | false =>
        simp only [setPath_of_not_object T hT, unsetPath_of_not_object T hT]
        exact SameTree.refl T
      | true =>
        cases T with
        | obj a fs =>
          obtain ⟨g₁, e₁, l₁⟩ := setPath_obj_lookup a fs k p' v
          obtain ⟨gL, eL, lL⟩ := unsetPath_obj_lookup a g₁ j q'
          obtain ⟨g₂, e₂, l₂⟩ := unsetPath_obj_lookup a fs j q'
          obtain ⟨gR, eR, lR⟩ := setPath_obj_lookup a g₂ k p' v
          rw [e₁, eL, e₂, eR]
          apply sameTree_of_sameFields
          intro k'
          rw [lL, lR]
          by_cases hkj : k = j
          · subst hkj
            rw [diverge_cons_same] at h
            by_cases hk : k' = k
            · subst hk
              simp only [if_true, l₁, l₂]
              cases p' with
              | nil => simp [diverge] at h
              | cons k₂ p'' =>
                cases q' with
                | nil => simp [diverge] at h
                | cons j₂ q'' =>
                  show SameTree _ _
                  cases hc : lookup k' fs with
                  | none =>
                    simp only [unsetChild, Option.map_none', setChild_cons, Option.getD_none,
                      Value.isObject, Bool.false_eq_true, if_false]
                    have := ih (j₂ :: q'') (.obj (isIndex k₂) []) v h
                    rw [unsetPath_empty_obj] at this
                    exact this
                  | some child =>
                    simp only [unsetChild, Option.map_some', setChild_cons, Option.getD_some,
                      isObject_unsetPath]
                    cases hco : child.isObject with
                    | true =>
                      simp only [if_true]
                      exact ih (j₂ :: q'') child v h
                    | false =>
                      simp only [Bool.false_eq_true, if_false]
                      have := ih (j₂ :: q'') (.obj (isIndex k₂) []) v h
                      rw [unsetPath_empty_obj] at this
                      exact this
            · simp only [hk, if_false, l₁, l₂]
              exact sameOption_refl _
          · by_cases hk : k' = j
            · subst hk
              have hne : k' ≠ k := Ne.symm hkj
              simp only [if_true, hne, if_false, l₁, l₂]
              exact sameOption_refl _
            · by_cases hk₁ : k' = k
              · subst hk₁
                simp only [hk, if_false, if_true, l₁, l₂]
                exact sameOption_refl _
              · simp only [hk, hk₁, if_false, l₁, l₂]
                exact sameOption_refl _
        | _ => simp [Value.isObject] at hT

/-! ## Writes and deletions at keys that are apart commute -/

theorem castPath_tail_plain (k : String) (T : Value) (h : plainTail k = true) :
    ∀ s ∈ (castPath k T).tail, isIndex s = false := by
  intro s hs
  rcases castPath_cases k T with hc | ⟨hc, _, _⟩
  · rw [hc] at hs
    simp at hs
  · rw [hc] at hs
    simp only [plainTail, List.all_eq_true, Bool.not_eq_true'] at h
    exact h s hs

theorem set_set_comm (T v w : Value) (k q : String) (h : keysApart k q = true)
    (hk : plainTail k = true) (hq : plainTail q = true) :
    SameTree (set (set T k v) q w) (set (set T q w) k v) := by
  cases hT : T.isObject with
  | false =>
    simp only [set_of_not_object T hT]
    exact SameTree.refl T
  | true =>
    have hne := keysApart_ne k q h
    rw [set_of_isObject (set T k v) (by rw [isObject_set]; exact hT),
      set_of_isObject (set T q w) (by rw [isObject_set]; exact hT),
      castPath_set_ne T v q k (Ne.symm hne), castPath_set_ne T w k q hne,
      set_of_isObject T hT, set_of_isObject T hT]
    exact setPath_setPath_comm _ _ T v w (castPath_diverge k q T T h)
      (castPath_tail_plain k T hk) (castPath_tail_plain q T hq)

theorem unset_unset_comm (T : Value) (k q : String) (h : keysApart k q = true) :
    SameTree (unset (unset T k) q) (unset (unset T q) k) := by
  cases hT : T.isObject with
  | false =>
    simp only [unset_of_not_object T hT]
    exact SameTree.refl T
  | true =>
    have hne := keysApart_ne k q h
    rw [unset_of_isObject (unset T k) (by rw [isObject_unset]; exact hT),
      unset_of_isObject (unset T q) (by rw [isObject_unset]; exact hT),
      castPath_unset_ne T q k (Ne.symm hne), castPath_unset_ne T k q hne,
      unset_of_isObject T hT, unset_of_isObject T hT]
    exact unsetPath_unsetPath_comm _ _ T (castPath_diverge k q T T h)

theorem unset_set_comm (T v : Value) (k q : String) (h : keysApart k q = true) :
    SameTree (unset (set T k v) q) (set (unset T q) k v) := by
  cases hT : T.isObject with
  | false =>
    simp only [set_of_not_object T hT, unset_of_not_object T hT]
    exact SameTree.refl T
  | true =>
    have hne := keysApart_ne k q h
    rw [unset_of_isObject (set T k v) (by rw [isObject_set]; exact hT),
      set_of_isObject (unset T q) (by rw [isObject_unset]; exact hT),
      castPath_set_ne T v q k (Ne.symm hne), castPath_unset_ne T k q hne,
      set_of_isObject T hT, unset_of_isObject T hT]
    exact unsetPath_setPath_comm _ _ T v (castPath_diverge k q T T h)

theorem rulesApart_symm (r s : MigrationRule) (h : rulesApart r s = true) :
    rulesApart s r = true := by
  obtain ⟨h₁, h₂, h₃, h₄⟩ := rulesApart_unfold r s h
  simp only [rulesApart, Bool.and_eq_true, Bool.or_eq_true]
  refine ⟨⟨⟨by rw [keysApart_symm]; exact h₁, ?_⟩, ?_⟩, ?_⟩
  · rcases h₃ with h | h
    · exact Or.inl h
    · right; rw [keysApart_symm]; exact h
  · rcases h₂ with h | h
    · exact Or.inl h
    · right; rw [keysApart_symm]; exact h
  · rcases h₄ with h | h | h
    · exact Or.inl (Or.inr h)
    · exact Or.inl (Or.inl h)
    · right; rw [keysApart_symm]; exact h

/-- Two rules with path-disjoint keys can be applied in either order. -/
theorem plannedStep_comm (T0 T : Value) (r s : MigrationRule) (h : rulesApart r s = true)
    (hr : r.remove = true ∨ plainTail r.newKey = true)
    (hs : s.remove = true ∨ plainTail s.newKey = true) :
    SameTree (plannedStep T0 (plannedStep T0 T r) s) (plannedStep T0 (plannedStep T0 T s) r) := by
  obtain ⟨h₁, h₂, h₃, h₄⟩ := rulesApart_unfold r s h
  have h₁' : keysApart s.oldKey r.oldKey = true := by rw [keysApart_symm]; exact h₁
  unfold plannedStep
  cases has T0 r.oldKey with
  | false => simp only [Bool.false_eq_true, if_false]; exact SameTree.refl _
  | true =>
    cases has T0 s.oldKey with
    | false => simp only [Bool.false_eq_true, if_false, if_true]; exact SameTree.refl _
    | true =>
      simp only [if_true]
      cases hrr : r.remove with
      | true =>
        cases hsr : s.remove with
        | true =>
          simp only [if_true]
          exact unset_unset_comm T _ _ h₁
        | false =>
          simp only [if_true, Bool.false_eq_true, if_false]
          have hon : keysApart s.newKey r.oldKey = true := by
            rcases h₂ with h | h
            · rw [hsr] at h; cases h
            · rw [keysApart_symm]; exact h
          apply sameTree_trans _ _ _
            (unset_same _ _ _ (sameTree_symm _ _ (unset_set_comm T _ s.newKey r.oldKey hon)))
          exact unset_unset_comm _ _ _ h₁
      | false =>
        have hplain : plainTail r.newKey = true := by
          rcases hr with h | h
          · rw [hrr] at h; cases h
          · exact h
        have hno : keysApart r.newKey s.oldKey = true := by
          rcases h₃ with h | h
          · rw [hrr] at h; cases h
          · exact h
        cases hsr : s.remove with
        | true =>
          simp only [if_true, Bool.false_eq_true, if_false]
          apply sameTree_trans _ _ _ (unset_unset_comm _ _ _ h₁)
          exact unset_same _ _ _ (unset_set_comm T _ r.newKey s.oldKey hno)
        | false =>
          simp only [Bool.false_eq_true, if_false]
          have hplain' : plainTail s.newKey = true := by
            rcases hs with h | h
            · rw [hsr] at h; cases h
            · exact h
          have hon : keysApart s.newKey r.oldKey = true := by
            rcases h₂ with h | h
            · rw [hsr] at h; cases h
            · rw [keysApart_symm]; exact h
          have hnn : keysApart r.newKey s.newKey = true := by
            rcases h₄ with h | h | h
            · rw [hrr] at h; cases h
            · rw [hsr] at h; cases h
            · exact h
          apply sameTree_trans _ _ _
            (unset_same _ _ _ (sameTree_symm _ _ (unset_set_comm _ _ s.newKey r.oldKey hon)))
          apply sameTree_trans _ _ _ (unset_unset_comm _ _ _ h₁)
          apply unset_same
          apply sameTree_trans _ _ _
            (unset_same _ _ _ (set_set_comm T _ _ r.newKey s.newKey hnn hplain hplain'))
          exact unset_set_comm _ _ r.newKey s.oldKey hno

/-! ## The order of a path-disjoint table does not matter -/

theorem pathDisjoint_iff (M : List MigrationRule) :
    pathDisjoint M = true ↔
      (∀ r ∈ M, selfApart r = true) ∧ M.Pairwise (fun r s => rulesApart r s = true) := by
  induction M with
  | nil => simp [pathDisjoint]
  | cons r rest ih =>
    simp only [pathDisjoint, Bool.and_eq_true, List.all_eq_true, ih, List.mem_cons,
      List.pairwise_cons]
    constructor
    · rintro ⟨⟨h₁, h₂⟩, h₃, h₄⟩
      refine ⟨?_, h₂, h₄⟩
      rintro x (rfl | hx)
      · exact h₁
      · exact h₃ x hx
    · rintro ⟨h₁, h₂, h₃⟩
      exact ⟨⟨h₁ r (Or.inl rfl), h₂⟩, fun x hx => h₁ x (Or.inr hx), h₃⟩

theorem pathDisjoint_perm (M M' : List MigrationRule) (hp : M'.Perm M)
    (h : pathDisjoint M = true) : pathDisjoint M' = true := by
  rw [pathDisjoint_iff] at h ⊢
  refine ⟨fun r hr => h.1 r (hp.subset hr), ?_⟩
  exact (hp.pairwise_iff (fun {x y} hxy => rulesApart_symm x y hxy)).mpr h.2

theorem planned_perm (T0 : Value) (M' M : List MigrationRule) (hp : M'.Perm M) :
    M'.Pairwise (fun r s => rulesApart r s = true) →
    (∀ r ∈ M', r.remove = true ∨ plainTail r.newKey = true) →
    ∀ T T', SameTree T T' →
      SameTree (M'.foldl (plannedStep T0) T) (M.foldl (plannedStep T0) T') := by
  induction hp with
  | nil => intro _ _ T T' h; exact h
  | cons x _ ih =>
    intro hpw hpl T T' h
    rw [List.pairwise_cons] at hpw
    exact ih hpw.2 (fun r hr => hpl r (List.mem_cons_of_mem _ hr)) _ _
      (plannedStep_same T0 T T' x h)
  | swap x y l =>
    intro hpw hpl T T' h
    simp only [List.foldl_cons]
    apply planned_same
    have hyx : rulesApart y x = true := by
      rw [List.pairwise_cons] at hpw
      exact hpw.1 x (by simp)
    apply sameTree_trans _ _ _
      (plannedStep_comm T0 T y x hyx (hpl y (by simp)) (hpl x (by simp)))
    exact plannedStep_same T0 _ _ y (plannedStep_same T0 T T' x h)
  | trans h₁ _ ih₁ ih₂ =>
    intro hpw hpl T T' h
    apply sameTree_trans _ _ _ (ih₁ hpw hpl T T (SameTree.refl T))
    apply ih₂ _ _ T T' h
    · exact (h₁.pairwise_iff (fun {x y} hxy => rulesApart_symm x y hxy)).mp hpw
    · exact fun r hr => hpl r (h₁.symm.subset hr)

theorem keyMigrationMap_pathDisjoint : pathDisjoint keyMigrationMap = true := by
  decide

theorem keyMigrationMap_plain :
    keyMigrationMap.all (fun r => r.remove || plainTail r.newKey) = true := by
  decide

/-- On trees: `keyMigrationMap` is path-disjoint, and for every tree `T` and every
    permutation of `keyMigrationMap` the migration loop produces the same
    final tree as a mapping (the same field names with the same values at
    every depth, whatever the order of the fields); the migration records
    are the same up to their order. -/
theorem migration_order_insensitive (T : Value) (M' : List MigrationRule)
    (hp : M'.Perm keyMigrationMap) :
    pathDisjoint keyMigrationMap = true
    ∧ SameTree (migrateKeys T M').1 (migrateKeys T keyMigrationMap).1
    ∧ (migrateKeys T M').2.Perm (migrateKeys T keyMigrationMap).2 := by
  have hd := keyMigrationMap_pathDisjoint
  have hd' := pathDisjoint_perm keyMigrationMap M' hp hd
  rw [migrateKeys_eq_planned T M' hd', migrateKeys_eq_planned T keyMigrationMap hd]
  refine ⟨hd, ?_, hp.filterMap _⟩
  apply planned_perm T M' keyMigrationMap hp ((pathDisjoint_iff M').mp hd').2 _ T T
    (SameTree.refl T)
  intro r hr
  have := List.all_eq_true.mp keyMigrationMap_plain r (hp.subset hr)
  simpa using this

/-! ## Scenarios of the migration loop -/

/-- C11: the first entry of `keyMigrationMap` applied to
    `T = {disableThumbnails: true}` yields `{thumbnails: {enabled: false}}`,
    without `disableThumbnails`, and exactly one record: old key
    `disableThumbnails`, new key `thumbnails.enabled`, old value `true`, new
    value `false`; the whole table does the same. -/
theorem rename_and_transform_scenario :
    (keyMigrationMap.take 1).map (fun r => (r.oldKey, r.newKey, r.remove))
      = [("disableThumbnails", "thumbnails.enabled", false)]
    ∧ migrateKeys (.obj false [("disableThumbnails", .bool true)]) (keyMigrationMap.take 1)
      = (.obj false [("thumbnails", .obj false [("enabled", .bool false)])],
         [{ oldKey := "disableThumbnails", newKey := some "thumbnails.enabled",
            oldValue := some (.bool true), newValue := .bool false }])
    ∧ has (migrateKeys (.obj false [("disableThumbnails", .bool true)])
        (keyMigrationMap.take 1)).1 "disableThumbnails" = false
    ∧ migrateKeys (.obj false [("disableThumbnails", .bool true)]) keyMigrationMap
      = (.obj false [("thumbnails", .obj false [("enabled", .bool false)])],
         [{ oldKey := "disableThumbnails", newKey := some "thumbnails.enabled",
            oldValue := some (.bool true), newValue := .bool false }]) := by
  exact ⟨rfl, rfl, rfl, rfl⟩

/-! ## The change log -/

theorem migrateStep_log (T : Value) (log : List MigratedKey) (r : MigrationRule) :
    migrateStep (T, log) r
      = ((migrateStep (T, []) r).1, log ++ (plannedRecord T r).toList) := by
  rw [migrateStep_eq_planned T T log r rfl rfl, migrateStep_eq_planned T T [] r rfl rfl]

theorem migrate_log : ∀ (M : List MigrationRule) (T : Value) (log : List MigratedKey),
    M.foldl migrateStep (T, log)
      = ((M.foldl migrateStep (T, [])).1, log ++ matchedRecords T M) := by
  intro M
  induction M with
  | nil => intro T log; simp [matchedRecords]
  | cons r rest ih =>
    intro T log
    rw [List.foldl_cons, List.foldl_cons, migrateStep_log T log r, ih,
      ih (migrateStep (T, []) r).1 (migrateStep (T, []) r).2]
    simp [matchedRecords, List.append_assoc]

theorem plannedRecord_oldKey (T : Value) (r : MigrationRule) :
    (plannedRecord T r).toList.map (fun record => record.oldKey)
      = if has T r.oldKey then [r.oldKey] else [] := by
  unfold plannedRecord
  cases has T r.oldKey <;> cases r.remove <;> simp

theorem matchedRecords_sublist : ∀ (M : List MigrationRule) (T : Value),
    ((matchedRecords T M).map (fun record => record.oldKey)).Sublist
      (M.map (fun r => r.oldKey)) := by
  intro M
  induction M with
  | nil => intro T; simp [matchedRecords]
  | cons r rest ih =>
    intro T
    simp only [matchedRecords, List.map_append, List.map_cons, plannedRecord_oldKey]
    cases has T r.oldKey with
    | true =>
      simp only [if_true, List.singleton_append]
      exact (ih _).cons₂ _
    | false =>
      simp only [Bool.false_eq_true, if_false, List.nil_append]
      exact (ih _).cons _

/-! ## Remove-only rules -/

theorem hasPath_set_clear (T v : Value) (P : List String) (q : String)
    (h : pathClear P q = true) : hasPath (set T q v) P = hasPath T P := by
  cases hT : T.isObject with
  | false => rw [set_of_not_object T hT]
  | true =>
    rw [set_of_isObject T hT]
    exact hasPath_setPath_diverge _ _ _ _ (pathClear_castPath P q T h)

theorem hasPath_unset_clear (T : Value) (P : List String) (q : String)
    (h : pathClear P q = true) : hasPath (unset T q) P = hasPath T P := by
  cases hT : T.isObject with
  | false => rw [unset_of_not_object T hT]
  | true =>
    rw [unset_of_isObject T hT]
    exact hasPath_unsetPath_diverge _ _ _ (pathClear_castPath P q T h)

theorem hasPath_migrateStep_clear (T : Value) (log : List MigratedKey) (r : MigrationRule)
    (P : List String) (h₁ : pathClear P r.oldKey = true) (h₂ : pathClear P r.newKey = true) :
    hasPath (migrateStep (T, log) r).1 P = hasPath T P := by
  unfold migrateStep
  simp only []
  split
  · split
    · exact hasPath_unset_clear _ _ _ h₁
    · simp only []
      rw [hasPath_unset_clear _ _ _ h₁, hasPath_set_clear _ _ _ _ h₂]
  · rfl

theorem hasPath_migrate_clear (P : List String) : ∀ (M : List MigrationRule)
    (state : Value × List MigratedKey),
    M.all (fun r => pathClear P r.oldKey && pathClear P r.newKey) = true →
    hasPath (M.foldl migrateStep state).1 P = hasPath state.1 P := by
  intro M
  induction M with
  | nil => intro _ _; rfl
  | cons r rest ih =>
    intro state h
    simp only [List.all_cons, Bool.and_eq_true] at h
    rw [List.foldl_cons, ih _ h.2]
    exact hasPath_migrateStep_clear state.1 state.2 r P h.1.1 h.1.2

theorem isObject_of_has (T : Value) (k : String) (h : has T k = true) : T.isObject = true := by
  cases hT : T.isObject with
  | true => rfl
  | false => rw [has_of_not_object T hT] at h; cases h

theorem migrateStep_remove (config : Value) (log : List MigratedKey) (r : MigrationRule)
    (hr : r.remove = true) (hh : has config r.oldKey = true) :
    migrateStep (config, log) r
      = (unset config r.oldKey,
         log ++ [{ oldKey := r.oldKey, newKey := none, oldValue := none,
                   newValue := .undefined }]) := by
  simp [migrateStep, hr, hh]

theorem migrate_log_sublist (T : Value) (M : List MigrationRule) :
    ((migrateKeys T M).2.map (fun record => record.oldKey)).Sublist
      (M.map (fun r => r.oldKey)) := by
  have hlog : (migrateKeys T M).2 = matchedRecords T M := by
    unfold migrateKeys
    rw [migrate_log M T []]
    simp
  rw [hlog]
  exact matchedRecords_sublist M T

/-- C12: for every tree `T` with a value at `cookieSecret`, the old key of the
    remove-only rule of the table, the loop ends by deleting that value and
    nothing else (no write at the new key), so that the result has no value
    at `cookieSecret`; it pushes one record for that old key, with no new key,
    no old value and an undefined new value; the transform of the rule is
    never called (any other transform gives the same result). Each
    remove-only rule that matches does just that, and `T = {cookieSecret:
    "x"}` yields the empty tree and the one record. -/
theorem remove_only_rule (T : Value) (h : has T "cookieSecret" = true) :
    (migrateKeys T keyMigrationMap).1
      = unset (migrateKeys T (keyMigrationMap.take 17)).1 "cookieSecret"
    ∧ has (migrateKeys T keyMigrationMap).1 "cookieSecret" = false
    ∧ (migrateKeys T keyMigrationMap).2
      = (migrateKeys T (keyMigrationMap.take 17)).2
        ++ [{ oldKey := "cookieSecret", newKey := none, oldValue := none,
              newValue := .undefined }]
    ∧ (∀ record ∈ (migrateKeys T (keyMigrationMap.take 17)).2,
        record.oldKey ≠ "cookieSecret")
    ∧ (∀ f : Value → Value,
        migrateKeys T (keyMigrationMap.take 17
          ++ [{ oldKey := "cookieSecret", newKey := "cookieSecret", migrate := f,
                remove := true }])
        = migrateKeys T keyMigrationMap)
    ∧ (∀ (config : Value) (log : List MigratedKey) (r : MigrationRule),
        r.remove = true → has config r.oldKey = true →
        migrateStep (config, log) r
          = (unset config r.oldKey,
             log ++ [{ oldKey := r.oldKey, newKey := none, oldValue := none,
                       newValue := .undefined }]))
    ∧ migrateKeys (.obj false [("cookieSecret", .str "x")]) keyMigrationMap
      = (.obj false [],
         [{ oldKey := "cookieSecret", newKey := none, oldValue := none,
            newValue := .undefined }]) := by
  have hT : T.isObject = true := isObject_of_has T _ h
  have hc : castPath "cookieSecret" T = ["cookieSecret"] := castPath_undotted _ _ (by decide)
  have hsplit : ∀ f : Value → Value,
      migrateKeys T (keyMigrationMap.take 17
        ++ [{ oldKey := "cookieSecret", newKey := "cookieSecret", migrate := f,
              remove := true }])
      = (unset (migrateKeys T (keyMigrationMap.take 17)).1 "cookieSecret",
         (migrateKeys T (keyMigrationMap.take 17)).2
          ++ [{ oldKey := "cookieSecret", newKey := none, oldValue := none,
                newValue := .undefined }]) := by
    intro f
    have hobj : (migrateKeys T (keyMigrationMap.take 17)).1.isObject = true := by
      unfold migrateKeys
      rw [isObject_migrate]
      exact hT
    have hhas : has (migrateKeys T (keyMigrationMap.take 17)).1 "cookieSecret" = true := by
      rw [has_of_isObject _ hobj, castPath_undotted _ _ (by decide)]
      unfold migrateKeys
      rw [hasPath_migrate_clear ["cookieSecret"] _ (T, []) (by decide)]
      rw [has_of_isObject T hT, hc] at h
      exact h
    unfold migrateKeys at hhas ⊢
    rw [List.foldl_append, List.foldl_cons, List.foldl_nil]
    exact migrateStep_remove _ _ _ rfl hhas
  have hfull : migrateKeys T keyMigrationMap
      = (unset (migrateKeys T (keyMigrationMap.take 17)).1 "cookieSecret",
         (migrateKeys T (keyMigrationMap.take 17)).2
          ++ [{ oldKey := "cookieSecret", newKey := none, oldValue := none,
                newValue := .undefined }]) := hsplit (fun _ => .undefined)
  refine ⟨by rw [hfull], ?_, by rw [hfull], ?_, fun f => by rw [hsplit f, hfull],
    migrateStep_remove, rfl⟩
  · rw [hfull]
    exact has_unset_self _ _ (fun hd => absurd hd (by decide))
  · intro record hrec
    have hsub := migrate_log_sublist T (keyMigrationMap.take 17)
    have hmem : record.oldKey ∈ (keyMigrationMap.take 17).map (fun r => r.oldKey) :=
      hsub.subset (List.mem_map_of_mem _ hrec)
    intro e
    rw [e] at hmem
    revert hmem
    decide

theorem remove_only_rule_witness :
    (migrateKeys (.obj false [("cookieSecret", .str "x"), ("minLogLevel", .num 1)])
        keyMigrationMap).1
      = unset (migrateKeys (.obj false [("cookieSecret", .str "x"), ("minLogLevel", .num 1)])
          (keyMigrationMap.take 17)).1 "cookieSecret"
    ∧ has (migrateKeys (.obj false [("cookieSecret", .str "x"), ("minLogLevel", .num 1)])
        keyMigrationMap).1 "cookieSecret" = false :=
  ⟨(remove_only_rule (.obj false [("cookieSecret", .str "x"), ("minLogLevel", .num 1)])
      (by rfl)).1,
   (remove_only_rule (.obj false [("cookieSecret", .str "x"), ("minLogLevel", .num 1)])
      (by rfl)).2.1⟩

/-! ## What `_.set` does to the values on its way -/

theorem isArray_setPath (T v : Value) (p : List String) :
    (setPath T p v).isArray = T.isArray := by
  cases T with
  | obj a fs =>
    cases p with
    | nil => simp [setPath]
    | cons b rest => cases rest <;> cases a <;> simp [setPath, Value.isArray]
  | _ => rw [setPath_of_not_object _ (by rfl)]

/-- Below a non-empty beginning `Q` of its path, `_.set` writes the rest of
    the path into the object the tree has at `Q`, or into a new object when
    the tree has none there. -/
theorem getPath_setPath_beginning : ∀ (Q : List String) (T v : Value) (next : String)
    (rest : List String), T.isObject = true → Q ≠ [] →
    getPath (setPath T (Q ++ next :: rest) v) Q
      = setPath (if (getPath T Q).isObject then getPath T Q else .obj (isIndex next) [])
          (next :: rest) v := by
  intro Q
  induction Q with
  | nil => intro T v next rest _ h; exact absurd rfl h
  | cons k Q ih =>
    intro T v next rest hT _
    cases T with
    | obj a fs =>
      cases Q with
      | nil =>
        rw [List.singleton_append, setPath_obj_cons, getPath_obj_cons, getPath_obj_cons,
          lookup_assignField_self]
        rfl
      | cons k₂ Q =>
        rw [List.cons_append, List.cons_append, setPath_obj_cons, getPath_obj_cons,
          getPath_obj_cons, lookup_assignField_self]
        simp only [Option.getD_some]
        rw [← List.cons_append, ih _ v next rest (isObject_of_intermediate _ _) (by simp),
          getPath_intermediate]
    | _ => simp [Value.isObject] at hT

/-- C14 (as stated, refuted): for `T = {disableThumbnails: true, thumbnails:
    5}` the loop replaces the value `5` at `thumbnails` by the mapping
    `{enabled: false}`. -/
theorem scalar_on_the_way_replaced :
    migrateKeys (.obj false [("disableThumbnails", .bool true), ("thumbnails", .num 5)])
        keyMigrationMap
      = (.obj false [("thumbnails", .obj false [("enabled", .bool false)])],
         [{ oldKey := "disableThumbnails", newKey := some "thumbnails.enabled",
            oldValue := some (.bool true), newValue := .bool false }])
    ∧ get (.obj false [("disableThumbnails", .bool true), ("thumbnails", .num 5)])
        "thumbnails" = .num 5
    ∧ get (migrateKeys (.obj false [("disableThumbnails", .bool true), ("thumbnails", .num 5)])
        keyMigrationMap).1 "thumbnails" ≠ .num 5 := by
  refine ⟨rfl, rfl, ?_⟩
  intro h
  have h' : Value.obj false [("enabled", .bool false)] = .num 5 := h
  cases h'

/-- C14 (amended): writing at a path `Q ++ R` (both parts non-empty) leaves at
    the beginning `Q` an object: the mapping or sequence the tree had at `Q`,
    of the same kind, with `R` written into it; or, where the tree had a
    scalar or nothing at `Q`, a new object that holds only the written value.
    So an intermediate mapping is created where the field is absent and also
    where it holds a scalar, which is replaced; a sequence on the way is kept
    and is written into: `T = {disableThumbnails: true, thumbnails: [1]}`
    keeps the sequence, `T = {disableThumbnails: true, thumbnails: 5}` loses
    the `5`. -/
theorem set_replaces_scalars_on_the_way (T v : Value) (Q : List String) (next : String)
    (rest : List String) (hT : T.isObject = true) (hQ : Q ≠ []) :
    getPath (setPath T (Q ++ next :: rest) v) Q
      = setPath (if (getPath T Q).isObject then getPath T Q else .obj (isIndex next) [])
          (next :: rest) v
    ∧ (getPath (setPath T (Q ++ next :: rest) v) Q).isObject = true
    ∧ ((getPath T Q).isObject = true →
        (getPath (setPath T (Q ++ next :: rest) v) Q).isArray = (getPath T Q).isArray)
    ∧ (migrateKeys (.obj false [("disableThumbnails", .bool true),
          ("thumbnails", .obj true [("0", .num 1)])]) keyMigrationMap).1
      = .obj false [("thumbnails", .obj true [("0", .num 1), ("enabled", .bool false)])]
    ∧ (migrateKeys (.obj false [("disableThumbnails", .bool true), ("thumbnails", .num 5)])
          keyMigrationMap).1
      = .obj false [("thumbnails", .obj false [("enabled", .bool false)])] := by
  have h := getPath_setPath_beginning Q T v next rest hT hQ
  refine ⟨h, ?_, ?_, rfl, rfl⟩
  · rw [h, isObject_setPath]
    exact isObject_of_intermediate _ _
  · intro ho
    rw [h, isArray_setPath, if_pos ho]

theorem set_replaces_scalars_on_the_way_witness :
    getPath (setPath (.obj false [("thumbnails", .num 5)]) (["thumbnails"] ++ "enabled" :: [])
        (.bool false)) ["thumbnails"]
      = setPath (if (getPath (.obj false [("thumbnails", .num 5)]) ["thumbnails"]).isObject
            then getPath (.obj false [("thumbnails", .num 5)]) ["thumbnails"]
            else .obj (isIndex "enabled") [])
          ("enabled" :: []) (.bool false) :=
  (set_replaces_scalars_on_the_way (.obj false [("thumbnails", .num 5)]) (.bool false)
    ["thumbnails"] "enabled" [] (by rfl) (by simp)).1

/-! ## The early return -/

/-- C15 (the code at failing inputs): for `T = {}` and `D = {a: null}` both
    lists are empty and the file is not written, although the merged tree
    `{a: null}` is not `T`; likewise for `T = {list: [1]}` and
    `D = {list: [1, 2]}`, where the merge has extended the list. -/
theorem unreported_change_not_written :
    (addMissingConfigValues (.obj false [("a", .null)]) (.obj false [])).migratedKeys.length = 0
    ∧ (addMissingConfigValues (.obj false [("a", .null)]) (.obj false [])).addedKeys = []
    ∧ (addMissingConfigValues (.obj false [("a", .null)]) (.obj false [])).written = false
    ∧ (addMissingConfigValues (.obj false [("a", .null)]) (.obj false [])).config
        = .obj false [("a", .null)]
    ∧ (addMissingConfigValues (.obj false [("a", .null)]) (.obj false [])).config
        ≠ .obj false []
    ∧ (addMissingConfigValues (.obj false [("list", .obj true [("0", .num 1), ("1", .num 2)])])
        (.obj false [("list", .obj true [("0", .num 1)])])).written = false
    ∧ (addMissingConfigValues (.obj false [("list", .obj true [("0", .num 1), ("1", .num 2)])])
        (.obj false [("list", .obj true [("0", .num 1)])])).config
        = .obj false [("list", .obj true [("0", .num 1), ("1", .num 2)])] := by
  refine ⟨rfl, rfl, rfl, rfl, ?_, rfl, rfl⟩
  intro h
  have h' : Value.obj false [("a", .null)] = .obj false [] := h
  cases h'

/-! ## The shipped table -/

/-- C17 (as stated, refuted): for `T = {"extras.captioningModel": "x",
    extras: {captioningModel: "y"}}` the first run migrates the field named
    like the key; the result still has a value at `extras.captioningModel`,
    and a second run emits a record and changes the tree. -/
theorem shipped_table_migrates_again :
    has (migrateKeys (.obj false [("extras.captioningModel", .str "x"),
        ("extras", .obj false [("captioningModel", .str "y")])]) keyMigrationMap).1
      "extras.captioningModel" = true
    ∧ (migrateKeys (migrateKeys (.obj false [("extras.captioningModel", .str "x"),
        ("extras", .obj false [("captioningModel", .str "y")])]) keyMigrationMap).1
        keyMigrationMap).2.length = 1
    ∧ get (migrateKeys (.obj false [("extras.captioningModel", .str "x"),
        ("extras", .obj false [("captioningModel", .str "y")])]) keyMigrationMap).1
      "extensions.models.captioning" = .str "x"
    ∧ get (migrateKeys (migrateKeys (.obj false [("extras.captioningModel", .str "x"),
        ("extras", .obj false [("captioningModel", .str "y")])]) keyMigrationMap).1
        keyMigrationMap).1 "extensions.models.captioning" = .str "y" := by
  exact ⟨rfl, rfl, rfl, rfl⟩

/-- C17 (amended): for every tree `T` none of whose fields is named like one
    of the dotted old keys of `keyMigrationMap` (`extras.disableAutoDownload`
    and the five others), the tree produced by the loop has no value at the
    old key of any of the 18 rules, and running the loop again on it emits no
    record and leaves it unchanged. -/
theorem shipped_table_idempotent (T : Value) (hl : literalFree T keyMigrationMap = true) :
    keyMigrationMap.length = 18
    ∧ (∀ r ∈ keyMigrationMap, has (migrateKeys T keyMigrationMap).1 r.oldKey = false)
    ∧ migrateKeys (migrateKeys T keyMigrationMap).1 keyMigrationMap
      = ((migrateKeys T keyMigrationMap).1, []) := by
  have hold : ∀ r ∈ keyMigrationMap, has (migrateKeys T keyMigrationMap).1 r.oldKey = false := by
    rw [migrateKeys_eq_planned T keyMigrationMap keyMigrationMap_pathDisjoint]
    exact planned_has_old T keyMigrationMap T keyMigrationMap_pathDisjoint hl (fun _ _ => rfl)
  exact ⟨rfl, hold, migrate_noop keyMigrationMap _ [] hold⟩

theorem shipped_table_idempotent_witness :
    keyMigrationMap.length = 18
    ∧ (∀ r ∈ keyMigrationMap,
        has (migrateKeys (.obj false [("disableThumbnails", .bool true),
          ("extras", .obj false [("captioningModel", .str "y")]),
          ("cookieSecret", .str "s")]) keyMigrationMap).1 r.oldKey = false)
    ∧ migrateKeys (migrateKeys (.obj false [("disableThumbnails", .bool true),
          ("extras", .obj false [("captioningModel", .str "y")]),
          ("cookieSecret", .str "s")]) keyMigrationMap).1 keyMigrationMap
      = ((migrateKeys (.obj false [("disableThumbnails", .bool true),
          ("extras", .obj false [("captioningModel", .str "y")]),
          ("cookieSecret", .str "s")]) keyMigrationMap).1, []) :=
  shipped_table_idempotent _ (by decide)

/-! ## The frame of the migration pass -/

theorem pathClear_single (f key : String)
    (h₁ : (stringToPath key).head? ≠ some f) (h₂ : key ≠ f) : pathClear [f] key = true := by
  simp only [pathClear, Bool.and_eq_true]
  constructor
  · cases hp : stringToPath key with
    | nil => exact absurd hp (stringToPath_ne_nil key)
    | cons s rest =>
      rw [hp] at h₁
      have : f ≠ s := fun e => h₁ (by simp [e])
      simp [diverge, this]
  · simp [diverge, Ne.symm h₂]

theorem prop_eq_getPath (T : Value) (f : String) : prop T f = getPath T [f] := by
  cases T <;> simp [getPath, Value.isNullish, prop]

/-- C18 (as stated, refuted): in `T = {"thumbnails.enabled": 1,
    disableThumbnails: true}` the field `thumbnails.enabled` is the first
    segment of no key, yet the loop replaces its value `1` by `false`. -/
theorem field_named_like_key_changed :
    keyMigrationMap.all (fun r =>
        (stringToPath r.oldKey).head? != some "thumbnails.enabled"
        && (stringToPath r.newKey).head? != some "thumbnails.enabled") = true
    ∧ prop (.obj false [("thumbnails.enabled", .num 1), ("disableThumbnails", .bool true)])
        "thumbnails.enabled" = .num 1
    ∧ (migrateKeys (.obj false [("thumbnails.enabled", .num 1),
        ("disableThumbnails", .bool true)]) keyMigrationMap).1
      = .obj false [("thumbnails.enabled", .bool false)]
    ∧ prop (migrateKeys (.obj false [("thumbnails.enabled", .num 1),
        ("disableThumbnails", .bool true)]) keyMigrationMap).1 "thumbnails.enabled"
      = .bool false := by
  exact ⟨by decide, rfl, rfl, rfl⟩

/-- On trees: for every tree `T` and every field name `f` that is not
    the first segment of any old key or new key of `keyMigrationMap` and is
    not itself one of these keys, the tree produced by the loop has at `f`
    exactly the value `T` had at `f`, and has no field `f` if `T` had none. -/
theorem migration_frame_top_level (T : Value) (f : String)
    (h : keyMigrationMap.all (fun r =>
        (stringToPath r.oldKey).head? != some f && (stringToPath r.newKey).head? != some f
        && r.oldKey != f && r.newKey != f) = true) :
    prop (migrateKeys T keyMigrationMap).1 f = prop T f
    ∧ hasOwn (migrateKeys T keyMigrationMap).1 f = hasOwn T f := by
  have hclear : keyMigrationMap.all
      (fun r => pathClear [f] r.oldKey && pathClear [f] r.newKey) = true := by
    rw [List.all_eq_true] at h ⊢
    intro r hr
    have := h r hr
    simp only [Bool.and_eq_true, bne_iff_ne, ne_eq] at this
    simp only [Bool.and_eq_true]
    exact ⟨pathClear_single f _ this.1.1.1 this.1.2, pathClear_single f _ this.1.1.2 this.2⟩
  constructor
  · rw [prop_eq_getPath, prop_eq_getPath]
    exact getPath_migrate_clear [f] keyMigrationMap (T, []) hclear
  · exact hasPath_migrate_clear [f] keyMigrationMap (T, []) hclear

/-! ## `getAllKeys` names the leaf paths -/

theorem getAllKeys_eq_leafPaths :
    (∀ v : Value, ∀ pre : String, getAllKeys v pre = (leafPaths v).map (joinFrom pre)) ∧
    (∀ fs : Fields, ∀ pre : String,
      getAllKeysFields fs pre = (leafPathsFields fs).map (joinFrom pre)) := by
  apply value_induction
  case ho =>
    intro a fs ih pre
    cases a with
    | false => simpa [getAllKeys, leafPaths] using ih pre
    | true => simp [getAllKeys, leafPaths]
  case hnil => intro pre; simp [getAllKeysFields, leafPathsFields]
  case hcons =>
    intro k v fs hv hfs pre
    simp only [getAllKeysFields, leafPathsFields, List.map_append, hfs pre]
    congr 1
    split
    · rw [hv, List.map_map]
      rfl
    · rfl
  all_goals
    intros
    simp [getAllKeys, leafPaths]

/-! ## Splitting a joined name -/

theorem splitChars_append_dot (a b : List Char) (h : '.' ∉ a) :
    splitChars (a ++ '.' :: b) = a :: splitChars b := by
  induction a with
  | nil => simp [splitChars]
  | cons c a ih =>
    have hc : c ≠ '.' := fun e => h (by simp [e])
    have ha : '.' ∉ a := fun e => h (by simp [e])
    simp [splitChars, hc, ih ha]

theorem joinFrom_data : ∀ (s : List String) (pre : String), pre ≠ "" →
    (joinFrom pre s).data = pre.data ++ (s.map (fun x => '.' :: x.data)).flatten := by
  intro s
  induction s with
  | nil => intro pre _; simp [joinFrom]
  | cons k s ih =>
    intro pre hpre
    have hne : joinKey pre k ≠ "" := by
      simp only [joinKey, hpre, ne_eq, not_false_eq_true, if_true]
      intro e
      have := congrArg String.data e
      simp at this
    rw [joinFrom, ih _ hne]
    simp [joinKey, hpre]

theorem splitChars_joined : ∀ (s : List String) (a : List Char), '.' ∉ a →
    (∀ x ∈ s, dotted x = false) →
    splitChars (a ++ (s.map (fun x => '.' :: x.data)).flatten) = a :: s.map String.data := by
  intro s
  induction s with
  | nil => intro a ha _; simpa using splitChars_undotted a ha
  | cons k s ih =>
    intro a ha hs
    have hk : '.' ∉ k.data := by
      have := hs k (by simp)
      simpa [dotted] using this
    simp only [List.map_cons, List.flatten_cons, List.cons_append]
    rw [splitChars_append_dot a _ ha, ih k.data hk (fun x hx => hs x (by simp [hx]))]

/-- Splitting the name of a path of plain segments gives the path back. -/
theorem stringToPath_joinFrom (k : String) (s : List String) (hk : k ≠ "")
    (hs : ∀ x ∈ k :: s, dotted x = false) :
    stringToPath (joinFrom "" (k :: s)) = k :: s := by
  have hk' : '.' ∉ k.data := by
    have := hs k (by simp)
    simpa [dotted] using this
  have hj : joinFrom "" (k :: s) = joinFrom k s := by simp [joinFrom, joinKey]
  rw [hj]
  unfold stringToPath
  rw [joinFrom_data s k hk, splitChars_joined s k.data hk' (fun x hx => hs x (by simp [hx]))]
  simp only [List.map_cons, List.map_map]
  congr 1
  exact List.map_id'' (fun x => rfl) s

/-! ## Well-formed trees: lemmas -/

theorem mem_of_lookup (k : String) (v : Value) (fs : Fields) (h : lookup k fs = some v) :
    (k, v) ∈ fs := by
  induction fs with
  | nil => simp [lookup] at h
  | cons f fs ih =>
    obtain ⟨k₁, v₁⟩ := f
    by_cases hk : k₁ = k
    · simp only [lookup, hk, if_true, Option.some.injEq] at h
      simp [hk, h]
    · simp only [lookup, hk, if_false] at h
      exact List.mem_cons_of_mem _ (ih h)

theorem wfFields_iff (fs : Fields) :
    wfFields fs = true ↔
      (keys fs).Nodup ∧ ∀ k v, lookup k fs = some v → v.wf = true := by
  induction fs with
  | nil => simp [wfFields, keys, lookup]
  | cons f fs ih =>
    obtain ⟨k₁, v₁⟩ := f
    simp only [wfFields, Bool.and_eq_true, Option.isNone_iff_eq_none, ih, keys, List.map_cons,
      List.nodup_cons]
    have hkeys : lookup k₁ fs = none ↔ k₁ ∉ List.map Prod.fst fs := lookup_eq_none_iff k₁ fs
    constructor
    · rintro ⟨⟨h₁, h₂⟩, h₃, h₄⟩
      refine ⟨⟨hkeys.mp h₁, h₃⟩, ?_⟩
      intro k v hl
      by_cases hk : k₁ = k
      · simp only [lookup, hk, if_true, Option.some.injEq] at hl
        rw [← hl]; exact h₂
      · simp only [lookup, hk, if_false] at hl
        exact h₄ k v hl
    · rintro ⟨⟨h₁, h₂⟩, h₃⟩
      refine ⟨⟨hkeys.mpr h₁, h₃ k₁ v₁ (by simp [lookup])⟩, h₂, ?_⟩
      intro k v hl
      apply h₃ k v
      have hk : k₁ ≠ k := by
        intro e
        have hn := hkeys.mpr h₁
        rw [e] at hn
        rw [hn] at hl
        cases hl
      simp [lookup, hk, hl]

theorem lookup_of_mem (fs : Fields) (hnd : (keys fs).Nodup) (k : String) (v : Value)
    (h : (k, v) ∈ fs) : lookup k fs = some v := by
  induction fs with
  | nil => cases h
  | cons f fs ih =>
    obtain ⟨k₁, v₁⟩ := f
    simp only [keys, List.map_cons, List.nodup_cons] at hnd
    rcases List.mem_cons.mp h with e | h'
    · cases e
      simp [lookup]
    · have hk : k₁ ≠ k := by
        intro e
        apply hnd.1
        rw [e]
        exact List.mem_map_of_mem Prod.fst h'
      simp only [lookup, hk, if_false]
      exact ih hnd.2 h'

theorem insertIndexed_perm (i : Nat) (k : String) (v : Value) (fs : Fields) :
    (insertIndexed i k v fs).Perm ((k, v) :: fs) := by
  induction fs with
  | nil => simp [insertIndexed]
  | cons f fs ih =>
    obtain ⟨k₁, v₁⟩ := f
    unfold insertIndexed
    split
    · split
      · exact (List.Perm.cons _ ih).trans (List.Perm.swap _ _ _)
      · exact List.Perm.refl _
    · exact List.Perm.refl _

theorem insertField_perm (k : String) (v : Value) (fs : Fields) :
    (insertField k v fs).Perm ((k, v) :: fs) := by
  unfold insertField
  split
  · exact List.perm_append_singleton _ _
  · exact insertIndexed_perm _ _ _ _

theorem wf_insertField (k : String) (v : Value) (fs : Fields) (hfs : wfFields fs = true)
    (hk : lookup k fs = none) (hv : v.wf = true) : wfFields (insertField k v fs) = true := by
  rw [wfFields_iff] at hfs ⊢
  constructor
  · have hp : (keys (insertField k v fs)).Perm (k :: keys fs) :=
      (insertField_perm k v fs).map Prod.fst
    rw [hp.nodup_iff, List.nodup_cons]
    exact ⟨(lookup_eq_none_iff k fs).mp hk, hfs.1⟩
  · intro k' v' hl
    by_cases e : k' = k
    · subst e
      rw [lookup_insertField_self _ _ _ hk] at hl
      cases hl
      exact hv
    · rw [lookup_insertField_ne _ _ _ _ e] at hl
      exact hfs.2 k' v' hl

theorem wf_replaceField (k : String) (v : Value) (fs : Fields) (hfs : wfFields fs = true)
    (hv : v.wf = true) : wfFields (replaceField k v fs) = true := by
  rw [wfFields_iff] at hfs ⊢
  constructor
  · rw [keys_replaceField]
    exact hfs.1
  · intro k' v' hl
    rw [lookup_replaceField] at hl
    by_cases e : k' = k
    · simp only [e, if_true] at hl
      cases hc : lookup k fs with
      | none => simp [hc] at hl
      | some c =>
        simp only [hc, Option.map_some', Option.some.injEq] at hl
        rw [← hl]; exact hv
    · simp only [e, if_false] at hl
      exact hfs.2 k' v' hl

theorem wf_merge :
    (∀ sv : Value, sv.wf = true → ∀ (t : Fields) (k : String), wfFields t = true →
      wfFields (mergeKey t k sv) = true) ∧
    (∀ sfs : Fields, wfFields sfs = true → ∀ t : Fields, wfFields t = true →
      wfFields (baseMerge t sfs) = true) := by
  apply value_induction
  case ho =>
    intro b sfs ih hsv t k ht
    rw [mergeKey_eq]
    cases hl : lookup k t with
    | none => exact wf_insertField _ _ _ ht hl hsv
    | some c =>
      cases c with
      | undefined => exact wf_replaceField _ _ _ ht hsv
      | obj a cfs =>
        simp only []
        apply wf_replaceField _ _ _ ht
        have hc : wfFields cfs = true := by
          have := wf_of_lookup t k _ ht hl
          simpa [Value.wf] using this
        simpa [Value.wf] using ih (by simpa [Value.wf] using hsv) cfs hc
      | _ => exact ht
  case hnil => intro _ t ht; exact ht
  case hcons =>
    intro k v fs hv hfs hwf t ht
    simp only [wfFields, Bool.and_eq_true] at hwf
    rw [baseMerge]
    exact hfs hwf.2 _ (hv hwf.1.2 t k ht)
  all_goals
    intros
    rename_i hsv t k ht
    rw [mergeKey_eq]
    cases hl : lookup k t with
    | none => exact wf_insertField _ _ _ ht hl hsv
    | some c =>
      cases c with
      | undefined => exact wf_replaceField _ _ _ ht hsv
      | _ => exact ht

/-! ## Leaf paths of well-formed trees -/

theorem leafPathsFields_cons (k : String) (v : Value) (rest : Fields) :
    leafPathsFields ((k, v) :: rest)
      = (if v.typeofObject && !v.isArray then (leafPaths v).map (fun s => k :: s) else [[k]])
        ++ leafPathsFields rest := by
  simp [leafPathsFields]

theorem mem_leafPathsFields (fs : Fields) (s : List String) :
    s ∈ leafPathsFields fs ↔
      ∃ k rest v, s = k :: rest ∧ (k, v) ∈ fs ∧ leafBelow v rest := by
  induction fs with
  | nil => simp [leafPathsFields]
  | cons f fs ih =>
    obtain ⟨k₁, v₁⟩ := f
    rw [leafPathsFields_cons, List.mem_append, ih]
    constructor
    · rintro (h | ⟨k, rest, v, e, hm, hb⟩)
      · cases hc : (v₁.typeofObject && !v₁.isArray) with
        | true =>
          simp only [hc, if_true, List.mem_map] at h
          obtain ⟨rest, hr, e⟩ := h
          exact ⟨k₁, rest, v₁, e.symm, List.mem_cons_self _ _, Or.inl ⟨hc, hr⟩⟩
        | false =>
          simp only [hc, Bool.false_eq_true, if_false, List.mem_singleton] at h
          exact ⟨k₁, [], v₁, h, List.mem_cons_self _ _, Or.inr ⟨hc, rfl⟩⟩
      · exact ⟨k, rest, v, e, List.mem_cons_of_mem _ hm, hb⟩
    · rintro ⟨k, rest, v, e, hm, hb⟩
      rcases List.mem_cons.mp hm with e' | hm'
      · cases e'
        left
        rcases hb with ⟨hc, hr⟩ | ⟨hc, hr⟩
        · simp only [hc, if_true, List.mem_map]
          exact ⟨rest, hr, e.symm⟩
        · simp only [hc, Bool.false_eq_true, if_false, List.mem_singleton]
          rw [e, hr]
      · exact Or.inr ⟨k, rest, v, e, hm', hb⟩

theorem mem_leafPathsFields_lookup (fs : Fields) (hwf : wfFields fs = true) (k : String)
    (rest : List String) :
    (k :: rest) ∈ leafPathsFields fs ↔ ∃ v, lookup k fs = some v ∧ leafBelow v rest := by
  rw [mem_leafPathsFields]
  constructor
  · rintro ⟨k', rest', v, e, hm, hb⟩
    cases e
    exact ⟨v, lookup_of_mem fs ((wfFields_iff fs).mp hwf).1 k v hm, hb⟩
  · rintro ⟨v, hl, hb⟩
    exact ⟨k, rest, v, rfl, mem_of_lookup k v fs hl, hb⟩

theorem leafPaths_plain :
    (∀ v : Value, plainNames v = true → ∀ s ∈ leafPaths v,
      ∀ x ∈ s, x ≠ "" ∧ dotted x = false) ∧
    (∀ fs : Fields, plainNamesFields fs = true → ∀ s ∈ leafPathsFields fs,
      s ≠ [] ∧ ∀ x ∈ s, x ≠ "" ∧ dotted x = false) := by
  apply value_induction
  case ho =>
    intro a fs ih hp s hs
    cases a with
    | false => exact (ih (by simpa [plainNames] using hp) s (by simpa [leafPaths] using hs)).2
    | true => simp [leafPaths] at hs
  case hnil => intro _ s hs; simp [leafPathsFields] at hs
  case hcons =>
    intro k v fs hv hfs hp s hs
    simp only [plainNamesFields, Bool.and_eq_true, bne_iff_ne, ne_eq, Bool.not_eq_true'] at hp
    rw [leafPathsFields_cons, List.mem_append] at hs
    rcases hs with hs | hs
    · cases hc : (v.typeofObject && !v.isArray) with
      | true =>
        simp only [hc, if_true, List.mem_map] at hs
        obtain ⟨rest, hr, e⟩ := hs
        subst e
        refine ⟨by simp, ?_⟩
        intro x hx
        rcases List.mem_cons.mp hx with e | hx'
        · rw [e]; exact ⟨hp.1.1.1, hp.1.1.2⟩
        · exact hv hp.1.2 rest hr x hx'
      | false =>
        simp only [hc, Bool.false_eq_true, if_false, List.mem_singleton] at hs
        subst hs
        refine ⟨by simp, ?_⟩
        intro x hx
        simp only [List.mem_singleton] at hx
        rw [hx]; exact ⟨hp.1.1.1, hp.1.1.2⟩
    · exact hfs hp.2 s hs
  all_goals
    first
      | (intro _ s hs; simp [leafPaths] at hs)
      | (intro _ _ s hs; simp [leafPaths] at hs)

theorem leafPaths_nodup :
    (∀ v : Value, v.wf = true → (leafPaths v).Nodup) ∧
    (∀ fs : Fields, wfFields fs = true → (leafPathsFields fs).Nodup) := by
  apply value_induction
  case ho =>
    intro a fs ih hwf
    cases a with
    | false => simpa [leafPaths] using ih (by simpa [Value.wf] using hwf)
    | true => simp [leafPaths]
  case hnil => intro _; simp [leafPathsFields]
  case hcons =>
    intro k v fs hv hfs hwf
    simp only [wfFields, Bool.and_eq_true, Option.isNone_iff_eq_none] at hwf
    rw [leafPathsFields_cons, List.nodup_append]
    refine ⟨?_, hfs hwf.2, ?_⟩
    · split
      · exact (hv hwf.1.2).map (fun a b e => by simpa using e)
      · simp
    · intro s hs₁ hs₂
      have hhead : ∃ rest, s = k :: rest := by
        cases hc : (v.typeofObject && !v.isArray) with
        | true =>
          simp only [hc, if_true, List.mem_map] at hs₁
          obtain ⟨rest, _, e⟩ := hs₁
          exact ⟨rest, e.symm⟩
        | false =>
          simp only [hc, Bool.false_eq_true, if_false, List.mem_singleton] at hs₁
          exact ⟨[], hs₁⟩
      obtain ⟨rest, e⟩ := hhead
      rw [mem_leafPathsFields] at hs₂
      obtain ⟨k', rest', v', e', hm, _⟩ := hs₂
      rw [e] at e'
      cases e'
      have := (lookup_eq_none_iff k fs).mp hwf.1.1
      exact this (List.mem_map_of_mem Prod.fst hm)
  all_goals
    intros
    simp [leafPaths]

/-! ## The leaves of the merged tree -/

theorem kindsAgree_lookup (d : Fields) : ∀ (t : Fields) (k : String) (dv : Value),
    kindsAgree t d = true → lookup k d = some dv → kindsAgreeAt t k dv = true := by
  induction d with
  | nil => intro t k dv _ h; simp [lookup] at h
  | cons f d ih =>
    obtain ⟨k₁, v₁⟩ := f
    intro t k dv hk hl
    simp only [kindsAgree, Bool.and_eq_true] at hk
    by_cases e : k₁ = k
    · simp only [lookup, e, if_true, Option.some.injEq] at hl
      rw [← hl, ← e]; exact hk.1
    · simp only [lookup, e, if_false] at hl
      exact ih t k dv hk.2 hl

theorem leafBelow_obj_false (fs : Fields) (rest : List String) :
    leafBelow (.obj false fs) rest ↔ rest ∈ leafPathsFields fs := by
  simp [leafBelow, Value.typeofObject, Value.isArray, leafPaths]

theorem leafBelow_obj_true (fs : Fields) (rest : List String) :
    leafBelow (.obj true fs) rest ↔ rest = [] := by
  simp [leafBelow, Value.typeofObject, Value.isArray]

/-- Every leaf path of the merged tree is a leaf path of the user tree, or a
    leaf path of the defaults at which the merged tree has the default's
    value. -/
theorem leafPaths_baseMerge : ∀ (s : List String) (t d : Fields),
    wfFields t = true → wfFields d = true → kindsAgree t d = true →
    s ∈ leafPathsFields (baseMerge t d) →
    s ∈ leafPathsFields t ∨
      (s ∈ leafPathsFields d
        ∧ getPath (.obj false (baseMerge t d)) s = getPath (.obj false d) s) := by
  intro s
  induction s with
  | nil =>
    intro t d _ _ _ h
    rw [mem_leafPathsFields] at h
    obtain ⟨_, _, _, e, _, _⟩ := h
    cases e
  | cons k rest ih =>
    intro t d ht hd hk h
    have hm : wfFields (baseMerge t d) = true := wf_merge.2 d hd t ht
    rw [mem_leafPathsFields_lookup _ hm] at h
    obtain ⟨mv, hl, hb⟩ := h
    rw [mem_leafPathsFields_lookup _ ht, mem_leafPathsFields_lookup _ hd,
      getPath_obj_cons, getPath_obj_cons, hl]
    simp only [Option.getD_some]
    cases hdv : lookup k d with
    | none =>
      rw [lookup_baseMerge_absent d t k hdv] at hl
      exact Or.inl ⟨mv, hl, hb⟩
    | some dv =>
      rw [lookup_baseMerge_present d t k dv hd hdv, Option.some.injEq] at hl
      have hagree := kindsAgree_lookup d t k dv hk hdv
      simp only [Option.getD_some]
      cases htv : lookup k t with
      | none =>
        rw [htv] at hl
        simp only [mergedAt] at hl
        subst hl
        exact Or.inr ⟨⟨_, rfl, hb⟩, rfl⟩
      | some c =>
        rw [htv] at hl
        cases c with
        | undefined =>
          simp only [mergedAt] at hl
          subst hl
          exact Or.inr ⟨⟨_, rfl, hb⟩, rfl⟩
        | obj a cfs =>
          have hc : wfFields cfs = true := by
            have := wf_of_lookup t k _ ht htv
            simpa [Value.wf] using this
          cases dv with
          | obj b sfs =>
            have hs : wfFields sfs = true := by
              have := wf_of_lookup d k _ hd hdv
              simpa [Value.wf] using this
            simp only [mergedAt] at hl
            subst hl
            cases a with
            | true =>
              rw [leafBelow_obj_true] at hb
              left
              exact ⟨_, rfl, (leafBelow_obj_true cfs rest).mpr hb⟩
            | false =>
              rw [leafBelow_obj_false] at hb
              cases b with
              | true => simp [kindsAgreeAt, htv] at hagree
              | false =>
                have hagree' : kindsAgree cfs sfs = true := by
                  simpa [kindsAgreeAt, htv] using hagree
                rcases ih cfs sfs hc hs hagree' hb with h₁ | ⟨h₁, h₂⟩
                · left
                  exact ⟨_, rfl, (leafBelow_obj_false cfs rest).mpr h₁⟩
                · right
                  exact ⟨⟨_, rfl, (leafBelow_obj_false sfs rest).mpr h₁⟩, h₂⟩
          | _ =>
            simp only [mergedAt] at hl
            subst hl
            exact Or.inl ⟨_, rfl, hb⟩
        | _ =>
          simp only [mergedAt] at hl
          subst hl
          exact Or.inl ⟨_, rfl, hb⟩

/-! ## The addition report -/

theorem plainNamesFields_mem (fs : Fields) (hp : plainNamesFields fs = true) (k : String)
    (v : Value) (h : (k, v) ∈ fs) : k ≠ "" ∧ dotted k = false := by
  induction fs with
  | nil => cases h
  | cons f fs ih =>
    obtain ⟨k₁, v₁⟩ := f
    simp only [plainNamesFields, Bool.and_eq_true, bne_iff_ne, ne_eq, Bool.not_eq_true'] at hp
    rcases List.mem_cons.mp h with e | h'
    · cases e
      exact ⟨hp.1.1.1, hp.1.1.2⟩
    · exact ih hp.2 h'

theorem hasOwn_of_plainNames (a : Bool) (fs : Fields) (hp : plainNamesFields fs = true)
    (key : String) (hd : dotted key = true) : hasOwn (.obj a fs) key = false := by
  cases hl : lookup key fs with
  | none => simp [hasOwn, hl]
  | some v =>
    have := (plainNamesFields_mem fs hp key v (mem_of_lookup key v fs hl)).2
    rw [this] at hd
    cases hd

theorem hasOwn_baseMerge_plain (a : Bool) (t d : Fields) (ht : plainNamesFields t = true)
    (hd : plainNamesFields d = true) (key : String) (hk : dotted key = true) :
    hasOwn (.obj a (baseMerge t d)) key = false := by
  cases hl : lookup key d with
  | none =>
    have := hasOwn_of_plainNames a t ht key hk
    simpa [hasOwn, lookup_baseMerge_absent d t key hl] using this
  | some v =>
    have := (plainNamesFields_mem d hd key v (mem_of_lookup key v d hl)).2
    rw [this] at hk
    cases hk

/-- The name of a path of plain segments is resolved to that path on a tree
    without dotted field names. -/
theorem castPath_joinFrom (X : Value) (k : String) (s : List String) (hk : k ≠ "")
    (hs : ∀ x ∈ k :: s, dotted x = false)
    (hX : dotted (joinFrom "" (k :: s)) = true → hasOwn X (joinFrom "" (k :: s)) = false) :
    castPath (joinFrom "" (k :: s)) X = k :: s := by
  have hsplit := stringToPath_joinFrom k s hk hs
  cases hd : dotted (joinFrom "" (k :: s)) with
  | false =>
    rw [castPath_undotted _ _ hd]
    rw [stringToPath_undotted _ hd] at hsplit
    exact hsplit
  | true =>
    rcases castPath_cases (joinFrom "" (k :: s)) X with h | ⟨h, _, _⟩
    · have hkey : isKey (joinFrom "" (k :: s)) X = false := by
        unfold isKey
        have hd' : (joinFrom "" (k :: s)).data.contains '.' = true := hd
        rw [hd', hX hd]
        rfl
      unfold castPath
      rw [hkey]
      exact hsplit
    · rw [h]; exact hsplit

theorem joinFrom_injective (s₁ s₂ : List String)
    (h₁ : s₁ ≠ [] ∧ ∀ x ∈ s₁, x ≠ "" ∧ dotted x = false)
    (h₂ : s₂ ≠ [] ∧ ∀ x ∈ s₂, x ≠ "" ∧ dotted x = false)
    (e : joinFrom "" s₁ = joinFrom "" s₂) : s₁ = s₂ := by
  cases s₁ with
  | nil => exact absurd rfl h₁.1
  | cons k₁ r₁ =>
    cases s₂ with
    | nil => exact absurd rfl h₂.1
    | cons k₂ r₂ =>
      have e₁ := stringToPath_joinFrom k₁ r₁ (h₁.2 k₁ (by simp)).1 (fun x hx => (h₁.2 x hx).2)
      have e₂ := stringToPath_joinFrom k₂ r₂ (h₂.2 k₂ (by simp)).1 (fun x hx => (h₂.2 x hx).2)
      rw [← e₁, ← e₂, e]

/-- C16 (as stated, refuted): for `T = {}` and `D = {"a.b": 1, a: {b: 2}}`
    the additions list is `["a.b", "a.b"]`, with a duplicate; for
    `T = {a: {x: 1}}` and `D = {a: [5]}` it is `["a.0"]`, which is no leaf
    path of `D`; for `T = {"a.b": {c: 1}}` and `D = {a: {b: 2}}` it is
    `["a.b"]`, where the merged tree has `{c: 1}` and `D` has `2`. -/
theorem additions_report_unsound :
    (reconcile (.obj false [])
        (.obj false [("a.b", .num 1), ("a", .obj false [("b", .num 2)])])).2 = ["a.b", "a.b"]
    ∧ ¬ (reconcile (.obj false [])
        (.obj false [("a.b", .num 1), ("a", .obj false [("b", .num 2)])])).2.Nodup
    ∧ (reconcile (.obj false [("a", .obj false [("x", .num 1)])])
        (.obj false [("a", .obj true [("0", .num 5)])])).2 = ["a.0"]
    ∧ "a.0" ∉ getAllKeys (.obj false [("a", .obj true [("0", .num 5)])]) ""
    ∧ (reconcile (.obj false [("a.b", .obj false [("c", .num 1)])])
        (.obj false [("a", .obj false [("b", .num 2)])])).2 = ["a.b"]
    ∧ get (reconcile (.obj false [("a.b", .obj false [("c", .num 1)])])
        (.obj false [("a", .obj false [("b", .num 2)])])).1 "a.b" = .obj false [("c", .num 1)]
    ∧ get (.obj false [("a", .obj false [("b", .num 2)])]) "a.b" = .num 2 := by
  refine ⟨by decide, by decide, by decide, by decide, by decide, rfl, rfl⟩

/-- On trees: for a user tree `T` and a defaults tree `D` whose
    mappings have distinct field names that are not empty and contain no dot,
    and where no mapping of `T` faces a sequence of `D`: every path `P` of the
    additions list is a leaf path of `D` and no leaf path of `T`, the merged
    tree has at `P` the value `D` has at `P`, and the additions list has no
    duplicates. -/
theorem additions_sound_plain (t d : Fields)
    (hwt : wfFields t = true) (hwd : wfFields d = true)
    (hpt : plainNamesFields t = true) (hpd : plainNamesFields d = true)
    (hk : kindsAgree t d = true) :
    (∀ P ∈ (reconcile (.obj false t) (.obj false d)).2,
      P ∈ getAllKeys (.obj false d) "" ∧ P ∉ getAllKeys (.obj false t) ""
        ∧ get (reconcile (.obj false t) (.obj false d)).1 P = get (.obj false d) P)
    ∧ (reconcile (.obj false t) (.obj false d)).2.Nodup := by
  have hG : ∀ fs : Fields, getAllKeys (.obj false fs) ""
      = (leafPathsFields fs).map (joinFrom "") := by
    intro fs
    rw [getAllKeys_eq_leafPaths.1]
    rfl
  have hplain : ∀ s ∈ leafPathsFields (baseMerge t d),
      s ≠ [] ∧ ∀ x ∈ s, x ≠ "" ∧ dotted x = false := by
    intro s hs
    rcases leafPaths_baseMerge s t d hwt hwd hk hs with h | ⟨h, _⟩
    · exact leafPaths_plain.2 t hpt s h
    · exact leafPaths_plain.2 d hpd s h
  have hrec : reconcile (.obj false t) (.obj false d)
      = (.obj false (baseMerge t d),
         ((leafPathsFields (baseMerge t d)).map (joinFrom "")).filter
           (fun x => !((leafPathsFields t).map (joinFrom "")).contains x)) := by
    simp only [reconcile, defaultsDeep, difference, hG]
  rw [hrec]
  constructor
  · intro P hP
    rw [List.mem_filter] at hP
    obtain ⟨hin, hnot⟩ := hP
    obtain ⟨s, hs, rfl⟩ := List.mem_map.mp hin
    have hnot₁ : joinFrom "" s ∉ (leafPathsFields t).map (joinFrom "") := by
      simpa using hnot
    rcases leafPaths_baseMerge s t d hwt hwd hk hs with h | ⟨h, hval⟩
    · exact absurd (List.mem_map_of_mem _ h) hnot₁
    · refine ⟨by rw [hG]; exact List.mem_map_of_mem _ h, by rw [hG]; exact hnot₁, ?_⟩
      obtain ⟨hne, hseg⟩ := leafPaths_plain.2 d hpd s h
      cases s with
      | nil => exact absurd rfl hne
      | cons k rest =>
        have hk₁ := (hseg k (by simp)).1
        have hk₂ : ∀ x ∈ k :: rest, dotted x = false := fun x hx => (hseg x hx).2
        rw [get_obj, get_obj,
          castPath_joinFrom _ k rest hk₁ hk₂
            (fun hd => hasOwn_baseMerge_plain false t d hpt hpd _ hd),
          castPath_joinFrom _ k rest hk₁ hk₂ (fun hd => hasOwn_of_plainNames false d hpd _ hd)]
        exact hval
  · apply List.Nodup.filter
    apply List.Nodup.map_on
    · intro x hx y hy e
      exact joinFrom_injective x y (hplain x hx) (hplain y hy) e
    · exact leafPaths_nodup.2 _ (wf_merge.2 d hwd t hwt)

/-! ## Configurations without shared objects are trees -/

theorem node_induction {P : Node → Prop} {Q : List (String × Node) → Prop}
    (hu : P .undefined) (hn : P .null) (hb : ∀ b, P (.bool b)) (hi : ∀ n, P (.num n))
    (hs : ∀ s, P (.str s)) (ho : ∀ l a fs, Q fs → P (.obj l a fs))
    (hnil : Q []) (hcons : ∀ k v fs, P v → Q fs → Q ((k, v) :: fs)) :
    (∀ v, P v) ∧ (∀ fs, Q fs) := by
  have key : ∀ v, P v := by
    intro v
    exact Node.rec (motive_1 := P) (motive_2 := Q) (motive_3 := fun f => P f.2)
      hu hn hb hi hs ho hnil (fun f fs hf hfs => hcons f.1 f.2 fs hf hfs) (fun k v hv => hv) v
  refine ⟨key, ?_⟩
  intro fs
  induction fs with
  | nil => exact hnil
  | cons f fs ih => exact hcons f.1 f.2 fs (key f.2) ih

theorem erase_unshared :
    (∀ v : Value, v.unshared.erase = v) ∧ (∀ fs : Fields, eraseFields (unsharedFields fs) = fs) := by
  apply value_induction
  case ho => intro a fs h; simp [Value.unshared, Node.erase, h]
  case hnil => simp [unsharedFields, eraseFields]
  case hcons => intro k v fs hv hfs; simp [unsharedFields, eraseFields, hv, hfs]
  all_goals intros; simp [Value.unshared, Node.erase]

theorem unshared_erase :
    (∀ v : Node, v.anchorFree = true → v.erase.unshared = v) ∧
    (∀ fs : List (String × Node), anchorFreeFields fs = true →
      unsharedFields (eraseFields fs) = fs) := by
  apply node_induction
  case ho =>
    intro l a fs h hf
    simp only [Node.anchorFree, Bool.and_eq_true, Option.isNone_iff_eq_none] at hf
    simp [Node.erase, Value.unshared, h hf.2, hf.1]
  case hnil => intro _; simp [unsharedFields, eraseFields]
  case hcons =>
    intro k v fs hv hfs hf
    simp only [anchorFreeFields, Bool.and_eq_true] at hf
    simp [unsharedFields, eraseFields, hv hf.1, hfs hf.2]
  all_goals intros; simp [Value.unshared, Node.erase]

theorem anchorFree_unshared :
    (∀ v : Value, v.unshared.anchorFree = true) ∧
    (∀ fs : Fields, anchorFreeFields (unsharedFields fs) = true) := by
  apply value_induction
  case ho => intro a fs h; simp [Value.unshared, Node.anchorFree, h]
  case hnil => simp [unsharedFields, anchorFreeFields]
  case hcons => intro k v fs hv hfs; simp [unsharedFields, anchorFreeFields, hv, hfs]
  all_goals intros; simp [Value.unshared, Node.anchorFree]

theorem isObject_unshared (v : Value) : v.unshared.isObject = v.isObject := by
  cases v <;> rfl

theorem isNullish_unshared (v : Value) : v.unshared.isNullish = v.isNullish := by
  cases v <;> rfl

theorem truthy_unshared (v : Value) : v.unshared.truthy = v.truthy := by
  cases v <;> rfl

theorem typeofObject_unshared (v : Value) : v.unshared.typeofObject = v.typeofObject := by
  cases v <;> rfl

theorem isArray_unshared (v : Value) : v.unshared.isArray = v.isArray := by
  cases v with
  | obj a fs => cases a <;> rfl
  | _ => rfl

/-! ### Own properties -/

theorem lookup_unshared (k : String) (fs : Fields) :
    Shared.lookup k (unsharedFields fs) = (lookup k fs).map Value.unshared := by
  induction fs with
  | nil => rfl
  | cons f fs ih =>
    obtain ⟨k', v⟩ := f
    simp only [unsharedFields, Shared.lookup, lookup]
    split
    · rfl
    · exact ih

theorem unsharedFields_append (fs gs : Fields) :
    unsharedFields (fs ++ gs) = unsharedFields fs ++ unsharedFields gs := by
  induction fs with
  | nil => rfl
  | cons f fs ih =>
    obtain ⟨k', v⟩ := f
    simp [unsharedFields, ih]

theorem insertIndexed_unshared (i : Nat) (k : String) (v : Value) (fs : Fields) :
    Shared.insertIndexed i k v.unshared (unsharedFields fs)
      = unsharedFields (insertIndexed i k v fs) := by
  induction fs with
  | nil => rfl
  | cons f fs ih =>
    obtain ⟨k', v'⟩ := f
    simp only [unsharedFields, Shared.insertIndexed, insertIndexed]
    cases arrayIndex k' with
    | none => simp [unsharedFields]
    | some j =>
      by_cases hj : j < i
      · simp [hj, unsharedFields, ih]
      · simp [hj, unsharedFields]

theorem insertField_unshared (k : String) (v : Value) (fs : Fields) :
    Shared.insertField k v.unshared (unsharedFields fs) = unsharedFields (insertField k v fs) := by
  unfold Shared.insertField insertField
  cases arrayIndex k with
  | none => simp [unsharedFields_append, unsharedFields]
  | some i => exact insertIndexed_unshared i k v fs

theorem replaceField_unshared (k : String) (v : Value) (fs : Fields) :
    Shared.replaceField k v.unshared (unsharedFields fs)
      = unsharedFields (replaceField k v fs) := by
  induction fs with
  | nil => rfl
  | cons f fs ih =>
    obtain ⟨k', v'⟩ := f
    simp only [unsharedFields, Shared.replaceField, replaceField]
    split
    · simp [unsharedFields]
    · simp [unsharedFields, ih]

theorem assignField_unshared (k : String) (v : Value) (fs : Fields) :
    Shared.assignField k v.unshared (unsharedFields fs) = unsharedFields (assignField k v fs) := by
  unfold Shared.assignField assignField
  rw [lookup_unshared, Option.isSome_map']
  split
  · exact replaceField_unshared k v fs
  · exact insertField_unshared k v fs

theorem deleteField_unshared (k : String) (fs : Fields) :
    Shared.deleteField k (unsharedFields fs) = unsharedFields (deleteField k fs) := by
  induction fs with
  | nil => rfl
  | cons f fs ih =>
    obtain ⟨k', v'⟩ := f
    simp only [unsharedFields, Shared.deleteField, deleteField]
    split
    · exact ih
    · simp [unsharedFields, ih]

theorem prop_unshared (v : Value) (k : String) :
    Shared.prop v.unshared k = (prop v k).unshared := by
  cases v with
  | obj a fs =>
    simp only [Value.unshared, Shared.prop, prop, lookup_unshared]
    cases lookup k fs <;> rfl
  | _ => rfl

theorem hasOwn_unshared (v : Value) (k : String) :
    Shared.hasOwn v.unshared k = hasOwn v k := by
  cases v with
  | obj a fs => simp [Value.unshared, Shared.hasOwn, hasOwn, lookup_unshared]
  | _ => rfl

/-! ### Reading -/

theorem getAllKeys_unshared :
    (∀ v : Value, ∀ pre : String, Shared.getAllKeys v.unshared pre = getAllKeys v pre) ∧
    (∀ fs : Fields, ∀ pre : String,
      Shared.getAllKeysFields (unsharedFields fs) pre = getAllKeysFields fs pre) := by
  apply value_induction
  case ho =>
    intro a fs h pre
    cases a
    · simp [Value.unshared, Shared.getAllKeys, getAllKeys, h]
    · simp [Value.unshared, Shared.getAllKeys, getAllKeys]
  case hnil => intro pre; simp [unsharedFields, Shared.getAllKeysFields, getAllKeysFields]
  case hcons =>
    intro k v fs hv hfs pre
    simp only [unsharedFields, Shared.getAllKeysFields, getAllKeysFields, typeofObject_unshared,
      isArray_unshared, hv, hfs]
  all_goals intros; simp [Value.unshared, Shared.getAllKeys, getAllKeys]

theorem castPath_unshared (key : String) (v : Value) :
    Shared.castPath key v.unshared = castPath key v := by
  simp [Shared.castPath, castPath, Shared.isKey, isKey, hasOwn_unshared]

theorem hasPath_unshared : ∀ (p : List String) (v : Value),
    Shared.hasPath v.unshared p = hasPath v p := by
  intro p
  induction p with
  | nil => intro v; rfl
  | cons k rest ih =>
    intro v
    cases rest with
    | nil => simp [Shared.hasPath, hasPath, hasOwn_unshared]
    | cons next rest =>
      simp only [Shared.hasPath, hasPath, hasOwn_unshared, prop_unshared]
      rw [ih]

theorem getPath_unshared : ∀ (p : List String) (v : Value),
    Shared.getPath v.unshared p = (getPath v p).unshared := by
  intro p
  induction p with
  | nil => intro v; rfl
  | cons k rest ih =>
    intro v
    simp only [Shared.getPath, getPath, isNullish_unshared, prop_unshared]
    split
    · rfl
    · exact ih _

/-! ### Writing -/

theorem setWithin_unshared : ∀ (p : List String) (v w : Value),
    Shared.setWithin v.unshared p w.unshared = (setPath v p w).unshared := by
  intro p
  induction p with
  | nil => intro v w; cases v <;> rfl
  | cons k rest ih =>
    intro v w
    cases v with
    | obj a fs =>
      cases rest with
      | nil =>
        simp only [Value.unshared, Shared.setWithin, setPath, assignField_unshared]
      | cons next rest =>
        simp only [Value.unshared, Shared.setWithin, setPath, lookup_unshared]
        have e : (if ((Option.map Value.unshared (lookup k fs)).getD Node.undefined).isObject = true
              then (Option.map Value.unshared (lookup k fs)).getD Node.undefined
              else Node.obj none (isIndex next) [])
            = (if ((lookup k fs).getD Value.undefined).isObject = true
              then (lookup k fs).getD Value.undefined
              else Value.obj (isIndex next) []).unshared := by
          cases lookup k fs with
          | none => rfl
          | some c =>
            simp only [Option.map_some', Option.getD_some, isObject_unshared]
            split <;> rfl
        rw [e, ih, assignField_unshared]
    | _ => rfl

theorem unsetWithin_unshared : ∀ (p : List String) (v : Value),
    Shared.unsetWithin v.unshared p = (unsetPath v p).unshared := by
  intro p
  induction p with
  | nil => intro v; cases v <;> rfl
  | cons k rest ih =>
    intro v
    cases v with
    | obj a fs =>
      cases rest with
      | nil => simp only [Value.unshared, Shared.unsetWithin, unsetPath, deleteField_unshared]
      | cons next rest =>
        simp only [Value.unshared, Shared.unsetWithin, unsetPath, lookup_unshared]
        cases lookup k fs with
        | none => rfl
        | some c =>
          simp only [Option.map_some']
          rw [ih, replaceField_unshared]
          rfl
    | _ => rfl

theorem anchorOn_unshared : ∀ (p : List String) (v : Value),
    Shared.anchorOn v.unshared p = none := by
  intro p
  induction p with
  | nil => intro v; cases v <;> rfl
  | cons k rest ih =>
    intro v
    cases v with
    | obj a fs =>
      cases rest with
      | nil => rfl
      | cons next rest =>
        simp only [Value.unshared, Shared.anchorOn, lookup_unshared]
        have e : (Option.map Value.unshared (lookup k fs)).getD Node.undefined
            = ((lookup k fs).getD Value.undefined).unshared := by
          cases lookup k fs <;> rfl
        rw [e, ih]
        rfl
    | _ => rfl

theorem setPath_unshared (p : List String) (v w : Value) :
    Shared.setPath v.unshared p w.unshared = (setPath v p w).unshared := by
  simp only [Shared.setPath, anchorOn_unshared, setWithin_unshared]

theorem unsetPath_unshared (p : List String) (v : Value) :
    Shared.unsetPath v.unshared p = (unsetPath v p).unshared := by
  simp only [Shared.unsetPath, anchorOn_unshared, unsetWithin_unshared]

theorem has_unshared (v : Value) (key : String) : Shared.has v.unshared key = has v key := by
  simp [Shared.has, has, isNullish_unshared, castPath_unshared, hasPath_unshared]

theorem get_unshared (v : Value) (key : String) :
    Shared.get v.unshared key = (get v key).unshared := by
  simp only [Shared.get, get, isNullish_unshared, castPath_unshared, getPath_unshared]
  split <;> rfl

theorem set_unshared (v w : Value) (key : String) :
    Shared.set v.unshared key w.unshared = (set v key w).unshared := by
  simp only [Shared.set, set, isNullish_unshared, castPath_unshared, setPath_unshared]
  split <;> rfl

theorem unset_unshared (v : Value) (key : String) :
    Shared.unset v.unshared key = (unset v key).unshared := by
  simp only [Shared.unset, unset, isNullish_unshared, castPath_unshared, unsetPath_unshared]
  split <;> rfl
/-! ### The migration loop -/

theorem migrateStep_unshared (T : Value) (log : List MigratedKey) (r : Shared.MigrationRule)
    (hf : ∀ v : Node, v.anchorFree = true → (r.migrate v).anchorFree = true) :
    Shared.migrateStep (T.unshared, log.map MigratedKey.unshared) r
      = ((migrateStep (T, log) r.onTrees).1.unshared,
         (migrateStep (T, log) r.onTrees).2.map MigratedKey.unshared) := by
  have hm : r.migrate (get T r.oldKey).unshared
      = (r.onTrees.migrate (get T r.oldKey)).unshared := by
    simp only [Shared.MigrationRule.onTrees]
    exact (unshared_erase.1 _ (hf _ (anchorFree_unshared.1 _))).symm
  simp only [Shared.migrateStep, migrateStep, has_unshared, get_unshared]
  have e₁ : r.onTrees.oldKey = r.oldKey := rfl
  have e₂ : r.onTrees.newKey = r.newKey := rfl
  have e₃ : r.onTrees.remove = r.remove := rfl
  rw [e₁, e₂, e₃]
  cases has T r.oldKey with
  | false => simp
  | true =>
    cases r.remove with
    | true => simp [unset_unshared, MigratedKey.unshared, Value.unshared]
    | false =>
      simp only [if_true, Bool.false_eq_true, if_false]
      rw [hm, set_unshared, unset_unshared]
      simp [MigratedKey.unshared]

theorem migrateFold_unshared : ∀ (M : List Shared.MigrationRule) (T : Value)
    (log : List MigratedKey), Shared.treeLike M →
    M.foldl Shared.migrateStep (T.unshared, log.map MigratedKey.unshared)
      = (((M.map Shared.MigrationRule.onTrees).foldl migrateStep (T, log)).1.unshared,
         ((M.map Shared.MigrationRule.onTrees).foldl migrateStep (T, log)).2.map
           MigratedKey.unshared) := by
  intro M
  induction M with
  | nil => intro T log _; rfl
  | cons r rest ih =>
    intro T log hf
    rw [List.foldl_cons, List.map_cons, List.foldl_cons,
      migrateStep_unshared T log r (hf r (List.mem_cons_self _ _))]
    exact ih _ _ (fun s hs => hf s (List.mem_cons_of_mem _ hs))

/-- The migration loop on a configuration without shared objects is the loop
    on its tree. -/
theorem migrateKeys_unshared (T : Value) (M : List Shared.MigrationRule)
    (hf : Shared.treeLike M) :
    Shared.migrateKeys T.unshared M
      = ((migrateKeys T (M.map Shared.MigrationRule.onTrees)).1.unshared,
         (migrateKeys T (M.map Shared.MigrationRule.onTrees)).2.map MigratedKey.unshared) := by
  have := migrateFold_unshared M T [] hf
  simpa [Shared.migrateKeys, migrateKeys] using this

theorem keyMigrationMap_onTrees :
    Shared.keyMigrationMap.map Shared.MigrationRule.onTrees = keyMigrationMap := by
  simp [Shared.keyMigrationMap, keyMigrationMap, Shared.MigrationRule.onTrees,
    erase_unshared.1, truthy_unshared, Node.erase]
  funext v
  split <;> rfl

theorem keyMigrationMap_treeLike : Shared.treeLike Shared.keyMigrationMap := by
  intro r hr v hv
  simp only [Shared.keyMigrationMap, List.mem_cons, List.mem_singleton, List.not_mem_nil,
    or_false] at hr
  rcases hr with h | h | h | h | h | h | h | h | h | h | h | h | h | h | h | h | h | h <;>
    subst h <;> first | exact hv | rfl | (simp only []; split <;> rfl)

/-! ### The defaults merge -/

theorem getPath_cons_obj (T : Value) (k : String) (rest : List String) (a : Bool) (fs : Fields)
    (h : getPath T (k :: rest) = .obj a fs) :
    ∃ b gs c, T = .obj b gs ∧ lookup k gs = some c ∧ getPath c rest = .obj a fs := by
  cases T with
  | obj b gs =>
    simp only [getPath, Value.isNullish, Bool.false_eq_true, if_false, prop] at h
    cases hl : lookup k gs with
    | some c => exact ⟨b, gs, c, rfl, hl, by simpa [hl] using h⟩
    | none =>
      rw [hl] at h
      cases rest with
      | nil => cases h
      | cons k' rest' => simp [getPath, Value.isNullish] at h
  | undefined => simp [getPath, Value.isNullish] at h
  | null => simp [getPath, Value.isNullish] at h
  | bool x =>
    simp only [getPath, Value.isNullish, Bool.false_eq_true, if_false, prop] at h
    cases rest <;> simp [getPath, Value.isNullish] at h
  | num x =>
    simp only [getPath, Value.isNullish, Bool.false_eq_true, if_false, prop] at h
    cases rest <;> simp [getPath, Value.isNullish] at h
  | str x =>
    simp only [getPath, Value.isNullish, Bool.false_eq_true, if_false, prop] at h
    cases rest <;> simp [getPath, Value.isNullish] at h

theorem replaceField_replaceField (k : String) (v w : Value) (fs : Fields) :
    replaceField k w (replaceField k v fs) = replaceField k w fs := by
  induction fs with
  | nil => rfl
  | cons f fs ih =>
    obtain ⟨k', v'⟩ := f
    by_cases h : k' = k
    · simp [replaceField, h]
    · simp [replaceField, h, ih]

theorem lookup_replaceField_some (k : String) (v c : Value) (fs : Fields)
    (h : lookup k fs = some c) : lookup k (replaceField k v fs) = some v := by
  induction fs with
  | nil => cases h
  | cons f fs ih =>
    obtain ⟨k', v'⟩ := f
    by_cases hk : k' = k
    · simp [replaceField, lookup, hk]
    · simp only [lookup, hk, if_false] at h
      simp [replaceField, lookup, hk, ih h]

theorem getPath_putAt : ∀ (p : List String) (T x : Value) (a : Bool) (fs : Fields),
    getPath T p = .obj a fs → getPath (putAt T p x) p = x := by
  intro p
  induction p with
  | nil => intro T x a fs _; cases T <;> rfl
  | cons k rest ih =>
    intro T x a fs h
    obtain ⟨b, gs, c, rfl, hl, hc⟩ := getPath_cons_obj T k rest a fs h
    simp only [putAt, hl, getPath, Value.isNullish, Bool.false_eq_true, if_false, prop,
      lookup_replaceField_some k _ c gs hl, Option.getD_some]
    exact ih c x a fs hc

theorem putAt_putAt : ∀ (p : List String) (T x y : Value) (a : Bool) (fs : Fields),
    getPath T p = .obj a fs → putAt (putAt T p x) p y = putAt T p y := by
  intro p
  induction p with
  | nil => intro T x y a fs _; cases T <;> cases x <;> rfl
  | cons k rest ih =>
    intro T x y a fs h
    obtain ⟨b, gs, c, rfl, hl, hc⟩ := getPath_cons_obj T k rest a fs h
    simp only [putAt, hl, lookup_replaceField_some k _ c gs hl, replaceField_replaceField]
    rw [ih c x y a fs hc]

theorem assignField_of_lookup (k : String) (v c : Value) (fs : Fields)
    (h : lookup k fs = some c) : assignField k v fs = replaceField k v fs := by
  simp [assignField, h]

theorem setPath_snoc : ∀ (p : List String) (T x : Value) (key : String) (a : Bool)
    (fs : Fields), getPath T p = .obj a fs →
    setPath T (p ++ [key]) x = putAt T p (.obj a (assignField key x fs)) := by
  intro p
  induction p with
  | nil =>
    intro T x key a fs h
    simp only [getPath] at h
    subst h
    rfl
  | cons k rest ih =>
    intro T x key a fs h
    obtain ⟨b, gs, c, rfl, hl, hc⟩ := getPath_cons_obj T k rest a fs h
    have hco : c.isObject = true := by
      cases rest with
      | nil => simp only [getPath] at hc; subst hc; rfl
      | cons k' rest' =>
        obtain ⟨b', gs', c', rfl, _, _⟩ := getPath_cons_obj c k' rest' a fs hc
        rfl
    cases hr : rest ++ [key] with
    | nil => simp at hr
    | cons next more =>
      simp only [List.cons_append, hr, setPath, hl, Option.getD_some, hco, if_true, putAt]
      rw [← hr, ih c x key a fs hc, assignField_of_lookup k _ c gs hl]

theorem putAt_snoc : ∀ (p : List String) (T x c : Value) (key : String) (a : Bool)
    (fs : Fields), getPath T p = .obj a fs → lookup key fs = some c →
    putAt T (p ++ [key]) x = putAt T p (.obj a (replaceField key x fs)) := by
  intro p
  induction p with
  | nil =>
    intro T x c key a fs h hk
    simp only [getPath] at h
    subst h
    simp [putAt, hk]
  | cons k rest ih =>
    intro T x c key a fs h hk
    obtain ⟨b, gs, c', rfl, hl, hc⟩ := getPath_cons_obj T k rest a fs h
    simp only [List.cons_append, putAt, hl]
    exact congrArg (fun z => Value.obj b (replaceField k z gs)) (ih c' x c key a fs hc hk)

theorem getPath_snoc : ∀ (p : List String) (T : Value) (key : String) (a : Bool) (fs : Fields),
    getPath T p = .obj a fs → getPath T (p ++ [key]) = (lookup key fs).getD .undefined := by
  intro p
  induction p with
  | nil =>
    intro T key a fs h
    simp only [getPath] at h
    subst h
    simp [getPath, Value.isNullish, prop]
  | cons k rest ih =>
    intro T key a fs h
    obtain ⟨b, gs, c, rfl, hl, hc⟩ := getPath_cons_obj T k rest a fs h
    simp only [List.cons_append, getPath, Value.isNullish, Bool.false_eq_true, if_false, prop, hl,
      Option.getD_some]
    exact ih c key a fs hc

theorem fieldAt_unshared (T : Value) (p : List String) (key : String) (a : Bool) (fs : Fields)
    (h : getPath T p = .obj a fs) :
    Shared.fieldAt T.unshared p key = (lookup key fs).map Value.unshared := by
  simp only [Shared.fieldAt, getPath_unshared, h, Value.unshared, lookup_unshared]

theorem putAt_self : ∀ (p : List String) (T : Value) (a : Bool) (fs : Fields),
    getPath T p = .obj a fs → putAt T p (.obj a fs) = T := by
  intro p
  induction p with
  | nil => intro T a fs h; simp only [getPath] at h; subst h; rfl
  | cons k rest ih =>
    intro T a fs h
    obtain ⟨b, gs, c, rfl, hl, hc⟩ := getPath_cons_obj T k rest a fs h
    simp only [putAt, hl]
    rw [ih c a fs hc, replaceField_same k c gs hl]

theorem mergeScalar_unshared (sv T : Value) (p : List String) (key : String) (a : Bool)
    (fs : Fields) (h : getPath T p = .obj a fs) :
    (match Shared.fieldAt T.unshared p key with
      | none => Shared.setPath T.unshared (p ++ [key]) sv.unshared
      | some .undefined => Shared.setPath T.unshared (p ++ [key]) sv.unshared
      | some _ => T.unshared)
      = (putAt T p (.obj a (match lookup key fs with
          | none => insertField key sv fs
          | some .undefined => replaceField key sv fs
          | some _ => fs))).unshared := by
  rw [fieldAt_unshared T p key a fs h]
  simp only [setPath_unshared, setPath_snoc p T sv key a fs h]
  cases hl : lookup key fs with
  | none => simp [assignField, hl]
  | some c =>
    cases c <;>
      simp only [Option.map_some', Value.unshared, assignField_of_lookup key sv _ fs hl,
        putAt_self p T a fs h]

theorem merge_unshared :
    (∀ sv : Value, ∀ (T : Value) (p : List String) (key : String) (a : Bool) (fs : Fields),
      getPath T p = .obj a fs →
      Shared.mergeKey T.unshared p key sv
        = (putAt T p (.obj a (mergeKey fs key sv))).unshared) ∧
    (∀ d : Fields, ∀ (T : Value) (p : List String) (a : Bool) (fs : Fields),
      getPath T p = .obj a fs →
      Shared.baseMerge T.unshared p d = (putAt T p (.obj a (baseMerge fs d))).unshared) := by
  apply value_induction
  case ho =>
    intro b sfs ih T p key a fs h
    rw [Shared.mergeKey, mergeKey, fieldAt_unshared T p key a fs h]
    simp only [setPath_unshared, setPath_snoc p T _ key a fs h]
    cases hl : lookup key fs with
    | none => simp [assignField, hl]
    | some c =>
      cases c with
      | obj a' cfs =>
        simp only [Option.map_some', Value.unshared]
        have hc : getPath T (p ++ [key]) = .obj a' cfs := by
          rw [getPath_snoc p T key a fs h, hl]; rfl
        rw [ih T (p ++ [key]) a' cfs hc, putAt_snoc p T _ _ key a fs h hl]
      | _ =>
        simp only [Option.map_some', Value.unshared, assignField_of_lookup key _ _ fs hl,
          putAt_self p T a fs h]
  case hnil =>
    intro T p a fs h
    rw [Shared.baseMerge, baseMerge, putAt_self p T a fs h]
  case hcons =>
    intro k v d hv hd T p a fs h
    rw [Shared.baseMerge, baseMerge, hv T p k a fs h,
      hd _ p a _ (getPath_putAt p T _ a fs h), putAt_putAt p T _ _ a fs h]
  all_goals
    intros
    rw [Shared.mergeKey, mergeKey] <;>
      first
        | exact mergeScalar_unshared _ _ _ _ _ _ (by assumption)
        | (intro _ _ e; cases e)

/-- The defaults merge on a configuration without shared objects is the merge
    on its tree. -/
theorem defaultsDeep_unshared (T D : Value) :
    Shared.defaultsDeep T.unshared D = (defaultsDeep T D).unshared := by
  cases T with
  | obj a ofs =>
    cases D with
    | obj b sfs =>
      simp only [Value.unshared, Shared.defaultsDeep, defaultsDeep]
      exact merge_unshared.2 sfs (.obj a ofs) [] a ofs rfl
    | _ => rfl
  | _ => cases D <;> rfl

theorem reconcile_unshared (T D : Value) :
    Shared.reconcile T.unshared D = ((reconcile T D).1.unshared, (reconcile T D).2) := by
  simp only [Shared.reconcile, reconcile, defaultsDeep_unshared, getAllKeys_unshared.1]

/-- The whole computation on a configuration without shared objects is the
    computation on its tree. -/
theorem addMissingConfigValuesWith_unshared (M : List Shared.MigrationRule) (D T : Value)
    (hf : Shared.treeLike M) :
    (Shared.addMissingConfigValuesWith M D T.unshared).config
        = (addMissingConfigValuesWith (M.map Shared.MigrationRule.onTrees) D T).config.unshared
    ∧ (Shared.addMissingConfigValuesWith M D T.unshared).migratedKeys
        = (addMissingConfigValuesWith (M.map Shared.MigrationRule.onTrees) D T).migratedKeys.map
            MigratedKey.unshared
    ∧ (Shared.addMissingConfigValuesWith M D T.unshared).addedKeys
        = (addMissingConfigValuesWith (M.map Shared.MigrationRule.onTrees) D T).addedKeys
    ∧ (Shared.addMissingConfigValuesWith M D T.unshared).written
        = (addMissingConfigValuesWith (M.map Shared.MigrationRule.onTrees) D T).written := by
  simp [Shared.addMissingConfigValuesWith, addMissingConfigValuesWith,
    migrateKeys_unshared T M hf, reconcile_unshared]
/-! ## Scenarios with shared objects -/

/-- A default written into a shared mapping shows at each of its places: for
    the configuration `a: &x {p: 1}`, `b: *x` and the defaults `a: {q: 2}`
    the merged configuration has `q` under `a` and under `b`, and both paths
    are reported as added. -/
theorem alias_takes_defaults :
    Shared.reconcile
        (.obj none false [("a", .obj (some 1) false [("p", .num 1)]),
          ("b", .obj (some 1) false [("p", .num 1)])])
        (.obj false [("a", .obj false [("q", .num 2)])])
      = (.obj none false [("a", .obj (some 1) false [("p", .num 1), ("q", .num 2)]),
          ("b", .obj (some 1) false [("p", .num 1), ("q", .num 2)])], ["a.q", "b.q"]) := by
  rfl

/-- A rule that deletes its old key from a shared mapping deletes it at each of
    its places: for `extras: &x {captioningModel: m}`, `other: *x` the loop
    leaves `other` empty. -/
theorem alias_loses_migrated_field :
    (Shared.migrateKeys
        (.obj none false [("extras", .obj (some 1) false [("captioningModel", .str "m")]),
          ("other", .obj (some 1) false [("captioningModel", .str "m")])])
        Shared.keyMigrationMap).1
      = .obj none false [("extras", .obj (some 1) false []), ("other", .obj (some 1) false []),
          ("extensions", .obj none false [("models", .obj none false
            [("captioning", .str "m")])])] := by
  rfl

/-! ## The claims on configurations without shared objects -/

/-- The keys of `keyMigrationMap` are keys of plain names. -/
theorem keyMigrationMap_plainKeys : plainKeys keyMigrationMap = true := by
  decide

theorem treeLike_perm (M M' : List Shared.MigrationRule) (hp : M'.Perm M)
    (h : Shared.treeLike M) : Shared.treeLike M' :=
  fun r hr => h r (hp.subset hr)

theorem erase_eq_iff (T : Node) (E : Value) (hT : T.anchorFree = true) (h : T.erase = E) :
    T = E.unshared := by
  rw [← h, unshared_erase.1 T hT]

/-- C5 (amended): for every configuration `T` without shared objects and
    every table `M` whose transforms are functions on trees, whose keys are
    keys of plain names and which is path-disjoint (no old key equal to, a
    beginning of or an extension of another old key or of the new key of a
    rule that does not remove; new keys apart likewise), when no field of `T`
    is named like a dotted old key, a second application of the loop to the
    result of the first emits no record and leaves the configuration as it
    is.  (The condition on the keys states the range of the embedding, which
    has no array lengths and no inherited properties; the proof does not
    need it.) -/
theorem migration_idempotent_unshared (T : Node) (M : List Shared.MigrationRule)
    (hT : T.anchorFree = true) (hf : Shared.treeLike M)
    (hk : plainKeys (M.map Shared.MigrationRule.onTrees) = true)
    (hM : pathDisjoint (M.map Shared.MigrationRule.onTrees) = true)
    (hl : literalFree T.erase (M.map Shared.MigrationRule.onTrees) = true) :
    Shared.migrateKeys (Shared.migrateKeys T M).1 M = ((Shared.migrateKeys T M).1, []) := by
  rw [erase_eq_iff T T.erase hT rfl, migrateKeys_unshared _ M hf]
  simp only []
  rw [migrateKeys_unshared _ M hf, migration_idempotent_disjoint T.erase _ hM hl]
  rfl

theorem migration_idempotent_unshared_witness :
    Shared.migrateKeys (Shared.migrateKeys
        (.obj none false [("a", .num 1), ("x", .obj none false [("y", .num 2)])])
        [{ oldKey := "a", newKey := "b.c", migrate := fun v => v },
         { oldKey := "x.y", newKey := "b.d", migrate := fun v => .bool (!v.truthy) }]).1
        [{ oldKey := "a", newKey := "b.c", migrate := fun v => v },
         { oldKey := "x.y", newKey := "b.d", migrate := fun v => .bool (!v.truthy) }]
      = ((Shared.migrateKeys
        (.obj none false [("a", .num 1), ("x", .obj none false [("y", .num 2)])])
        [{ oldKey := "a", newKey := "b.c", migrate := fun v => v },
         { oldKey := "x.y", newKey := "b.d", migrate := fun v => .bool (!v.truthy) }]).1, []) :=
  migration_idempotent_unshared _ _ (by rfl)
    (by
      intro r hr v hv
      simp only [List.mem_cons, List.mem_singleton, List.not_mem_nil, or_false] at hr
      rcases hr with h | h <;> subst h
      · exact hv
      · rfl)
    (by decide) (by rfl) (by rfl)

/-- C6 (amended): for every configuration `T` without shared objects, every
    path-disjoint table `M` whose transforms are functions on trees and whose
    keys are keys of plain names, when no field of `T` is named like a dotted
    old key, and every rule `R` of `M` whose old key has a value in `T`: the
    configuration produced by the loop has no value at the old key of `R`
    and, if `R` does not remove, has the transform of the value `T` had at
    the old key at the new key of `R`.  (The condition on the keys states
    the range of the embedding; the proof does not need it.) -/
theorem migration_complete_unshared (T : Node) (M : List Shared.MigrationRule)
    (R : Shared.MigrationRule) (hT : T.anchorFree = true) (hf : Shared.treeLike M)
    (hk : plainKeys (M.map Shared.MigrationRule.onTrees) = true)
    (hM : pathDisjoint (M.map Shared.MigrationRule.onTrees) = true)
    (hl : literalFree T.erase (M.map Shared.MigrationRule.onTrees) = true) (hR : R ∈ M)
    (hh : Shared.has T R.oldKey = true) :
    Shared.has (Shared.migrateKeys T M).1 R.oldKey = false
    ∧ (R.remove = false →
        Shared.get (Shared.migrateKeys T M).1 R.newKey = R.migrate (Shared.get T R.oldKey)) := by
  rw [erase_eq_iff T T.erase hT rfl] at hh ⊢
  rw [has_unshared] at hh
  rw [migrateKeys_unshared _ M hf]
  simp only [has_unshared, get_unshared]
  have := migration_complete_disjoint T.erase _ R.onTrees hM hl (List.mem_map_of_mem _ hR) hh
  refine ⟨this.1, fun hrem => ?_⟩
  have e : R.onTrees.newKey = R.newKey := rfl
  rw [← e, this.2 hrem]
  simp only [Shared.MigrationRule.onTrees]
  exact unshared_erase.1 _ (hf R hR _ (anchorFree_unshared.1 _))

theorem migration_complete_unshared_witness :
    Shared.has (Shared.migrateKeys
        (.obj none false [("a", .num 1), ("x", .obj none false [("y", .num 2)])])
        [{ oldKey := "a", newKey := "b.c", migrate := fun v => .bool (!v.truthy) },
         { oldKey := "x.y", newKey := "b.d", migrate := fun v => v }]).1 "a" = false
    ∧ ((false : Bool) = false →
      Shared.get (Shared.migrateKeys
        (.obj none false [("a", .num 1), ("x", .obj none false [("y", .num 2)])])
        [{ oldKey := "a", newKey := "b.c", migrate := fun v => .bool (!v.truthy) },
         { oldKey := "x.y", newKey := "b.d", migrate := fun v => v }]).1 "b.c"
        = .bool (!(Shared.get
            (.obj none false [("a", .num 1), ("x", .obj none false [("y", .num 2)])])
            "a").truthy)) :=
  migration_complete_unshared _ _
    { oldKey := "a", newKey := "b.c", migrate := fun v => .bool (!v.truthy) }
    (by rfl)
    (by
      intro r hr v hv
      simp only [List.mem_cons, List.mem_singleton, List.not_mem_nil, or_false] at hr
      rcases hr with h | h <;> subst h
      · rfl
      · exact hv)
    (by decide) (by rfl) (by rfl) (List.mem_cons_self _ _) (by rfl)

/-- C9 (as stated, refuted): for the configuration `thumbnails: &s {}`,
    `extensions: *s`, `disableThumbnails: true`, `enableExtensions: true` the
    two rules write the field `enabled` of the one shared mapping; in table
    order the loop leaves `true` there, in the reverse order `false`: the
    final tree depends on the order of the table. -/
theorem alias_makes_order_count :
    Shared.keyMigrationMap.reverse.Perm Shared.keyMigrationMap
    ∧ (Shared.migrateKeys
        (.obj none false [("thumbnails", .obj (some 1) false []),
          ("extensions", .obj (some 1) false []), ("disableThumbnails", .bool true),
          ("enableExtensions", .bool true)]) Shared.keyMigrationMap).1
      = .obj none false [("thumbnails", .obj (some 1) false [("enabled", .bool true)]),
          ("extensions", .obj (some 1) false [("enabled", .bool true)])]
    ∧ (Shared.migrateKeys
        (.obj none false [("thumbnails", .obj (some 1) false []),
          ("extensions", .obj (some 1) false []), ("disableThumbnails", .bool true),
          ("enableExtensions", .bool true)]) Shared.keyMigrationMap.reverse).1
      = .obj none false [("thumbnails", .obj (some 1) false [("enabled", .bool false)]),
          ("extensions", .obj (some 1) false [("enabled", .bool false)])]
    ∧ ¬ SameTree
        (Shared.migrateKeys
          (.obj none false [("thumbnails", .obj (some 1) false []),
            ("extensions", .obj (some 1) false []), ("disableThumbnails", .bool true),
            ("enableExtensions", .bool true)]) Shared.keyMigrationMap.reverse).1.erase
        (Shared.migrateKeys
          (.obj none false [("thumbnails", .obj (some 1) false []),
            ("extensions", .obj (some 1) false []), ("disableThumbnails", .bool true),
            ("enableExtensions", .bool true)]) Shared.keyMigrationMap).1.erase := by
  refine ⟨List.reverse_perm _, rfl, rfl, ?_⟩
  intro h
  have h₁ : SameTree
      (.obj false [("thumbnails", .obj false [("enabled", .bool false)]),
        ("extensions", .obj false [("enabled", .bool false)])])
      (.obj false [("thumbnails", .obj false [("enabled", .bool true)]),
        ("extensions", .obj false [("enabled", .bool true)])]) := h
  have h₂ := (sameFields_of_sameTree _ _ _ _ h₁).2 "thumbnails"
  have h₃ : SameTree (.obj false [("enabled", .bool false)])
      (.obj false [("enabled", .bool true)]) := h₂
  have h₄ := (sameFields_of_sameTree _ _ _ _ h₃).2 "enabled"
  have h₅ : SameTree (.bool false) (.bool true) := h₄
  cases h₅

/-- C9 (amended): `keyMigrationMap` is path-disjoint, and for every
    configuration `T` without shared objects and every permutation of
    `keyMigrationMap` the migration loop produces the same final tree as a
    mapping (the same field names with the same values at every depth,
    whatever the order of the fields); the migration records are the same up
    to their order. -/
theorem migration_order_insensitive_unshared (T : Node) (M' : List Shared.MigrationRule)
    (hT : T.anchorFree = true) (hp : M'.Perm Shared.keyMigrationMap) :
    pathDisjoint (Shared.keyMigrationMap.map Shared.MigrationRule.onTrees) = true
    ∧ SameTree (Shared.migrateKeys T M').1.erase
        (Shared.migrateKeys T Shared.keyMigrationMap).1.erase
    ∧ (Shared.migrateKeys T M').2.Perm (Shared.migrateKeys T Shared.keyMigrationMap).2 := by
  have hp' : (M'.map Shared.MigrationRule.onTrees).Perm keyMigrationMap := by
    rw [← keyMigrationMap_onTrees]
    exact hp.map _
  have := migration_order_insensitive T.erase _ hp'
  rw [erase_eq_iff T T.erase hT rfl,
    migrateKeys_unshared _ M' (treeLike_perm _ _ hp keyMigrationMap_treeLike),
    migrateKeys_unshared _ _ keyMigrationMap_treeLike, keyMigrationMap_onTrees]
  simp only [erase_unshared.1]
  exact ⟨this.1, this.2.1, this.2.2.map _⟩

theorem migration_order_insensitive_unshared_witness :
    pathDisjoint (Shared.keyMigrationMap.map Shared.MigrationRule.onTrees) = true
    ∧ SameTree
        (Shared.migrateKeys (.obj none false [("thumbnailsQuality", .num 95),
          ("disableThumbnails", .bool true),
          ("extras", .obj none false [("captioningModel", .str "m")])])
          Shared.keyMigrationMap.reverse).1.erase
        (Shared.migrateKeys (.obj none false [("thumbnailsQuality", .num 95),
          ("disableThumbnails", .bool true),
          ("extras", .obj none false [("captioningModel", .str "m")])])
          Shared.keyMigrationMap).1.erase
    ∧ (Shared.migrateKeys (.obj none false [("thumbnailsQuality", .num 95),
          ("disableThumbnails", .bool true),
          ("extras", .obj none false [("captioningModel", .str "m")])])
          Shared.keyMigrationMap.reverse).2.Perm
        (Shared.migrateKeys (.obj none false [("thumbnailsQuality", .num 95),
          ("disableThumbnails", .bool true),
          ("extras", .obj none false [("captioningModel", .str "m")])])
          Shared.keyMigrationMap).2 :=
  migration_order_insensitive_unshared _ Shared.keyMigrationMap.reverse (by rfl)
    (List.reverse_perm _)

/-- C18 (amended): for every configuration `T` without shared objects and
    every field name `f` that is not the first segment of any old key or new
    key of `keyMigrationMap` and is not itself one of these keys, the
    configuration produced by the loop has at `f` exactly the value `T` had
    at `f`, and has no field `f` if `T` had none. -/
theorem migration_frame_unshared (T : Node) (f : String) (hT : T.anchorFree = true)
    (h : Shared.keyMigrationMap.all (fun r =>
        (stringToPath r.oldKey).head? != some f && (stringToPath r.newKey).head? != some f
        && r.oldKey != f && r.newKey != f) = true) :
    Shared.prop (Shared.migrateKeys T Shared.keyMigrationMap).1 f = Shared.prop T f
    ∧ Shared.hasOwn (Shared.migrateKeys T Shared.keyMigrationMap).1 f = Shared.hasOwn T f := by
  have h' : keyMigrationMap.all (fun r =>
        (stringToPath r.oldKey).head? != some f && (stringToPath r.newKey).head? != some f
        && r.oldKey != f && r.newKey != f) = true := by
    rw [← keyMigrationMap_onTrees]
    rw [List.all_eq_true] at h ⊢
    intro r hr
    obtain ⟨s, hs, rfl⟩ := List.mem_map.mp hr
    exact h s hs
  have := migration_frame_top_level T.erase f h'
  rw [erase_eq_iff T T.erase hT rfl, migrateKeys_unshared _ _ keyMigrationMap_treeLike,
    keyMigrationMap_onTrees]
  simp only [prop_unshared, hasOwn_unshared, this.1, this.2, and_self]

theorem migration_frame_unshared_witness :
    Shared.prop (Shared.migrateKeys
        (.obj none false [("port", .num 8000), ("disableThumbnails", .bool true)])
        Shared.keyMigrationMap).1 "port"
      = Shared.prop (.obj none false [("port", .num 8000), ("disableThumbnails", .bool true)])
          "port"
    ∧ Shared.hasOwn (Shared.migrateKeys
        (.obj none false [("port", .num 8000), ("disableThumbnails", .bool true)])
        Shared.keyMigrationMap).1 "port"
      = Shared.hasOwn (.obj none false [("port", .num 8000), ("disableThumbnails", .bool true)])
          "port" :=
  migration_frame_unshared _ "port" (by rfl) (by decide)

/-- C2 (amended): for every user configuration `T` without shared objects,
    every defaults tree `D` and every path `P` at which `T` has a scalar `V`,
    if `P` keeps clear of the old key and the new key of every rule of
    `keyMigrationMap` (it is not equal to, a beginning of or an extension of
    the path of such a key, and does not start with a field named like one),
    then the reconciled configuration has the value `V` at `P`. -/
theorem no_loss_unshared (T : Node) (D V : Value) (P : List String)
    (hT : T.anchorFree = true) (hV : V.isScalar = true)
    (hP : (Shared.getPath T P).erase = V)
    (hclear : Shared.keyMigrationMap.all
      (fun r => pathClear P r.oldKey && pathClear P r.newKey) = true) :
    (Shared.getPath (Shared.addMissingConfigValues D T).config P).erase = V := by
  have hclear' : keyMigrationMap.all
      (fun r => pathClear P r.oldKey && pathClear P r.newKey) = true := by
    rw [← keyMigrationMap_onTrees]
    rw [List.all_eq_true] at hclear ⊢
    intro r hr
    obtain ⟨s, hs, rfl⟩ := List.mem_map.mp hr
    exact hclear s hs
  rw [erase_eq_iff T T.erase hT rfl] at hP ⊢
  rw [getPath_unshared, erase_unshared.1] at hP
  unfold Shared.addMissingConfigValues
  rw [(addMissingConfigValuesWith_unshared _ D T.erase keyMigrationMap_treeLike).1,
    keyMigrationMap_onTrees, getPath_unshared, erase_unshared.1]
  exact no_loss_clear_of_rules T.erase D V P hV hP hclear'

theorem no_loss_unshared_witness :
    (Shared.getPath (Shared.addMissingConfigValues
        (.obj false [("thumbnails", .obj false [("quality", .num 95), ("enabled", .bool true)])])
        (.obj none false [("disableThumbnails", .bool true),
          ("thumbnails", .obj none false [("dimensions", .num 5)])])).config
      ["thumbnails", "dimensions"]).erase = .num 5 :=
  no_loss_unshared _ _ _ ["thumbnails", "dimensions"] (by rfl) (by rfl) (by rfl) (by decide)

/-- C1 (amended): in a user configuration `T` without shared objects, a field
    `k` with a defined value `v` keeps exactly that value in the merged
    configuration whenever `v` is a scalar or every value the defaults give
    for `k` is a scalar (neither a mapping nor a sequence); sequences are
    merged index by index, so that `T = {list: [1,2]}`, `D = {list: [1,2,3]}`
    yields `{list: [1,2,3]}`, with no addition reported for `list`. -/
theorem user_wins_unshared (T : Node) (a b : Bool) (t d : Fields) (k : String) (v : Value)
    (hT : T.anchorFree = true) (he : T.erase = .obj a t)
    (hk : lookup k t = some v) (hv : v ≠ .undefined)
    (h : v.isObject = false ∨ ∀ dv, (k, dv) ∈ d → dv.isObject = false) :
    (Shared.prop (Shared.reconcile T (.obj b d)).1 k).erase = v
    ∧ Shared.reconcile (.obj none false [("list", .obj none true [("0", .num 1), ("1", .num 2)])])
        (.obj false [("list", .obj true [("0", .num 1), ("1", .num 2), ("2", .num 3)])])
      = (.obj none false
          [("list", .obj none true [("0", .num 1), ("1", .num 2), ("2", .num 3)])], []) := by
  refine ⟨?_, rfl⟩
  rw [erase_eq_iff T _ hT he, reconcile_unshared, prop_unshared, erase_unshared.1]
  exact (user_wins_at_scalars a b t d k v hk hv h).1

theorem user_wins_unshared_witness :
    (Shared.prop (Shared.reconcile
        (.obj none false [("port", .num 8000), ("list", .obj none true [("0", .num 1)])])
        (.obj false [("port", .obj false [("x", .num 1)]), ("list", .num 7)])).1 "list").erase
      = .obj true [("0", .num 1)]
    ∧ Shared.reconcile (.obj none false [("list", .obj none true [("0", .num 1), ("1", .num 2)])])
        (.obj false [("list", .obj true [("0", .num 1), ("1", .num 2), ("2", .num 3)])])
      = (.obj none false
          [("list", .obj none true [("0", .num 1), ("1", .num 2), ("2", .num 3)])], []) :=
  user_wins_unshared _ false false _ _ "list" _ (by rfl) (by rfl) (by rfl) (by simp)
    (Or.inr (by simp [Value.isObject]))

/-- C16 (amended): for a user configuration `T` without shared objects and a
    defaults tree `D` whose mappings have distinct field names that are not
    empty and contain no dot, and where no mapping of `T` faces a sequence of
    `D`: every path `P` of the additions list is a leaf path of `D` and no
    leaf path of `T`, the merged configuration has at `P` the value `D` has
    at `P`, and the additions list has no duplicates. -/
theorem additions_sound_unshared (T : Node) (t d : Fields)
    (hT : T.anchorFree = true) (he : T.erase = .obj false t)
    (hwt : wfFields t = true) (hwd : wfFields d = true)
    (hpt : plainNamesFields t = true) (hpd : plainNamesFields d = true)
    (hk : kindsAgree t d = true) :
    (∀ P ∈ (Shared.reconcile T (.obj false d)).2,
      P ∈ getAllKeys (.obj false d) "" ∧ P ∉ Shared.getAllKeys T ""
        ∧ (Shared.get (Shared.reconcile T (.obj false d)).1 P).erase = get (.obj false d) P)
    ∧ (Shared.reconcile T (.obj false d)).2.Nodup := by
  rw [erase_eq_iff T _ hT he, reconcile_unshared]
  simp only [getAllKeys_unshared.1, get_unshared, erase_unshared.1]
  exact additions_sound_plain t d hwt hwd hpt hpd hk

theorem additions_sound_unshared_witness :
    (∀ P ∈ (Shared.reconcile
          (.obj none false [("a", .obj none false [("b", .num 1)]), ("l", .obj none true [])])
          (.obj false [("a", .obj false [("b", .num 2), ("c", .num 3)]),
            ("l", .obj true [("0", .num 7)]), ("n", .null), ("p", .str "x")])).2,
      P ∈ getAllKeys (.obj false [("a", .obj false [("b", .num 2), ("c", .num 3)]),
            ("l", .obj true [("0", .num 7)]), ("n", .null), ("p", .str "x")]) ""
        ∧ P ∉ Shared.getAllKeys
          (.obj none false [("a", .obj none false [("b", .num 1)]), ("l", .obj none true [])]) ""
        ∧ (Shared.get (Shared.reconcile
          (.obj none false [("a", .obj none false [("b", .num 1)]), ("l", .obj none true [])])
          (.obj false [("a", .obj false [("b", .num 2), ("c", .num 3)]),
            ("l", .obj true [("0", .num 7)]), ("n", .null), ("p", .str "x")])).1 P).erase
          = get (.obj false [("a", .obj false [("b", .num 2), ("c", .num 3)]),
            ("l", .obj true [("0", .num 7)]), ("n", .null), ("p", .str "x")]) P)
    ∧ (Shared.reconcile
          (.obj none false [("a", .obj none false [("b", .num 1)]), ("l", .obj none true [])])
          (.obj false [("a", .obj false [("b", .num 2), ("c", .num 3)]),
            ("l", .obj true [("0", .num 7)]), ("n", .null), ("p", .str "x")])).2.Nodup :=
  additions_sound_unshared _ _ _ (by rfl) (by rfl) (by rfl) (by rfl) (by decide) (by decide)
    (by rfl)
/-! ## The change log and the paths of the specification -/

theorem castPath_literalFree (E : Value) (key : String)
    (h : dotted key = true → hasOwn E key = false) : castPath key E = stringToPath key := by
  cases hd : dotted key with
  | false => rw [castPath_undotted key E hd, stringToPath_undotted key hd]
  | true =>
    unfold castPath isKey
    have hd' : key.data.contains '.' = true := hd
    rw [hd', h hd]
    rfl

theorem has_eq_hasValueAt (E : Value) (key : String)
    (h : dotted key = true → hasOwn E key = false) : has E key = hasValueAt E key := by
  unfold hasValueAt
  cases hE : E.isObject with
  | false => rw [has_of_not_object E hE, hasPath_of_not_object E hE]
  | true => rw [has_of_isObject E hE, castPath_literalFree E key h]

theorem migrateStep_bySpec (E : Value) (log : List Shared.MigratedKey)
    (r : Shared.MigrationRule) (h : dotted r.oldKey = true → hasOwn E r.oldKey = false) :
    (Shared.migrateStep (E.unshared, log) r).1 = (Shared.migrateStep (E.unshared, []) r).1
    ∧ (Shared.migrateStep (E.unshared, log) r).2.map Shared.MigratedKey.keys
      = log.map Shared.MigratedKey.keys
        ++ (if hasValueAt E r.oldKey then [r.recordKeys] else []) := by
  simp only [Shared.migrateStep, has_unshared, has_eq_hasValueAt E r.oldKey h,
    Shared.MigrationRule.recordKeys]
  cases hasValueAt E r.oldKey <;> cases r.remove <;> simp [Shared.MigratedKey.keys]

theorem migrateStep_tree (E : Value) (r : Shared.MigrationRule)
    (hf : ∀ v : Node, v.anchorFree = true → (r.migrate v).anchorFree = true) :
    (Shared.migrateStep (E.unshared, []) r).1 = (plannedStep E E r.onTrees).unshared := by
  have := migrateStep_unshared E [] r hf
  simp only [List.map_nil] at this
  rw [this, migrateStep_eq_planned E E [] r.onTrees rfl rfl]

theorem migrateFold_bySpec : ∀ (M : List Shared.MigrationRule) (E : Value)
    (log : List Shared.MigratedKey), Shared.treeLike M →
    literalFree E (M.map Shared.MigrationRule.onTrees) = true →
    (M.foldl Shared.migrateStep (E.unshared, log)).2.map Shared.MigratedKey.keys
      = log.map Shared.MigratedKey.keys
        ++ (Shared.matchedBySpec E.unshared M).map Shared.MigrationRule.recordKeys := by
  intro M
  induction M with
  | nil => intro E log _ _; simp [Shared.matchedBySpec]
  | cons r rest ih =>
    intro E log hf hl
    have hr : dotted r.oldKey = true → hasOwn E r.oldKey = false :=
      (literalFree_iff E _).mp hl r.onTrees (List.mem_map_of_mem _ (List.mem_cons_self _ _))
    have hf' : Shared.treeLike rest := fun s hs => hf s (List.mem_cons_of_mem _ hs)
    have hl' : literalFree (plannedStep E E r.onTrees)
        (rest.map Shared.MigrationRule.onTrees) = true :=
      literalFree_cons E E r.onTrees _ hl
    have hstep := migrateStep_tree E r (hf r (List.mem_cons_self _ _))
    obtain ⟨h₁, h₂⟩ := migrateStep_bySpec E log r hr
    have hpair : Shared.migrateStep (E.unshared, log) r
        = ((plannedStep E E r.onTrees).unshared, (Shared.migrateStep (E.unshared, log) r).2) := by
      rw [← hstep, ← h₁]
    rw [List.foldl_cons, hpair, ih _ _ hf' hl', h₂]
    simp only [Shared.matchedBySpec, erase_unshared.1, hstep, List.append_assoc,
      List.map_append]
    congr 1
    cases hasValueAt E r.oldKey <;> simp

theorem matchedBySpec_sublist : ∀ (M : List Shared.MigrationRule) (T : Node),
    (Shared.matchedBySpec T M).Sublist M := by
  intro M
  induction M with
  | nil => intro T; simp [Shared.matchedBySpec]
  | cons r rest ih =>
    intro T
    simp only [Shared.matchedBySpec]
    cases hasValueAt T.erase r.oldKey with
    | true =>
      simp only [if_true, List.singleton_append]
      exact (ih _).cons₂ _
    | false =>
      simp only [Bool.false_eq_true, if_false, List.nil_append]
      exact (ih _).cons _

/-- C13 (as stated, refuted): the tree `{"extras.captioningModel": "x"}` has
    no value at the old path of any rule of `keyMigrationMap` (the one field
    is named like a key, it is not at the path `extras`, `captioningModel`),
    yet the loop moves the value to `extensions.models.captioning` and emits
    a record. -/
theorem field_named_like_key_migrates :
    Shared.keyMigrationMap.all (fun r =>
        !hasValueAt (Node.obj none false [("extras.captioningModel", .str "x")]).erase
          r.oldKey) = true
    ∧ (Shared.migrateKeys (.obj none false [("extras.captioningModel", .str "x")])
        Shared.keyMigrationMap).1
      = .obj none false [("extensions", .obj none false [("models", .obj none false
          [("captioning", .str "x")])])]
    ∧ (Shared.migrateKeys (.obj none false [("extras.captioningModel", .str "x")])
        Shared.keyMigrationMap).2.length = 1 := by
  refine ⟨by decide, rfl, rfl⟩

/-- C13 (amended): for every configuration `T` without shared objects and
    every table `M` whose transforms are functions on trees and whose keys
    are keys of plain names, when no field of `T` is named like a dotted old
    key of `M`: if `T` has no value at the old path of any rule, the loop
    returns `T` unchanged and an empty log; in general the log holds, in
    table order, one record with the keys of the rule for exactly the rules
    whose old path had a value when the rule was reached.  (The condition on
    the keys states the range of the embedding; the proof does not need
    it.) -/
theorem log_by_specification (T : Node) (M : List Shared.MigrationRule)
    (hT : T.anchorFree = true) (hf : Shared.treeLike M)
    (hk : plainKeys (M.map Shared.MigrationRule.onTrees) = true)
    (hl : literalFree T.erase (M.map Shared.MigrationRule.onTrees) = true) :
    ((∀ r ∈ M, hasValueAt T.erase r.oldKey = false) → Shared.migrateKeys T M = (T, []))
    ∧ (Shared.migrateKeys T M).2.map Shared.MigratedKey.keys
        = (Shared.matchedBySpec T M).map Shared.MigrationRule.recordKeys
    ∧ (Shared.matchedBySpec T M).Sublist M := by
  refine ⟨fun h => ?_, ?_, matchedBySpec_sublist M T⟩
  · have hno : ∀ r ∈ M.map Shared.MigrationRule.onTrees, has T.erase r.oldKey = false := by
      intro r hr
      obtain ⟨s, hs, rfl⟩ := List.mem_map.mp hr
      rw [has_eq_hasValueAt T.erase _
        ((literalFree_iff T.erase _).mp hl s.onTrees (List.mem_map_of_mem _ hs))]
      exact h s hs
    have e := erase_eq_iff T T.erase hT rfl
    rw [e, migrateKeys_unshared _ M hf]
    have : migrateKeys T.erase (M.map Shared.MigrationRule.onTrees) = (T.erase, []) :=
      migrate_noop _ T.erase [] hno
    rw [this]
    rfl
  · rw [erase_eq_iff T T.erase hT rfl]
    unfold Shared.migrateKeys
    rw [migrateFold_bySpec M T.erase [] hf hl]
    simp

theorem log_by_specification_witness :
    ((∀ r ∈ ([{ oldKey := "a", newKey := "b.c", migrate := fun v => v },
              { oldKey := "x.y", newKey := "b.d", migrate := fun v => .bool (!v.truthy) }] :
            List Shared.MigrationRule),
        hasValueAt (Node.obj none false [("x", .obj none false [("y", .num 2)])]).erase
          r.oldKey = false) →
      Shared.migrateKeys (.obj none false [("x", .obj none false [("y", .num 2)])])
          [{ oldKey := "a", newKey := "b.c", migrate := fun v => v },
           { oldKey := "x.y", newKey := "b.d", migrate := fun v => .bool (!v.truthy) }]
        = (.obj none false [("x", .obj none false [("y", .num 2)])], []))
    ∧ (Shared.migrateKeys (.obj none false [("x", .obj none false [("y", .num 2)])])
          [{ oldKey := "a", newKey := "b.c", migrate := fun v => v },
           { oldKey := "x.y", newKey := "b.d", migrate := fun v => .bool (!v.truthy) }]).2.map
          Shared.MigratedKey.keys
        = (Shared.matchedBySpec (.obj none false [("x", .obj none false [("y", .num 2)])])
          [{ oldKey := "a", newKey := "b.c", migrate := fun v => v },
           { oldKey := "x.y", newKey := "b.d", migrate := fun v => .bool (!v.truthy) }]).map
          Shared.MigrationRule.recordKeys
    ∧ (Shared.matchedBySpec (.obj none false [("x", .obj none false [("y", .num 2)])])
          [{ oldKey := "a", newKey := "b.c", migrate := fun v => v },
           { oldKey := "x.y", newKey := "b.d", migrate := fun v => .bool (!v.truthy) }]).Sublist
        [{ oldKey := "a", newKey := "b.c", migrate := fun v => v },
         { oldKey := "x.y", newKey := "b.d", migrate := fun v => .bool (!v.truthy) }] :=
  log_by_specification _ _ (by rfl)
    (by
      intro r hr v hv
      simp only [List.mem_cons, List.mem_singleton, List.not_mem_nil, or_false] at hr
      rcases hr with h | h <;> subst h
      · exact hv
      · rfl)
    (by decide) (by rfl)

end PostInstall
